import Mathlib

/-!
# Volumetric allocation core (`multires_bfusion/alloc_impl.hpp`)

A shallow embedding of the three ray-traversal allocators `buildOctantList`,
`buildParentOctantList` and `buildDenseOctantList`, of `depth_mask`, and of
the reprojection test `reprojectIntoImage` with its helper `bounds`.

Conventions of the embedding.

* `float` values live in a type `F` about which nothing is assumed beyond the
  presence of the operations the source applies to them (`+ - * /`, `<`, `==`,
  conversion from `int`, `floor`, `abs`, conversion to `int`).  Results that do
  not depend on rounding are therefore proved for every interpretation of the
  arithmetic; results about exact arithmetic instantiate `F` with `ℚ`.
* `int` values are unbounded integers; the `unsigned int` key counters wrap
  modulo `2^32`.
* Everything the allocators do to the outside world (calls of `fetch_octant`
  and `hash`, stores into an output list, calls of `active(true)`) is recorded
  in a chronological event log.
* The `do … while` ray loops and the `while (true)` adaptation loop take a fuel
  argument bounding the number of iterations.
* Eigen matrices are given by the blocks the code reads; the inverse of a
  three-by-three matrix is the closed form by cofactors.
-/

namespace AllocImpl

/-! ## Vectors and float operations -/

/-- Three-component vector (`Eigen::Vector3f`, `Eigen::Vector3i`). -/
structure Vec3 (α : Type) where
  x : α
  y : α
  z : α
deriving DecidableEq

/-- Two-component vector (`Eigen::Vector2i`). -/
structure Vec2 (α : Type) where
  x : α
  y : α
deriving DecidableEq

/-- Operations on `float` that are not ring notation: `std::floor`, the
conversion `static_cast<int>` and `abs`. -/
class FloatOps (F : Type) where
  floor : F → F
  toInt : F → Int
  abs : F → F

/-- Exact arithmetic: `floor` is the integer floor, the conversion to `int`
truncates toward zero. -/
instance : FloatOps ℚ where
  floor q := ((⌊q⌋ : Int) : ℚ)
  toInt q := if 0 ≤ q then ⌊q⌋ else ⌈q⌉
  abs q := |q|

/-- Component `i` of a vector (`v(i)`), `i = 0, 1, 2`. -/
def Vec3.get {α : Type} (v : Vec3 α) (i : Nat) : α :=
  if i = 0 then v.x else if i = 1 then v.y else v.z

/-- Assignment to component `i` of a vector (`v(i) = a`). -/
def Vec3.set {α : Type} (v : Vec3 α) (i : Nat) (a : α) : Vec3 α :=
  if i = 0 then { v with x := a } else if i = 1 then { v with y := a } else { v with z := a }

/-! ## Octree accessor, keys and the event log -/

/-- The argument tuple `(x, y, z, level)` of `oct.hash`.  The packed key is
represented by the tuple it encodes; a node of the tree is identified by the
tuple of its corner and level as well. -/
structure Key where
  x : Int
  y : Int
  z : Int
  level : Int
deriving DecidableEq

/-- The octree accessor used by the allocators (`se/octree.hpp`, external to
this file): map side, block side (the constants `OctreeT::blockSide` and
`VoxelBlock::side` are both the block side `B`), `fetch_octant`, and the `parent`
and `child` links of a node (`none` is the null pointer). -/
structure Octree where
  size : Int
  blockSide : Int
  fetch_octant : Int → Int → Int → Int → Option Key
  parent : Key → Option Key
  child : Key → Nat → Option Key

/-- The output buffers of the three allocators. -/
inductive Buffer where
  | allocation_list
  | parent_list
  | frustum_list
deriving DecidableEq

/-- Observable actions of an allocator. -/
inductive Event where
  | fetch (x y z level : Int)
  | hash (key : Key)
  | store (buf : Buffer) (idx : Nat) (key : Key)
  | activate (node : Key)
deriving DecidableEq

/-- Mutable state shared by all rays: the key counters (`voxel_count`,
`parent_count` or `allocation_count` in the first field, `frustum_count` in the
second) and the event log. -/
structure World where
  allocation_count : Nat
  frustum_count : Nat
  log : List Event
deriving DecidableEq

/-- How a run ended: normally, by exhausting the fuel of a loop, or by an
undefined operation (null dereference, read outside the depth image). -/
inductive Status where
  | ok
  | fuel
  | fault
deriving DecidableEq

/-- Outcome of a (partial) run. -/
structure Run where
  status : Status
  world : World

/-- Per-pixel ray set-up (lines 78-89): unit direction from the surface point to
the camera, traversal origin in metres, distance to the camera in voxels. -/
structure Ray (F : Type) where
  direction : Vec3 F
  allocation_origin : Vec3 F
  distance : F

/-- Inputs common to the three allocators.  `ray x y depth` stands for the
back-projection of pixel `(x, y)` through `camera_pose` and `K`. -/
structure Params (F : Type) where
  reserved_keys : Nat
  oct : Octree
  ray : Nat → Nat → F → Ray F
  depthmap : List F
  image_size : Vec2 Int
  voxel_dim : F
  band : F
  doubling_ratio : Int

/-- Integer base-2 logarithm (`log2`, `log2_const`) on the powers of two it is
applied to. -/
def log2 (n : Int) : Int := (Nat.log2 n.toNat : Nat)

/-- The level of single voxels, `max_level = log2(size)`. -/
def Octree.max_level (oct : Octree) : Int := log2 oct.size

/-- The level of the voxel blocks, `leaves_level = max_level - log2_const(blockSide)`. -/
def Octree.leaves_level (oct : Octree) : Int := oct.max_level - log2 oct.blockSide

/-- The bounds test on a cell, `0 <= c < size` on every axis. -/
def inBounds (size : Int) (c : Vec3 Int) : Bool :=
  decide (c.x < size) && decide (c.y < size) && decide (c.z < size)
    && decide (c.x ≥ 0) && decide (c.y ≥ 0) && decide (c.z ≥ 0)

/-- Post-increment of an `unsigned int` counter. -/
def incr (n : Nat) : Nat := (n + 1) % 2 ^ 32

/-- Append an event to the log. -/
def World.record (w : World) (e : Event) : World :=
  { w with log := w.log ++ [e] }

/-- Key emission of `buildOctantList` and `buildParentOctantList`:
`idx = count++; if (count <= reserved_keys) list[idx] = key;`. -/
def emitKey (buf : Buffer) (reserved_keys : Nat) (key : Key) (w : World) : World :=
  let w1 := w.record (Event.hash key)
  let idx := w1.allocation_count
  let w2 := { w1 with allocation_count := incr w1.allocation_count }
  if w2.allocation_count ≤ reserved_keys then w2.record (Event.store buf idx key) else w2

/-- The returned length `count >= reserved_keys ? reserved_keys : count`. -/
def returnedLength (count reserved_keys : Nat) : Nat :=
  if count ≥ reserved_keys then reserved_keys else count

/-- Read of `depthmap[i]`; `none` outside the array. -/
def readDepth {F : Type} (depthmap : List F) (i : Int) : Option F :=
  if 0 ≤ i then depthmap[i.toNat]? else none

/-- A `do body while (cond)` loop whose body may stop the run; at most `fuel`
iterations are executed. -/
def doWhile {σ : Type} (body : σ → World → Status × σ × World) (cond : σ → Bool) :
    Nat → σ → World → Run
  | 0, _, w => ⟨Status.fuel, w⟩
  | n + 1, s, w =>
    match body s w with
    | (Status.ok, s', w') => if cond s' then doWhile body cond n s' w' else ⟨Status.ok, w'⟩
    | (st, _, w') => ⟨st, w'⟩

section Generic

variable {F : Type} [Add F] [Sub F] [Mul F] [Div F] [IntCast F] [LT F]
  [∀ a b : F, Decidable (a < b)] [DecidableEq F] [FloatOps F]

/-- One pixel of the image loops: skip the pixel when its depth is zero, run
the ray otherwise. -/
def pixel (p : Params F) (perRay : Nat → Nat → F → World → Run) (y x : Nat) (r : Run) : Run :=
  match r.status with
  | Status.ok =>
    match readDepth p.depthmap ((x : Int) + (y : Int) * p.image_size.x) with
    | none => ⟨Status.fault, r.world⟩
    | some depth => if depth = ((0 : Int) : F) then r else perRay x y depth r.world
  | _ => r

/-- The two nested pixel loops `for y … for x …`, with stride 1 or 2. -/
def forPixels (p : Params F) (stride : Nat) (perRay : Nat → Nat → F → World → Run)
    (w : World) : Run :=
  let ys := (List.range ((p.image_size.y.toNat + stride - 1) / stride)).map (fun i => stride * i)
  let xs := (List.range ((p.image_size.x.toNat + stride - 1) / stride)).map (fun i => stride * i)
  ys.foldl (fun r y => xs.foldl (fun r x => pixel p perRay y x r) r) ⟨Status.ok, w⟩

/-- Quantisation of a float position, `s * (floor(p) / s).cast<int>()`. -/
def alignF (p : Vec3 F) (s : Int) : Vec3 Int :=
  ⟨s * FloatOps.toInt (FloatOps.floor p.x / (s : F)),
   s * FloatOps.toInt (FloatOps.floor p.y / (s : F)),
   s * FloatOps.toInt (FloatOps.floor p.z / (s : F))⟩

/-- Re-alignment `s * (c / s)` of an integer vector (truncating division). -/
def alignI (c : Vec3 Int) (s : Int) : Vec3 Int :=
  ⟨s * c.x.tdiv s, s * c.y.tdiv s, s * c.z.tdiv s⟩

/-- The factor `inv_voxel_dim = 1.f / voxel_dim` from metres to voxels. -/
def Params.inv_voxel_dim (p : Params F) : F := ((1 : Int) : F) / p.voxel_dim

/-- The traversal origin in voxels, `inv_voxel_dim * allocation_origin`. -/
def originV (p : Params F) (ray : Ray F) : Vec3 F :=
  ⟨p.inv_voxel_dim * ray.allocation_origin.x, p.inv_voxel_dim * ray.allocation_origin.y,
   p.inv_voxel_dim * ray.allocation_origin.z⟩

/-- The ray point `inv_voxel_dim * allocation_origin + travelled * direction`. -/
def posAt (p : Params F) (ray : Ray F) (travelled : F) : Vec3 F :=
  ⟨p.inv_voxel_dim * ray.allocation_origin.x + travelled * ray.direction.x,
   p.inv_voxel_dim * ray.allocation_origin.y + travelled * ray.direction.y,
   p.inv_voxel_dim * ray.allocation_origin.z + travelled * ray.direction.z⟩

/-- The fraction `(curr_pos_v - curr_node.cast<float>()) / size`. -/
def fracOf (pos : Vec3 F) (node : Vec3 Int) (size : Int) : Vec3 F :=
  ⟨(pos.x - (node.x : F)) / (size : F), (pos.y - (node.y : F)) / (size : F),
   (pos.z - (node.z : F)) / (size : F)⟩

/-- The distance `size / direction.array().abs()` between two crossings.  For a
zero component the float quotient is `+inf`, while the quotient of exact
arithmetic (`F := ℚ`) is `0`: the statements in exact arithmetic about the
traversal of a ray are about directions without zero component. -/
def deltaOf (direction : Vec3 F) (size : Int) : Vec3 F :=
  ⟨(size : F) / FloatOps.abs direction.x, (size : F) / FloatOps.abs direction.y,
   (size : F) / FloatOps.abs direction.z⟩

/-- The vector `step_base`: `-1` on the axes with negative direction, `+1` elsewhere. -/
def stepBase (direction : Vec3 F) : Vec3 Int :=
  ⟨if direction.x < ((0 : Int) : F) then -1 else 1,
   if direction.y < ((0 : Int) : F) then -1 else 1,
   if direction.z < ((0 : Int) : F) then -1 else 1⟩

/-- One component of the initial `T_max` (lines 111-134). -/
def tInit (d frac delta : F) : F :=
  if d < ((0 : Int) : F) then frac * delta else (((1 : Int) : F) - frac) * delta

/-- One component of a re-initialised `T_max` (lines 186-203). -/
def tReinit (travelled d frac delta : F) : F :=
  if d < ((0 : Int) : F) then travelled + frac * delta
  else travelled + (((1 : Int) : F) - frac) * delta

/-- Initial `T_max`. -/
def tMaxInit (direction frac delta : Vec3 F) : Vec3 F :=
  ⟨tInit direction.x frac.x delta.x, tInit direction.y frac.y delta.y,
   tInit direction.z frac.z delta.z⟩

/-- Re-initialised `T_max`. -/
def tMaxReinit (travelled : F) (direction frac delta : Vec3 F) : Vec3 F :=
  ⟨tReinit travelled direction.x frac.x delta.x, tReinit travelled direction.y frac.y delta.y,
   tReinit travelled direction.z frac.z delta.z⟩

/-- Loop state of one ray of `buildOctantList` / `buildParentOctantList`. -/
structure RayState (F : Type) where
  allocation_size : Int
  allocation_level : Int
  curr_node : Vec3 Int
  T_max : Vec3 F
  delta_T : Vec3 F
  step : Vec3 Int
  travelled : F

/-- The step along `x` (lines 209-211): move to `T_max.x`, one cell along `x`. -/
def stepX (s : RayState F) : RayState F :=
  { s with travelled := s.T_max.x
           curr_node := { s.curr_node with x := s.curr_node.x + s.step.x }
           T_max := { s.T_max with x := s.T_max.x + s.delta_T.x } }

/-- The step along `y` (lines 219-221). -/
def stepY (s : RayState F) : RayState F :=
  { s with travelled := s.T_max.y
           curr_node := { s.curr_node with y := s.curr_node.y + s.step.y }
           T_max := { s.T_max with y := s.T_max.y + s.delta_T.y } }

/-- The step along `z` (lines 213-215 and 223-225). -/
def stepZ (s : RayState F) : RayState F :=
  { s with travelled := s.T_max.z
           curr_node := { s.curr_node with z := s.curr_node.z + s.step.z }
           T_max := { s.T_max with z := s.T_max.z + s.delta_T.z } }

/-- The stepping phase (lines 206-227 and 404-425): advance along the axis with
the least `T_max`. -/
def advance (s : RayState F) : RayState F :=
  if s.T_max.x < s.T_max.y then
    if s.T_max.x < s.T_max.z then stepX s else stepZ s
  else
    if s.T_max.y < s.T_max.z then stepY s else stepZ s

/-- The doubling guard (lines 164-166, 363-365, 691-693):
`travelled - inv_voxel_dim*band/2 > doubling_ratio*ratio_size`,
`travelled - inv_voxel_dim*band > 0` and `size < bound`. -/
def doublingGuard (p : Params F) (travelled : F) (ratio_size size bound : Int) : Bool :=
  decide (((p.doubling_ratio * ratio_size : Int) : F)
            < travelled - p.inv_voxel_dim * p.band / ((2 : Int) : F))
    && decide (((0 : Int) : F) < travelled - p.inv_voxel_dim * p.band)
    && decide (size < bound)

/-! ## `buildOctantList` -/

/-- Initial loop state of a ray (lines 92-139). -/
def initRay (p : Params F) (ray : Ray F) : RayState F :=
  let allocation_size := p.oct.blockSide
  let allocation_level := p.oct.max_level - log2 allocation_size
  let curr_pos_v := originV p ray
  let curr_node := alignF curr_pos_v allocation_size
  let frac := fracOf curr_pos_v curr_node allocation_size
  let delta_T := deltaOf ray.direction allocation_size
  { allocation_size := allocation_size
    allocation_level := allocation_level
    curr_node := curr_node
    T_max := tMaxInit ray.direction frac delta_T
    delta_T := delta_T
    step := ⟨allocation_size * (stepBase ray.direction).x,
             allocation_size * (stepBase ray.direction).y,
             allocation_size * (stepBase ray.direction).z⟩
    travelled := ((0 : Int) : F) }

/-- Scaled step `size * step_base`. -/
def stepOf (direction : Vec3 F) (size : Int) : Vec3 Int :=
  ⟨size * (stepBase direction).x, size * (stepBase direction).y, size * (stepBase direction).z⟩

/-- The per-cell action of `buildOctantList` (lines 142-160). -/
def visitCell (p : Params F) (s : RayState F) (w : World) : World :=
  if inBounds p.oct.size s.curr_node then
    let w1 := w.record (Event.fetch s.curr_node.x s.curr_node.y s.curr_node.z s.allocation_level)
    match p.oct.fetch_octant s.curr_node.x s.curr_node.y s.curr_node.z s.allocation_level with
    | none =>
      emitKey Buffer.allocation_list p.reserved_keys
        ⟨s.curr_node.x, s.curr_node.y, s.curr_node.z, min s.allocation_level p.oct.leaves_level⟩ w1
    | some node =>
      if s.allocation_level ≥ p.oct.leaves_level then w1.record (Event.activate node) else w1
  else w

/-- The doubling phase of `buildOctantList` (lines 164-204). -/
def doubleSize (p : Params F) (ray : Ray F) (min_allocation_size : Int) (s : RayState F) :
    RayState F :=
  if doublingGuard p s.travelled s.allocation_size s.allocation_size min_allocation_size then
    let allocation_size := 2 * s.allocation_size
    let curr_pos_v := posAt p ray s.travelled
    let curr_node := alignI s.curr_node allocation_size
    let frac := fracOf curr_pos_v curr_node allocation_size
    let delta_T := deltaOf ray.direction allocation_size
    { allocation_size := allocation_size
      allocation_level := s.allocation_level - 1
      curr_node := curr_node
      T_max := tMaxReinit s.travelled ray.direction frac delta_T
      delta_T := delta_T
      step := stepOf ray.direction allocation_size
      travelled := s.travelled }
  else s

/-- One iteration of the ray loop of `buildOctantList` (lines 141-227). -/
def rayBody (p : Params F) (ray : Ray F) (min_allocation_size : Int) (s : RayState F)
    (w : World) : Status × RayState F × World :=
  (Status.ok, advance (doubleSize p ray min_allocation_size s), visitCell p s w)

/-- The loop condition `0 < distance - travelled`. -/
def rayCond (ray : Ray F) (s : RayState F) : Bool :=
  decide (((0 : Int) : F) < ray.distance - s.travelled)

/-- The traversal of one ray by `buildOctantList` (lines 77-228). -/
def traverseRay (fuel : Nat) (p : Params F) (min_allocation_size : Int) (x y : Nat) (depth : F)
    (w : World) : Run :=
  let ray := p.ray x y depth
  doWhile (rayBody p ray min_allocation_size) (rayCond ray) fuel (initRay p ray) w

/-- The clamp `(m > side) ? m : side` of lines 62 and 562. -/
def clampSize (m side : Int) : Int := if m > side then m else side

/-- Model of `buildOctantList`: the run over all pixels. -/
def buildOctantList (fuel : Nat) (p : Params F) (min_allocation_size : Int) : Run :=
  let min_allocation_size := clampSize min_allocation_size p.oct.blockSide
  forPixels p 1 (traverseRay fuel p min_allocation_size) ⟨0, 0, []⟩

/-- Value returned by `buildOctantList` / `buildParentOctantList` after a run
that came to its end. -/
def Run.returned (r : Run) (reserved_keys : Nat) : Option Nat :=
  match r.status with
  | Status.ok => some (returnedLength r.world.allocation_count reserved_keys)
  | _ => none

/-! ## `buildParentOctantList` -/

/-- Loop state of one ray of `buildParentOctantList`. -/
structure ParentState (F : Type) extends RayState F where
  parent_size : Int
  parent_level : Int

/-- Initial loop state of a ray of `buildParentOctantList` (lines 290-336). -/
def initParentRay (p : Params F) (ray : Ray F) : ParentState F :=
  let allocation_size := p.oct.blockSide
  let allocation_level := p.oct.max_level - log2 allocation_size
  let parent_size := 2 * allocation_size
  let parent_level := allocation_level - 1
  let curr_pos_v := originV p ray
  let curr_node := alignF curr_pos_v parent_size
  let frac := fracOf curr_pos_v curr_node parent_size
  let delta_T := deltaOf ray.direction parent_size
  { allocation_size := allocation_size
    allocation_level := allocation_level
    curr_node := curr_node
    T_max := tMaxInit ray.direction frac delta_T
    delta_T := delta_T
    step := stepOf ray.direction parent_size
    travelled := ((0 : Int) : F)
    parent_size := parent_size
    parent_level := parent_level }

/-- Sibling activation (lines 354-357): `active(true)` on the 8 children of the
parent of `node`; a null parent or child is a fault. -/
def activateSiblings (oct : Octree) (node : Key) (w : World) : Status × World :=
  match oct.parent node with
  | none => (Status.fault, w)
  | some parent_ptr =>
    (List.range 8).foldl
      (fun (acc : Status × World) i =>
        match acc.1 with
        | Status.ok =>
          match oct.child parent_ptr i with
          | none => (Status.fault, acc.2)
          | some c => (Status.ok, acc.2.record (Event.activate c))
        | _ => acc)
      (Status.ok, w)

/-- The per-cell action of `buildParentOctantList` (lines 339-359). -/
def visitParentCell (p : Params F) (s : ParentState F) (w : World) : Status × World :=
  if inBounds p.oct.size s.curr_node then
    let w1 := w.record (Event.fetch s.curr_node.x s.curr_node.y s.curr_node.z s.allocation_level)
    match p.oct.fetch_octant s.curr_node.x s.curr_node.y s.curr_node.z s.allocation_level with
    | none =>
      (Status.ok, emitKey Buffer.parent_list p.reserved_keys
        ⟨s.curr_node.x, s.curr_node.y, s.curr_node.z, s.parent_level⟩ w1)
    | some node =>
      if s.allocation_level ≥ p.oct.leaves_level then activateSiblings p.oct node w1
      else (Status.ok, w1)
  else (Status.ok, w)

/-- The doubling phase of `buildParentOctantList` (lines 363-402). -/
def doubleParentSize (p : Params F) (ray : Ray F) (min_allocation_size : Int)
    (s : ParentState F) : ParentState F :=
  if doublingGuard p s.travelled s.allocation_size s.allocation_size min_allocation_size then
    let allocation_size := 2 * s.allocation_size
    let parent_size := 2 * allocation_size
    let allocation_level := s.allocation_level - 1
    let parent_level := allocation_level - 1
    let curr_pos_v := posAt p ray s.travelled
    let curr_node := alignI s.curr_node parent_size
    let frac := fracOf curr_pos_v curr_node parent_size
    let delta_T := deltaOf ray.direction parent_size
    { allocation_size := allocation_size
      allocation_level := allocation_level
      curr_node := curr_node
      T_max := tMaxReinit s.travelled ray.direction frac delta_T
      delta_T := delta_T
      step := stepOf ray.direction parent_size
      travelled := s.travelled
      parent_size := parent_size
      parent_level := parent_level }
  else s

/-- One iteration of the ray loop of `buildParentOctantList` (lines 338-425). -/
def parentBody (p : Params F) (ray : Ray F) (min_allocation_size : Int) (s : ParentState F)
    (w : World) : Status × ParentState F × World :=
  let r := visitParentCell p s w
  match r.1 with
  | Status.ok =>
    let s1 := doubleParentSize p ray min_allocation_size s
    (Status.ok, { s1 with toRayState := advance s1.toRayState }, r.2)
  | st => (st, s, r.2)

/-- The traversal of one ray by `buildParentOctantList` (lines 275-426). -/
def traverseParentRay (fuel : Nat) (p : Params F) (min_allocation_size : Int) (x y : Nat)
    (depth : F) (w : World) : Run :=
  let ray := p.ray x y depth
  doWhile (parentBody p ray min_allocation_size) (fun s => rayCond ray s.toRayState) fuel
    (initParentRay p ray) w

/-- Model of `buildParentOctantList`; the doubling guard uses the parameter
`min_allocation_size` as passed (`min_parent_size` is computed but never read). -/
def buildParentOctantList (fuel : Nat) (p : Params F) (min_allocation_size : Int) : Run :=
  forPixels p 1 (traverseParentRay fuel p min_allocation_size) ⟨0, 0, []⟩

/-! ## `depth_mask` -/

/-- Integer image (`se::Image<int>`): width, height and the row-major data. -/
structure Image where
  width : Int
  height : Int
  data : List Int

/-- Constructor `se::Image<int>(width, height)`. -/
def Image.create (width height : Int) : Image :=
  ⟨width, height, List.replicate (width * height).toNat 0⟩

/-- The assignment `mask[i] = v`. -/
def Image.assign (m : Image) (i : Int) (v : Int) : Option Image :=
  if 0 ≤ i ∧ i.toNat < m.data.length then some { m with data := m.data.set i.toNat v } else none

/-- The read `mask.data()[i]`. -/
def Image.read (m : Image) (i : Int) : Option Int :=
  if 0 ≤ i then m.data[i.toNat]? else none

/-- The two inner loops of `depth_mask` (lines 453-462) for the mask cell
`(x, y)`: `data_complete`, or `none` when a read leaves the depth image. -/
def maskCell (depthmap : List F) (image_size : Vec2 Int) (downsample : Int) (x y : Nat) :
    Option Bool :=
  (List.range downsample.toNat).foldl
    (fun acc (i : Nat) =>
      (List.range downsample.toNat).foldl
        (fun acc (j : Nat) =>
          acc.bind fun data_complete =>
            let curr : Vec2 Int := ⟨downsample * x + j, downsample * y + i⟩
            (readDepth depthmap (curr.x + curr.y * image_size.x)).map fun curr_value =>
              if curr_value = ((0 : Int) : F) then false else data_complete)
        acc)
    (some true)

/-- The store `mask[x + y * mask.width()] = data_complete` of line 463, where
`cell x y` is the value of `data_complete` for the mask cell `(x, y)`. -/
def maskStore (cell : Nat → Nat → Option Bool) (y : Nat) (acc : Option Image) (x : Nat) :
    Option Image :=
  acc.bind fun m =>
    (cell x y).bind fun data_complete =>
      m.assign ((x : Int) + (y : Int) * m.width) (if data_complete then 1 else 0)

/-- Model of `depth_mask` (lines 445-467); `none` when a read or a store is out
of range. -/
def depth_mask (depthmap : List F) (image_size : Vec2 Int) (downsample : Int) : Option Image :=
  let mask := Image.create (image_size.x.tdiv downsample) (image_size.y.tdiv downsample)
  (List.range mask.height.toNat).foldl
    (fun acc (y : Nat) =>
      (List.range mask.width.toNat).foldl
        (maskStore (maskCell depthmap image_size downsample) y) acc)
    (some mask)

/-! ## `buildDenseOctantList` -/

/-- Loop state of one ray of `buildDenseOctantList`. -/
structure DenseState (F : Type) where
  curr_allocation_size : Int
  curr_allocation_level : Int
  curr_max_allocation_size : Int
  curr_node : Vec3 Int
  last_move : Nat × Int
  travelled : F

/-- Result of the in-cell adaptation: size, level and re-aligned cell. -/
structure Adapted where
  size : Int
  level : Int
  node : Vec3 Int
deriving DecidableEq

/-- The in-cell adaptation loop `while (true)` of lines 651-670.  `reproject
node size` is the call `reprojectIntoImage(Twc, K, image_size, mask, downsample,
node, voxel_dim, size)`; the counter `count` of line 652 is never read and is
left out.  `none` when the fuel runs out. -/
def adaptLoop (reproject : Vec3 Int → Int → Bool)
    (min_allocation_size curr_max_allocation_size : Int) (last_node : Vec3 Int) :
    Nat → Int → Int → Bool → Option Adapted
  | 0, _, _, _ => none
  | n + 1, curr_allocation_size, curr_allocation_level, is_halfend =>
    let curr_node := alignI last_node curr_allocation_size
    -- lines 662-669: stop, or try the parent cell
    let grow : Option Adapted :=
      if 2 * curr_allocation_size > curr_max_allocation_size ∨ is_halfend = true then
        some ⟨curr_allocation_size, curr_allocation_level, curr_node⟩
      else
        let tmp_size := 2 * curr_allocation_size
        let tmp_node := alignI last_node tmp_size
        if reproject tmp_node tmp_size = false then
          some ⟨curr_allocation_size, curr_allocation_level, curr_node⟩
        else
          adaptLoop reproject min_allocation_size curr_max_allocation_size last_node n
            tmp_size (curr_allocation_level - 1) is_halfend
    -- lines 654-661
    if curr_allocation_size > min_allocation_size then
      if reproject curr_node curr_allocation_size = false then
        adaptLoop reproject min_allocation_size curr_max_allocation_size last_node n
          (curr_allocation_size.tdiv 2) (curr_allocation_level + 1) true
      else grow
    else if reproject curr_node curr_allocation_size = false then
      some ⟨curr_allocation_size, curr_allocation_level, curr_node⟩
    else grow

/-- Key emission of `buildDenseOctantList` (lines 675-686): the frustum list
when `far`, the allocation list otherwise; the counter is compared with
`reserved_keys` before it is incremented. -/
def emitDense (reserved_keys : Nat) (far : Bool) (key : Key) (w : World) : World :=
  let w1 := w.record (Event.hash key)
  if far then
    if w1.frustum_count ≤ reserved_keys then
      { w1 with frustum_count := incr w1.frustum_count
                log := w1.log ++ [Event.store Buffer.frustum_list w1.frustum_count key] }
    else w1
  else if w1.allocation_count ≤ reserved_keys then
    { w1 with allocation_count := incr w1.allocation_count
              log := w1.log ++ [Event.store Buffer.allocation_list w1.allocation_count key] }
  else w1

/-- The per-cell action of `buildDenseOctantList` (lines 643-690). -/
def visitDenseCell (fuel : Nat) (p : Params F) (reproject : Vec3 Int → Int → Bool)
    (s : DenseState F) (w : World) : Status × DenseState F × World :=
  let min_allocation_size := p.oct.blockSide
  if inBounds p.oct.size s.curr_node then
    let last_node := s.curr_node
    match adaptLoop reproject min_allocation_size s.curr_max_allocation_size last_node fuel
        s.curr_allocation_size s.curr_allocation_level false with
    | none => (Status.fuel, s, w)
    | some a =>
      let s1 := { s with curr_allocation_size := a.size
                         curr_allocation_level := a.level
                         curr_node := a.node }
      let w1 := w.record (Event.fetch a.node.x a.node.y a.node.z a.level)
      match p.oct.fetch_octant a.node.x a.node.y a.node.z a.level with
      | none =>
        let far : Bool :=
          decide (((2 * p.doubling_ratio * min_allocation_size : Int) : F) < s.travelled)
        (Status.ok, s1,
          emitDense p.reserved_keys far
            ⟨a.node.x, a.node.y, a.node.z, min a.level p.oct.leaves_level⟩ w1)
      | some node => (Status.ok, s1, w1.record (Event.activate node))
  else (Status.ok, s, w)

/-- Growth of `curr_max_allocation_size` (lines 691-693). -/
def growMax (p : Params F) (max_allocation_size : Int) (s : DenseState F) : DenseState F :=
  if doublingGuard p s.travelled s.curr_max_allocation_size s.curr_allocation_size
      max_allocation_size then
    { s with curr_max_allocation_size := s.curr_max_allocation_size * 2 }
  else s

/-- One branch of the dense stepping phase (lines 726-731 and the three
others): move to `T`, recompute the cell from the ray position, step along
`axis`, clamp along the axis of the last move. -/
def denseMove (p : Params F) (ray : Ray F) (s : DenseState F) (axis : Nat) (T : F) :
    DenseState F :=
  let step_base := stepBase ray.direction
  let pos := posAt p ray T
  let c : Vec3 Int := ⟨FloatOps.toInt pos.x, FloatOps.toInt pos.y, FloatOps.toInt pos.z⟩
  let c := c.set axis (c.get axis + step_base.get axis)
  let c :=
    if step_base.get s.last_move.1 * c.get s.last_move.1 < step_base.get s.last_move.1 * s.last_move.2
    then c.set s.last_move.1 s.last_move.2 else c
  { s with travelled := T, curr_node := c, last_move := (axis, c.get axis) }

/-- The stepping phase of `buildDenseOctantList` (lines 695-756). -/
def denseAdvance (p : Params F) (ray : Ray F) (s : DenseState F) : DenseState F :=
  let curr_pos_v := posAt p ray s.travelled
  let frac := fracOf curr_pos_v s.curr_node s.curr_allocation_size
  let delta_T := deltaOf ray.direction s.curr_allocation_size
  let T_max := tMaxReinit s.travelled ray.direction frac delta_T
  if T_max.x < T_max.y then
    if T_max.x < T_max.z then denseMove p ray s 0 T_max.x else denseMove p ray s 2 T_max.z
  else
    if T_max.y < T_max.z then denseMove p ray s 1 T_max.y else denseMove p ray s 2 T_max.z

/-- One iteration of the ray loop of `buildDenseOctantList` (lines 642-756). -/
def denseBody (fuel : Nat) (p : Params F) (reproject : Vec3 Int → Int → Bool) (ray : Ray F)
    (max_allocation_size : Int) (s : DenseState F) (w : World) :
    Status × DenseState F × World :=
  let r := visitDenseCell fuel p reproject s w
  match r.1 with
  | Status.ok => (Status.ok, denseAdvance p ray (growMax p max_allocation_size r.2.1), r.2.2)
  | st => (st, r.2.1, r.2.2)

/-- Initial loop state of a ray of `buildDenseOctantList` (lines 596-639). -/
def initDenseRay (p : Params F) (ray : Ray F) : DenseState F :=
  let min_allocation_size := p.oct.blockSide
  let curr_allocation_size := min_allocation_size
  let curr_pos_v := originV p ray
  let curr_node := alignF curr_pos_v curr_allocation_size
  { curr_allocation_size := curr_allocation_size
    curr_allocation_level := p.oct.max_level - log2 curr_allocation_size
    curr_max_allocation_size := min_allocation_size
    curr_node := curr_node
    last_move := (0, curr_node.x)
    travelled := ((0 : Int) : F) }

/-- The loop condition `0.1 < distance - travelled`. -/
def denseCond (ray : Ray F) (s : DenseState F) : Bool :=
  decide (((1 : Int) : F) / ((10 : Int) : F) < ray.distance - s.travelled)

/-- The traversal of one ray by `buildDenseOctantList` (lines 581-757). -/
def traverseDenseRay (fuel : Nat) (p : Params F) (reproject : Vec3 Int → Int → Bool)
    (max_allocation_size : Int) (x y : Nat) (depth : F) (w : World) : Run :=
  let ray := p.ray x y depth
  doWhile (denseBody fuel p reproject ray max_allocation_size) (denseCond ray) fuel
    (initDenseRay p ray) w

/-- Model of `buildDenseOctantList`.  `reproject mask node size` stands for
`reprojectIntoImage(Twc, K, image_size, mask, 4, node, voxel_dim, size)`. -/
def buildDenseOctantList (fuel : Nat) (p : Params F) (reproject : Image → Vec3 Int → Int → Bool)
    (max_allocation_size : Int) : Run :=
  match depth_mask p.depthmap p.image_size 4 with
  | none => ⟨Status.fault, ⟨0, 0, []⟩⟩
  | some mask =>
    let max_allocation_size := clampSize max_allocation_size p.oct.blockSide
    forPixels p 2 (traverseDenseRay fuel p (reproject mask) max_allocation_size) ⟨0, 0, []⟩

/-- The output lengths `allocation_length` and `frustum_length` set at the end
of `buildDenseOctantList` (lines 760-761). -/
def Run.denseLengths (r : Run) (reserved_keys : Nat) : Option (Nat × Nat) :=
  match r.status with
  | Status.ok => some (returnedLength r.world.allocation_count reserved_keys,
                       returnedLength r.world.frustum_count reserved_keys)
  | _ => none

end Generic

/-! ## `bounds` and `reprojectIntoImage` -/

/-- Three-by-three matrix (`Eigen::Matrix3f`), by rows. -/
structure Mat3 (α : Type) where
  r0 : Vec3 α
  r1 : Vec3 α
  r2 : Vec3 α
deriving DecidableEq

/-- The two blocks of an `Eigen::Matrix4f` that `reprojectIntoImage` reads:
`topLeftCorner<3,3>()` and `topRightCorner<3,1>()`. -/
structure Mat4 (α : Type) where
  topLeftCorner : Mat3 α
  topRightCorner : Vec3 α
deriving DecidableEq

/-- The values computed before the corner loop (lines 474-480). -/
structure Frame (F : Type) where
  delta_m_c : Vec3 F
  delta_p : Vec3 F
  base_m_c : Vec3 F
  base_p : Vec3 F

/-- State of the corner loop (lines 485-505): the flag and the two arrays. -/
structure Corners (F : Type) where
  is_inside : Bool
  corners_p_x : Nat → F
  corners_p_y : Nat → F

/-- The vector `Eigen::Vector3i((i & 1) > 0, (i & 2) > 0, (i & 4) > 0)`. -/
def cornerDir (i : Nat) : Vec3 Int :=
  ⟨if 0 < i &&& 1 then 1 else 0, if 0 < i &&& 2 then 1 else 0, if 0 < i &&& 4 then 1 else 0⟩

/-- The integer range of `for (int v = lo; v <= hi; v++)`. -/
def intRange (lo hi : Int) : List Int :=
  (List.range (hi + 1 - lo).toNat).map fun (k : Nat) => lo + (k : Int)

/-- The mask scan of lines 512-520: every cell of the box is read at
`x + y * mask.width()`, a zero clears `node_valid`; `none` when the division by
`downsample` or a read is undefined. -/
def maskScan (mask : Image) (downsample : Int) (x_bounds y_bounds : Int × Int)
    (node_valid : Bool) : Option Bool :=
  if downsample = 0 then none
  else
    (intRange (y_bounds.1.tdiv downsample) (y_bounds.2.tdiv downsample)).foldl
      (fun acc (y : Int) =>
        (intRange (x_bounds.1.tdiv downsample) (x_bounds.2.tdiv downsample)).foldl
          (fun acc (x : Int) =>
            acc.bind fun node_valid =>
              (mask.read (x + y * mask.width)).map fun v =>
                if v = 0 then false else node_valid)
          acc)
      (some node_valid)

section Reprojection

variable {F : Type} [Add F] [Sub F] [Mul F] [Div F] [Neg F] [IntCast F] [LT F]
  [∀ a b : F, Decidable (a < b)] [FloatOps F]

/-- The float literal `n / d` (`0.5f`, `1.5f`, `0.0001f`). -/
def floatLit (n d : Int) : F := ((n : Int) : F) / ((d : Int) : F)

/-- Sum of two vectors. -/
def Vec3.add (a b : Vec3 F) : Vec3 F := ⟨a.x + b.x, a.y + b.y, a.z + b.z⟩

/-- The product `dir.cast<float>().cwiseProduct(v)`. -/
def cwiseDir (dir : Vec3 Int) (v : Vec3 F) : Vec3 F :=
  ⟨((dir.x : Int) : F) * v.x, ((dir.y : Int) : F) * v.y, ((dir.z : Int) : F) * v.z⟩

/-- Matrix-vector product `m * v`. -/
def Mat3.mulVec (m : Mat3 F) (v : Vec3 F) : Vec3 F :=
  ⟨m.r0.x * v.x + m.r0.y * v.y + m.r0.z * v.z,
   m.r1.x * v.x + m.r1.y * v.y + m.r1.z * v.z,
   m.r2.x * v.x + m.r2.y * v.y + m.r2.z * v.z⟩

/-- The call `m.inverse()` on a fixed-size three-by-three matrix: the
cofactors times the inverse of the determinant. -/
def Mat3.inverse (m : Mat3 F) : Mat3 F :=
  let c00 := m.r1.y * m.r2.z - m.r1.z * m.r2.y
  let c01 := m.r1.z * m.r2.x - m.r1.x * m.r2.z
  let c02 := m.r1.x * m.r2.y - m.r1.y * m.r2.x
  let det := m.r0.x * c00 + m.r0.y * c01 + m.r0.z * c02
  let invdet := ((1 : Int) : F) / det
  ⟨⟨c00 * invdet, (m.r0.z * m.r2.y - m.r0.y * m.r2.z) * invdet,
      (m.r0.y * m.r1.z - m.r0.z * m.r1.y) * invdet⟩,
   ⟨c01 * invdet, (m.r0.x * m.r2.z - m.r0.z * m.r2.x) * invdet,
      (m.r0.z * m.r1.x - m.r0.x * m.r1.z) * invdet⟩,
   ⟨c02 * invdet, (m.r0.y * m.r2.x - m.r0.x * m.r2.y) * invdet,
      (m.r0.x * m.r1.y - m.r0.y * m.r1.x) * invdet⟩⟩

/-- Model of `bounds` (lines 432-443): `min` and `max` are `int`, every
assignment converts the float, every comparison converts the `int`. -/
def bounds (val : Nat → F) : Int × Int :=
  (List.range' 1 7).foldl
    (fun (mm : Int × Int) (i : Nat) =>
      if val i < ((mm.1 : Int) : F) then (FloatOps.toInt (val i), mm.2)
      else if ((mm.2 : Int) : F) < val i then (mm.1, FloatOps.toInt (val i))
      else mm)
    (FloatOps.toInt (val 0), FloatOps.toInt (val 0))

/-- Lines 474-480 of `reprojectIntoImage`: `tcw`, `Rcw`, `delta_m_c`,
`delta_p`, `base_m_c` and `base_p`. -/
def reprojectFrame (Twc K : Mat4 F) (world_node : Vec3 Int) (voxel_dim : F) (node_size : Int) :
    Frame F :=
  let tcw : Vec3 F := ⟨-Twc.topRightCorner.x, -Twc.topRightCorner.y, -Twc.topRightCorner.z⟩
  let Rcw := Twc.topLeftCorner.inverse
  let c := voxel_dim * ((node_size : Int) : F)
  let delta_m_c := Rcw.mulVec ⟨c, c, c⟩
  let delta_p := K.topLeftCorner.mulVec delta_m_c
  let base_m_c := Rcw.mulVec
    ⟨voxel_dim * ((world_node.x : Int) : F) + tcw.x, voxel_dim * ((world_node.y : Int) : F) + tcw.y,
     voxel_dim * ((world_node.z : Int) : F) + tcw.z⟩
  let base_p := K.topLeftCorner.mulVec base_m_c
  ⟨delta_m_c, delta_p, base_m_c, base_p⟩

/-- The vector `corner_m_c` of corner `i` (line 488). -/
def corner_m_c (fr : Frame F) (i : Nat) : Vec3 F :=
  Vec3.add fr.base_m_c (cwiseDir (cornerDir i) fr.delta_m_c)

/-- The vector `corner_homo` of corner `i` (line 489). -/
def corner_homo (fr : Frame F) (i : Nat) : Vec3 F :=
  Vec3.add fr.base_p (cwiseDir (cornerDir i) fr.delta_p)

/-- The vector `corner_p` of corner `i` (lines 495-498). -/
def corner_p (fr : Frame F) (i : Nat) : Vec2 F :=
  let inverse_depth := ((1 : Int) : F) / (corner_homo fr i).z
  ⟨(corner_homo fr i).x * inverse_depth + floatLit 1 2,
   (corner_homo fr i).y * inverse_depth + floatLit 1 2⟩

/-- The depth test `corner_m_c(2) < 0.0001f` of line 491. -/
def behindCamera (fr : Frame F) (i : Nat) : Bool :=
  decide ((corner_m_c fr i).z < floatLit 1 10000)

/-- The image test of lines 501-502 on `corner_p`. -/
def outsideImage (fr : Frame F) (image_size : Vec2 Int) (i : Nat) : Bool :=
  decide ((corner_p fr i).x < floatLit 1 2) ||
  decide (((image_size.x : Int) : F) - floatLit 3 2 < (corner_p fr i).x) ||
  decide ((corner_p fr i).y < floatLit 1 2) ||
  decide (((image_size.y : Int) : F) - floatLit 3 2 < (corner_p fr i).y)

/-- One iteration of the corner loop (lines 485-505). -/
def cornerStep (fr : Frame F) (image_size : Vec2 Int) (s : Corners F) (i : Nat) : Corners F :=
  if behindCamera fr i then { s with is_inside := false }
  else
    let s1 : Corners F :=
      { s with corners_p_x := fun j => if j = i then (corner_p fr i).x else s.corners_p_x j
               corners_p_y := fun j => if j = i then (corner_p fr i).y else s.corners_p_y j }
    if outsideImage fr image_size i then { s1 with is_inside := false } else s1

/-- The corner loop (lines 485-505); `uninit` is the indeterminate content of
the two arrays before the loop. -/
def cornerLoop (uninit : F) (fr : Frame F) (image_size : Vec2 Int) : Corners F :=
  (List.range 8).foldl (cornerStep fr image_size) ⟨true, fun _ => uninit, fun _ => uninit⟩

/-- Model of `reprojectIntoImage` (lines 469-528). `uninit` is the
indeterminate content of `corners_p_x` and `corners_p_y` before the loop;
`none` when the mask scan divides by zero or reads outside the mask. -/
def reprojectIntoImage (uninit : F) (Twc K : Mat4 F) (image_size : Vec2 Int) (mask : Image)
    (downsample : Int) (world_node : Vec3 Int) (voxel_dim : F) (node_size : Int) : Option Bool :=
  let s := cornerLoop uninit (reprojectFrame Twc K world_node voxel_dim node_size) image_size
  let x_bounds := bounds s.corners_p_x
  let y_bounds := bounds s.corners_p_y
  let node_valid := s.is_inside
  if s.is_inside = true ∧ 8 < node_size then maskScan mask downsample x_bounds y_bounds node_valid
  else some node_valid

end Reprojection

/-! ## Projections of the event log -/

/-- The keys produced (arguments of the `hash` calls), in order. -/
def hashKeys (log : List Event) : List Key :=
  log.filterMap fun e => match e with
    | Event.hash k => some k
    | _ => none

/-- The stores into output lists, in order. -/
def storeEvents (log : List Event) : List Event :=
  log.filter fun e => match e with
    | Event.store _ _ _ => true
    | _ => false

/-- Counter and stores agree with the keys produced so far: while fewer than
`2^32` keys were produced, the counter is their number and the stores are the
first `R` keys, the `i`-th into slot `i`. -/
def CountInv (buf : Buffer) (R : Nat) (w : World) : Prop :=
  (hashKeys w.log).length < 2 ^ 32 →
    w.allocation_count = (hashKeys w.log).length ∧
    storeEvents w.log
      = (((hashKeys w.log).take R).enum.map fun ik => Event.store buf ik.1 ik.2)

/-! ## Invariants of the logs and of the loop states -/

/-- Side of a node at `level`, counted up from the leaves:
`blockSide * 2^(leaves_level - level)`. -/
def Octree.sideAt (oct : Octree) (level : Int) : Int :=
  oct.blockSide * 2 ^ (oct.leaves_level - level).toNat

/-- The half-open box `[0, size)^3`. -/
def inBox (size x y z : Int) : Prop :=
  0 ≤ x ∧ x < size ∧ 0 ≤ y ∧ y < size ∧ 0 ≤ z ∧ z < size

/-- What holds of every event of a run: fetches and keys are inside the map and
not below leaf level, keys are aligned to the side of their level. -/
def EvOK (oct : Octree) : Event → Prop
  | Event.fetch x y z l => inBox oct.size x y z ∧ l ≤ oct.leaves_level
  | Event.hash k =>
    inBox oct.size k.x k.y k.z ∧ k.level ≤ oct.leaves_level
      ∧ oct.sideAt k.level ∣ k.x ∧ oct.sideAt k.level ∣ k.y ∧ oct.sideAt k.level ∣ k.z
  | _ => True

/-- Every event of the log satisfies `EvOK`. -/
def LogOK (oct : Octree) (w : World) : Prop := ∀ e ∈ w.log, EvOK oct e

/-- An event that is neither a fetch nor a key production. -/
def Event.isEffect : Event → Prop
  | Event.store _ _ _ => True
  | Event.activate _ => True
  | _ => False

/-- The events of one visited in-bounds cell: the fetch of `(x, y, z, l)`,
followed by the production of the key `(x, y, z, l)` exactly when the fetch
returns no node, followed by stores or activations only. -/
def IsCellGroup (oct : Octree) (g : List Event) : Prop :=
  ∃ x y z l tl, (∀ e ∈ tl, e.isEffect) ∧
    ((oct.fetch_octant x y z l = none
        ∧ g = Event.fetch x y z l :: Event.hash ⟨x, y, z, l⟩ :: tl)
      ∨ ((oct.fetch_octant x y z l).isSome = true ∧ g = Event.fetch x y z l :: tl))

/-- The log is a sequence of cell groups. -/
def CellTrace (oct : Octree) (log : List Event) : Prop :=
  ∃ groups : List (List Event), log = groups.flatten ∧ ∀ g ∈ groups, IsCellGroup oct g

/-- Invariant of the ray state of `buildOctantList`: the level is at most the
leaf level, the size is the side of that level, cell and step are multiples of
the size. -/
def RayInv {F : Type} (oct : Octree) (s : RayState F) : Prop :=
  s.allocation_level ≤ oct.leaves_level ∧ s.allocation_size = oct.sideAt s.allocation_level
    ∧ (s.allocation_size ∣ s.curr_node.x ∧ s.allocation_size ∣ s.curr_node.y
        ∧ s.allocation_size ∣ s.curr_node.z)
    ∧ (s.allocation_size ∣ s.step.x ∧ s.allocation_size ∣ s.step.y
        ∧ s.allocation_size ∣ s.step.z)

/-- Invariant of the ray state of `buildParentOctantList`. -/
def ParentInv {F : Type} (oct : Octree) (s : ParentState F) : Prop :=
  s.allocation_level ≤ oct.leaves_level ∧ s.allocation_size = oct.sideAt s.allocation_level
    ∧ s.parent_size = 2 * s.allocation_size ∧ s.parent_level = s.allocation_level - 1
    ∧ (s.parent_size ∣ s.curr_node.x ∧ s.parent_size ∣ s.curr_node.y
        ∧ s.parent_size ∣ s.curr_node.z)
    ∧ (s.parent_size ∣ s.step.x ∧ s.parent_size ∣ s.step.y ∧ s.parent_size ∣ s.step.z)

/-- What holds of every key of the parent allocator: the fetch one level below
the key, at the same corner, found no node. -/
def ChildAbsent (oct : Octree) : Event → Prop
  | Event.hash k =>
    oct.fetch_octant k.x k.y k.z (k.level + 1) = none ∧ k.level + 1 ≤ oct.leaves_level
  | _ => True

/-- Invariant of the ray state of `buildDenseOctantList`. -/
def DenseInv {F : Type} (oct : Octree) (s : DenseState F) : Prop :=
  s.curr_allocation_level ≤ oct.leaves_level
    ∧ s.curr_allocation_size = oct.sideAt s.curr_allocation_level

/-- Specification of a mask cell: every one of the `d × d` source pixels
`(d*x + j, d*y + i)` is read inside the depth image and differs from zero. -/
def dataComplete {F : Type} [IntCast F] [DecidableEq F] (depthmap : List F) (width : Int)
    (d : Int) (x y : Nat) : Bool :=
  (List.range d.toNat).all fun i =>
    (List.range d.toNat).all fun j =>
      decide (readDepth depthmap ((d * x + j) + (d * y + i) * width) ≠ some ((0 : Int) : F))

/-! ## The traversal inside the band, in exact arithmetic -/

/-- The `B`-aligned cell `B * floor(q / B)` containing the point `q`. -/
def cellOf (B : Int) (q : Vec3 ℚ) : Vec3 Int :=
  ⟨B * ⌊q.x / (B : ℚ)⌋, B * ⌊q.y / (B : ℚ)⌋, B * ⌊q.z / (B : ℚ)⌋⟩

/-- Invariant of one axis of the traversal while the cell side is `B`: the cell
coordinate `c` is a multiple of `B`, `T` is the distance at which the ray
leaves the slab `[c, c + B]` of the axis (through the lower face when the
direction is negative, through the upper face otherwise), and the travelled
distance `τ` lies in the last `B / |d|` before `T`. -/
def AxisInv (B : Int) (p0 d : ℚ) (c : Int) (T τ : ℚ) : Prop :=
  B ∣ c ∧ τ ≤ T ∧ T - (B : ℚ) / |d| ≤ τ
    ∧ p0 + T * d = if d < 0 then (c : ℚ) else (c : ℚ) + (B : ℚ)

/-- Invariant of the ray state of `buildOctantList` before the first doubling. -/
def BandInv (p : Params ℚ) (ray : Ray ℚ) (s : RayState ℚ) : Prop :=
  s.allocation_size = p.oct.blockSide ∧ s.allocation_level = p.oct.leaves_level
    ∧ s.delta_T = deltaOf ray.direction p.oct.blockSide
    ∧ s.step = stepOf ray.direction p.oct.blockSide
    ∧ AxisInv p.oct.blockSide (originV p ray).x ray.direction.x s.curr_node.x s.T_max.x
        s.travelled
    ∧ AxisInv p.oct.blockSide (originV p ray).y ray.direction.y s.curr_node.y s.T_max.y
        s.travelled
    ∧ AxisInv p.oct.blockSide (originV p ray).z ray.direction.z s.curr_node.z s.T_max.z
        s.travelled

/-- Number of face crossings of one axis at distances `≤ t`, from the next
crossing `T` on, the crossings being `δ` apart. -/
def axisCount (t T δ : ℚ) : Nat := (⌊(t - T) / δ⌋ + 1).toNat

/-- Number of face crossings at distances `≤ t` still ahead of the state. -/
def crossings (t : ℚ) (s : RayState ℚ) : Nat :=
  axisCount t s.T_max.x s.delta_T.x + axisCount t s.T_max.y s.delta_T.y
    + axisCount t s.T_max.z s.delta_T.z

/-- The cell `c` is fetched at leaf level, and its key is produced when the
fetch finds no node. -/
def Visited (oct : Octree) (c : Vec3 Int) (log : List Event) : Prop :=
  Event.fetch c.x c.y c.z oct.leaves_level ∈ log
    ∧ (oct.fetch_octant c.x c.y c.z oct.leaves_level = none →
        Event.hash ⟨c.x, c.y, c.z, oct.leaves_level⟩ ∈ log)

/-! ## Termination measures of the traversal, in exact arithmetic -/

/-- State invariant used for termination: the cell side is positive and
`delta_T` is the distance between crossings for that side. -/
def WalkInv (ray : Ray ℚ) (s : RayState ℚ) : Prop :=
  0 < s.allocation_size ∧ s.delta_T = deltaOf ray.direction s.allocation_size

/-- Room left for doublings: how far the cell side is below the bound of the
doubling guard. -/
def doublingsLeft (min_allocation_size : Int) (s : RayState ℚ) : Nat :=
  (min_allocation_size - s.allocation_size).toNat

/-- Number of crossings of one axis at distances `< D`, from the next crossing
`T` on, the crossings being `δ` apart. -/
def axisSteps (D T δ : ℚ) : Nat := (⌈(D - T) / δ⌉).toNat

/-- Number of steps the walk can still take before the travelled distance
reaches `D`, if the cell side stays the same. -/
def stepsLeft (D : ℚ) (s : RayState ℚ) : Nat :=
  axisSteps D s.T_max.x s.delta_T.x + axisSteps D s.T_max.y s.delta_T.y
    + axisSteps D s.T_max.z s.delta_T.z

/-! ## Tracking the cell of a ray point, in exact arithmetic -/

/-- A coordinate on a cell face: an integer multiple of `B`. -/
def OnFace (B : Int) (q : ℚ) : Prop := ∃ n : Int, q = (n : ℚ) * (B : ℚ)

/-- The ray point `q` at the distance `t > 0` is a lost tie: it lies on a face
crossed downwards along one axis and on a face crossed upwards along an axis
that the stepping phase serves later (the order among equal `T_max` is `z`,
`y`, `x`). -/
def LostTie (B : Int) (d q : Vec3 ℚ) (t : ℚ) : Prop :=
  0 < t ∧
    ((d.z < 0 ∧ OnFace B q.z ∧ 0 < d.y ∧ OnFace B q.y)
      ∨ (d.z < 0 ∧ OnFace B q.z ∧ 0 < d.x ∧ OnFace B q.x)
      ∨ (d.y < 0 ∧ OnFace B q.y ∧ 0 < d.x ∧ OnFace B q.x))

/-- Number of cells one axis is behind the cell of the ray point at distance
`t`: the crossings at distances `≤ t` of an axis walked upwards, the crossings
at distances `< t` of an axis walked downwards (on a face crossed downwards
the point still belongs to the cell above). -/
def axisAhead (t d T δ : ℚ) : Nat := if d < 0 then axisSteps t T δ else axisCount t T δ

/-- Number of steps from the state to the cell of the ray point at distance
`t`. -/
def ahead (t : ℚ) (d : Vec3 ℚ) (s : RayState ℚ) : Nat :=
  axisAhead t d.x s.T_max.x s.delta_T.x + axisAhead t d.y s.T_max.y s.delta_T.y
    + axisAhead t d.z s.T_max.z s.delta_T.z

/-- One axis of a state is not past the ray point at distance `t`: an axis
walked downwards has made its last crossing before `t`, an axis walked upwards
has its next crossing after the start. -/
def AxisBehind (t d T δ : ℚ) : Prop := (d < 0 → T - δ < t) ∧ (0 < d → 0 < T)

/-- Invariant of the walk towards the cell of the ray point at distance `t`. -/
def TrackInv (p : Params ℚ) (ray : Ray ℚ) (t : ℚ) (s : RayState ℚ) : Prop :=
  BandInv p ray s ∧ s.travelled ≤ t
    ∧ AxisBehind t ray.direction.x s.T_max.x s.delta_T.x
    ∧ AxisBehind t ray.direction.y s.T_max.y s.delta_T.y
    ∧ AxisBehind t ray.direction.z s.T_max.z s.delta_T.z

/-! ## A concrete scene (exact arithmetic) -/

/-- An empty `64^3` map with blocks of side `8`. -/
def emptyOctree : Octree :=
  { size := 64, blockSide := 8, fetch_octant := fun _ _ _ _ => none,
    parent := fun _ => none, child := fun _ _ => none }

/-- A ray starting at voxel `(1, 1, 1)` with unit direction `(1/3, 2/3, 2/3)`
and `30` voxels to travel: the camera sits at `(11, 21, 21)` and looks along its
optical axis at a surface point `28` voxels away. -/
def sceneRay : Ray ℚ := ⟨⟨1 / 3, 2 / 3, 2 / 3⟩, ⟨1, 1, 1⟩, 30⟩

/-- A one-pixel image of depth `28` seen through `sceneRay`, reservation of two
keys, voxels of unit size, band `4`, doubling ratio `1`. -/
def sceneParams : Params ℚ :=
  { reserved_keys := 2, oct := emptyOctree, ray := fun _ _ _ => sceneRay,
    depthmap := [28], image_size := ⟨1, 1⟩, voxel_dim := 1, band := 4, doubling_ratio := 1 }

/-- The scene of `sceneParams` with room for a single key. -/
def tightParams : Params ℚ := { sceneParams with reserved_keys := 1 }

/-- A reprojection test that accepts every node. -/
def acceptAll : Image → Vec3 Int → Int → Bool := fun _ _ _ => true

/-! ## The octree as a set of nodes -/

/-- The node at `level` whose cube contains `(x, y, z)` in a map of side `size`:
corner aligned to the side `2^(log2 size - level)`. -/
def nodeAt (size x y z level : Int) : Key :=
  let side : Int := 2 ^ (log2 size - level).toNat
  ⟨side * (x / side), side * (y / side), side * (z / side), level⟩

/-- Modelled from the spec: the octree accessor of `se/octree.hpp` (not among the
sources) over a set `nodes` of allocated nodes.  `fetch_octant x y z l` returns
the node at level `l` whose cube contains `(x, y, z)` if and only if it is
allocated; `parent` and `child` follow the same set. -/
def treeOctree (size blockSide : Int) (nodes : List Key) : Octree :=
  { size := size
    blockSide := blockSide
    fetch_octant := fun x y z l =>
      if nodeAt size x y z l ∈ nodes then some (nodeAt size x y z l) else none
    parent := fun k =>
      if 0 < k.level ∧ nodeAt size k.x k.y k.z (k.level - 1) ∈ nodes
      then some (nodeAt size k.x k.y k.z (k.level - 1)) else none
    child := fun k i =>
      let half : Int := 2 ^ (log2 size - (k.level + 1)).toNat
      let c : Key := ⟨k.x + (i % 2 : Nat) * half, k.y + (i / 2 % 2 : Nat) * half,
        k.z + (i / 4 % 2 : Nat) * half, k.level + 1⟩
      if c ∈ nodes then some c else none }

/-- A set of nodes that contains the parent of each of its nodes below the
root. -/
def AncestorClosed (size : Int) (nodes : List Key) : Prop :=
  ∀ k ∈ nodes, 0 < k.level → nodeAt size k.x k.y k.z (k.level - 1) ∈ nodes

/-- A `16^3` map with blocks of side `8` in which only the root is allocated,
seen through `sceneRay`. -/
def rootOnlyParams : Params ℚ :=
  { sceneParams with oct := treeOctree 16 8 [⟨0, 0, 0, 0⟩] }

/-- A `4 × 2` depth image with a single zero pixel, at `(2, 0)`. -/
def sampleDepth : List ℚ := [1, 1, 0, 1, 1, 1, 1, 1]

/-- The scene of `sceneParams` with a `2 × 2` depth image without any
measurement. -/
def blankParams : Params ℚ :=
  { sceneParams with depthmap := [0, 0, 0, 0], image_size := ⟨2, 2⟩ }

/-- A ray starting at voxel `(4, 12, 1)` with unit direction `(2/3, -2/3, 1/3)`
and `9` voxels to travel to the camera at `(10, 6, 4)`: at distance `6` it
passes through the edge `x = 8, y = 8`, crossing an `x` face upwards and a `y`
face downwards at once. -/
def tieRay : Ray ℚ := ⟨⟨2 / 3, -2 / 3, 1 / 3⟩, ⟨4, 12, 1⟩, 9⟩

/-- A one-pixel image of depth `5` seen through `tieRay` in an empty `64^3` map:
reservation of `100` keys, voxels of unit size, band `8`, doubling ratio `1`. -/
def tieParams : Params ℚ :=
  { reserved_keys := 100, oct := emptyOctree, ray := fun _ _ _ => tieRay,
    depthmap := [5], image_size := ⟨1, 1⟩, voxel_dim := 1, band := 8, doubling_ratio := 1 }

/-- The ray of `tieRay` moved one voxel down the `x` axis: at distance `6` it
passes through the point `(7, 8, 3)` of the face `y = 8`, which it crosses
downwards, and through no other face. -/
def faceRay : Ray ℚ := ⟨⟨2 / 3, -2 / 3, 1 / 3⟩, ⟨3, 12, 1⟩, 9⟩

/-- The scene of `tieParams` seen through `faceRay`. -/
def faceParams : Params ℚ := { tieParams with ray := fun _ _ _ => faceRay }

/-- The mirror image of `tieRay`: at distance `6` it passes through the edge
`x = 8, y = 8`, crossing the `x` face downwards and the `y` face upwards at
once. -/
def mirrorRay : Ray ℚ := ⟨⟨-2 / 3, 2 / 3, 1 / 3⟩, ⟨12, 4, 1⟩, 9⟩

/-- The scene of `tieParams` seen through `mirrorRay`. -/
def mirrorParams : Params ℚ := { tieParams with ray := fun _ _ _ => mirrorRay }

section ReprojectionSpec

variable {F : Type} [Add F] [Sub F] [Mul F] [Div F] [Neg F] [IntCast F] [LT F]
  [∀ a b : F, Decidable (a < b)] [FloatOps F]

/-- Every corner passes the depth test and the image test. -/
def allCornersPass (fr : Frame F) (sz : Vec2 Int) : Bool :=
  (List.range 8).all fun i => !behindCamera fr i && !outsideImage fr sz i

end ReprojectionSpec

/-! ## Concrete cameras (exact arithmetic) and the corners of the specification -/

/-- The identity pose: no rotation, no translation. -/
def identityPose : Mat4 ℚ := ⟨⟨⟨1, 0, 0⟩, ⟨0, 1, 0⟩, ⟨0, 0, 1⟩⟩, ⟨0, 0, 0⟩⟩

/-- A pinhole camera of focal length one with the principal point at the
origin of the image. -/
def unitCamera : Mat4 ℚ := ⟨⟨⟨1, 0, 0⟩, ⟨0, 1, 0⟩, ⟨0, 0, 1⟩⟩, ⟨0, 0, 0⟩⟩

/-- The rotation about the z axis with cosine 3/5 and sine 4/5, no
translation. -/
def rotatedPose : Mat4 ℚ := ⟨⟨⟨3 / 5, -4 / 5, 0⟩, ⟨4 / 5, 3 / 5, 0⟩, ⟨0, 0, 1⟩⟩, ⟨0, 0, 0⟩⟩

/-- A ten by ten mask that is one everywhere except at the cell `(2, 2)`. -/
def holeMask : Image := ⟨10, 10, (List.range 100).map fun i => if i = 22 then 0 else 1⟩

section ReprojectionClaims

variable {F : Type} [Add F] [Sub F] [Mul F] [Div F] [Neg F] [IntCast F] [LT F]
  [∀ a b : F, Decidable (a < b)] [FloatOps F]

/-- The corner of the specification: the world-space cube corner
`voxel_dim * origin + voxel_dim * N * dir` moved to the camera frame,
`R⁻¹ (corner − t)`. -/
def transformedCorner (Twc : Mat4 F) (world_node : Vec3 Int) (voxel_dim : F) (node_size : Int)
    (i : Nat) : Vec3 F :=
  Twc.topLeftCorner.inverse.mulVec
    ⟨voxel_dim * ((world_node.x : Int) : F) +
        voxel_dim * ((node_size : Int) : F) * (((cornerDir i).x : Int) : F) - Twc.topRightCorner.x,
     voxel_dim * ((world_node.y : Int) : F) +
        voxel_dim * ((node_size : Int) : F) * (((cornerDir i).y : Int) : F) - Twc.topRightCorner.y,
     voxel_dim * ((world_node.z : Int) : F) +
        voxel_dim * ((node_size : Int) : F) * (((cornerDir i).z : Int) : F) - Twc.topRightCorner.z⟩

/-- The box of the specification: `bounds` of the x and of the y components of
`corner_homo`, before the perspective divide. -/
def homoBox (fr : Frame F) : (Int × Int) × (Int × Int) :=
  (bounds fun i => (corner_homo fr i).x, bounds fun i => (corner_homo fr i).y)

end ReprojectionClaims

/-! ## The states of a loop -/

/-- The loop states at the end of each iteration of `doWhile body cond`, in
order: the same recursion as `doWhile`, collecting the states. -/
def doWhileStates {σ : Type} (body : σ → World → Status × σ × World) (cond : σ → Bool) :
    Nat → σ → World → List σ
  | 0, _, _ => []
  | n + 1, s, w =>
    match body s w with
    | (Status.ok, s', w') => s' :: (if cond s' then doWhileStates body cond n s' w' else [])
    | _ => []

/-- A reprojection test that rejects every node (the behaviour of
`reprojectIntoImage` on an image of one pixel). -/
def rejectAll : Image → Vec3 Int → Int → Bool := fun _ _ _ => false

/-- A reprojection test that rejects the blocks below `z = 16` and accepts
every other node. -/
def acceptAbove : Image → Vec3 Int → Int → Bool :=
  fun _ node size => decide (16 ≤ node.z) || decide (8 < size)

/-- A `16^3` map with blocks of side `8` in which the root and the single
block at the origin are allocated, seen through `sceneRay`. -/
def singleBlockParams : Params ℚ :=
  { sceneParams with oct := treeOctree 16 8 [⟨0, 0, 0, 0⟩, ⟨0, 0, 0, 1⟩] }

/-- A `16^3` map with blocks of side `8` in which the root and its eight
blocks are allocated, seen through `sceneRay`. -/
def fullBlockParams : Params ℚ :=
  { sceneParams with
    oct := (treeOctree 16 8
      [⟨0, 0, 0, 0⟩, ⟨0, 0, 0, 1⟩, ⟨8, 0, 0, 1⟩, ⟨0, 8, 0, 1⟩, ⟨8, 8, 0, 1⟩,
       ⟨0, 0, 8, 1⟩, ⟨8, 0, 8, 1⟩, ⟨0, 8, 8, 1⟩, ⟨8, 8, 8, 1⟩]) }

/-- The size of a ray of `buildOctantList` is the side of its allocation level
and is `B * 2^i` for some `i ≤ j`. -/
def SizeInv {F : Type} (oct : Octree) (j : Nat) (s : RayState F) : Prop :=
  RayInv oct s ∧ ∃ i, i ≤ j ∧ s.allocation_size = oct.blockSide * 2 ^ i

/-- Invariant of the ray state of `buildDenseOctantList` about the ceiling:
the size is positive and at most `curr_max_allocation_size`. -/
def CeilInv {F : Type} (oct : Octree) (s : DenseState F) : Prop :=
  DenseInv oct s ∧ 0 < s.curr_allocation_size
    ∧ s.curr_allocation_size ≤ s.curr_max_allocation_size

/-! ## The `active` flags -/

/-- The `active` flags of the nodes after the events of a log: `active(true)`
sets the flag of its node, no other event touches a flag. -/
def activeAfter (log : List Event) (active : Key → Bool) : Key → Bool :=
  log.foldl
    (fun act e =>
      match e with
      | Event.activate n => fun k => if k = n then true else act k
      | _ => act)
    active

/-! ## Further concrete scenes (exact arithmetic) -/

/-- A ray whose traversal origin `(-1/2, 1, 1)` lies outside the map, half a
voxel below `x = 0`, with unit direction `(-2/3, 2/3, 1/3)` and `9` voxels to
travel. -/
def outsideRay : Ray ℚ := ⟨⟨-2 / 3, 2 / 3, 1 / 3⟩, ⟨-1 / 2, 1, 1⟩, 9⟩

/-- The scene of `sceneParams` seen through `outsideRay`. -/
def outsideParams : Params ℚ := { sceneParams with ray := fun _ _ _ => outsideRay }

/-- The mask of a `10 × 10` depth image without holes, downsampled by 4. -/
def edgeMask : Image := ⟨2, 2, [1, 1, 1, 1]⟩

/-- The loop state of the ray of `sceneParams` in `buildDenseOctantList` after
two iterations under a reprojection test that rejects every node: 21 voxels
travelled, past `2 * doubling_ratio * B = 16`. -/
def farState : DenseState ℚ :=
  { curr_allocation_size := 8
    curr_allocation_level := 3
    curr_max_allocation_size := 16
    curr_node := ⟨9, 15, 15⟩
    last_move := (0, 9)
    travelled := 21 }

/-- The mask cell `(x, y)`: the entry of row `y` and column `x` of the mask,
`none` when `(x, y)` is not a cell of the mask. -/
def Image.cell (m : Image) (x y : Int) : Option Int :=
  if 0 ≤ x ∧ x < m.width ∧ 0 ≤ y ∧ y < m.height then m.read (x + y * m.width) else none

/-- A `10 × 10` depth image whose only missing measurement is the pixel
`(0, 4)`. -/
def gapDepth : List ℚ := (List.range 100).map fun i => if i = 40 then 0 else 1

/-- The mask of `gapDepth`, downsampled by 4: zero at the cell `(0, 1)`. -/
def gapMask : Image := ⟨2, 2, [1, 1, 0, 1]⟩

/-! ## A scene seen through a camera (exact arithmetic) -/

/-- Newton iteration for the integer square root, exact on the squares. -/
def sqrtNat (n : Nat) : Nat := (List.range 40).foldl (fun r _ => (r + n / r) / 2) n

/-- The square root on the squares of rational numbers. -/
def sqrtRat (q : ℚ) : ℚ := (sqrtNat q.num.toNat : ℚ) / (sqrtNat q.den : ℚ)

/-- The Euclidean norm `v.norm()`, exact on the vectors whose squared length is
the square of a rational number. -/
def Vec3.norm (v : Vec3 ℚ) : ℚ := sqrtRat (v.x * v.x + v.y * v.y + v.z * v.z)

/-- The per-pixel ray set-up of lines 581-595 (the same as lines 78-89 and
275-286), for a camera pose and a camera matrix with bottom row
`(0, 0, 0, 1)`: `world_vertex` is `inv_P * ((x + 0.5) * depth, (y + 0.5) * depth,
depth, 1)` with `inv_P = camera_pose * K.inverse()`, `direction` is
`(camera_position - world_vertex).normalized()`, `allocation_origin` is
`world_vertex - (band * 0.5) * direction` and `distance` is
`inv_voxel_dim * (camera_position - allocation_origin).norm()`. -/
def backProject (camera_pose K : Mat4 ℚ) (voxel_dim band : ℚ) (x y : Nat) (depth : ℚ) : Ray ℚ :=
  let inv_voxel_dim := 1 / voxel_dim
  let camera_position := camera_pose.topRightCorner
  let pixel : Vec3 ℚ := ⟨(((x : Int) : ℚ) + 1 / 2) * depth, (((y : Int) : ℚ) + 1 / 2) * depth, depth⟩
  let world_vertex := (camera_pose.topLeftCorner.mulVec (K.topLeftCorner.inverse.mulVec
    ⟨pixel.x - K.topRightCorner.x, pixel.y - K.topRightCorner.y, pixel.z - K.topRightCorner.z⟩)).add
    camera_pose.topRightCorner
  let to_camera : Vec3 ℚ := ⟨camera_position.x - world_vertex.x,
    camera_position.y - world_vertex.y, camera_position.z - world_vertex.z⟩
  let direction : Vec3 ℚ := ⟨to_camera.x / to_camera.norm, to_camera.y / to_camera.norm,
    to_camera.z / to_camera.norm⟩
  let allocation_origin : Vec3 ℚ := ⟨world_vertex.x - band * (1 / 2) * direction.x,
    world_vertex.y - band * (1 / 2) * direction.y, world_vertex.z - band * (1 / 2) * direction.z⟩
  let rest : Vec3 ℚ := ⟨camera_position.x - allocation_origin.x,
    camera_position.y - allocation_origin.y, camera_position.z - allocation_origin.z⟩
  ⟨direction, allocation_origin, inv_voxel_dim * rest.norm⟩

/-- A camera at `(80, 80, 0)` metres that looks along the z axis of the
map. -/
def frustumPose : Mat4 ℚ := ⟨⟨⟨1, 0, 0⟩, ⟨0, 1, 0⟩, ⟨0, 0, 1⟩⟩, ⟨80, 80, 0⟩⟩

/-- A camera matrix with focal lengths `1/2` and principal point
`(3/2, 3/2)`. -/
def frustumCamera : Mat4 ℚ := ⟨⟨⟨1 / 2, 0, 3 / 2⟩, ⟨0, 1 / 2, 3 / 2⟩, ⟨0, 0, 1⟩⟩, ⟨0, 0, 0⟩⟩

/-- A `4 × 4` depth image without holes: 30 metres at the pixel `(0, 0)`, one
metre elsewhere. -/
def frustumDepth : List ℚ := 30 :: List.replicate 15 1

/-- A `64^3` map with blocks of side `8` (leaf level 3) in which the root, the
node of side 32 at `(32, 32, 0)` and its child of side 16 at `(32, 32, 16)`
(level 2) are allocated, seen by the camera `frustumPose`, `frustumCamera`
through `frustumDepth`; voxels of one metre, band 4, doubling ratio 1. -/
def frustumParams : Params ℚ :=
  { reserved_keys := 100
    oct := (treeOctree 64 8 [⟨0, 0, 0, 0⟩, ⟨32, 32, 0, 1⟩, ⟨32, 32, 16, 2⟩])
    ray := backProject frustumPose frustumCamera 1 4
    depthmap := frustumDepth
    image_size := ⟨4, 4⟩
    voxel_dim := 1
    band := 4
    doubling_ratio := 1 }

/-- The reprojection test of `buildDenseOctantList` in the scene of
`frustumParams`: the call `reprojectIntoImage(Twc, K, image_size, mask,
downsample, node, voxel_dim, size)` of lines 652, 659 and 664. -/
def frustumTest : Image → Vec3 Int → Int → Bool :=
  fun mask node size =>
    decide (reprojectIntoImage (0 : ℚ) frustumPose frustumCamera ⟨4, 4⟩ mask 4 node 1 size
      = some true)

/-- A node of the octree as the allocators see it: a node that `fetch_octant`
returns for some cell and level, or that `child` returns for some node and
index. -/
def Octree.hasNode (oct : Octree) (k : Key) : Prop :=
  (∃ x y z l, oct.fetch_octant x y z l = some k) ∨ (∃ q i, oct.child q i = some k)

/-- The octree between two runs of an allocator: the accessor, which answers
for the allocated nodes, and the `active` flags of the nodes. -/
structure OctreeState where
  oct : Octree
  active : Key → Bool

/-- A run of an allocator on an octree state, and the state it leaves.  The
allocators read the octree through `fetch_octant`, `parent` and `child` only
and change it through `active(true)` only (the events of a run), so the run
is the run on the accessor of the state, the accessor is left as it was and
the flags are those after the `active(true)` calls of the log. -/
def runOn {F : Type} (alloc : Params F → Int → Run) (p : Params F) (m : Int)
    (t : OctreeState) : Run × OctreeState :=
  let r := alloc { p with oct := t.oct } m
  (r, ⟨t.oct, activeAfter r.world.log t.active⟩)

/-- Idempotence of an allocator at an octree state `t`: after a first run
from `t` and a second run from the state the first one left, the flags are
those after the first run, the accessor is that of `t`, the keys of the second
run are among the keys of the first, no flag set in `t` was cleared, and every
flag set by the first run is the flag of a node of the octree on which the run
called `active(true)`. -/
def Idempotent {F : Type} (alloc : Params F → Int → Run) (p : Params F) (m : Int)
    (t : OctreeState) : Prop :=
  (runOn alloc p m (runOn alloc p m t).2).2.active = (runOn alloc p m t).2.active ∧
    (runOn alloc p m (runOn alloc p m t).2).2.oct = t.oct ∧
    (∀ k ∈ hashKeys (runOn alloc p m (runOn alloc p m t).2).1.world.log,
      k ∈ hashKeys (runOn alloc p m t).1.world.log) ∧
    (∀ k, t.active k = true → (runOn alloc p m t).2.active k = true) ∧
    (∀ k, (runOn alloc p m t).2.active k = true →
      t.active k = true ∨
        (t.oct.hasNode k ∧ Event.activate k ∈ (runOn alloc p m t).1.world.log))

/-! # Theorems -/

section Loops

/-- A property of the accumulator preserved by every step holds after a fold. -/
theorem foldl_preserves {α β : Type} (f : β → α → β) (I : β → Prop)
    (h : ∀ b a, I b → I (f b a)) : ∀ (l : List α) (b : β), I b → I (l.foldl f b) := by
  intro l
  induction l with
  | nil => intro b hb; simpa using hb
  | cons a l ih => intro b hb; exact ih _ (h b a hb)

/-- Invariants of a `do … while` loop: a state/world invariant kept by the body
yields a property of the world the loop ends in, whatever the fuel. -/
theorem doWhile_preserves {σ : Type} (body : σ → World → Status × σ × World) (cond : σ → Bool)
    (I : σ → World → Prop) (Q : World → Prop)
    (hbody : ∀ s w, I s w → I (body s w).2.1 (body s w).2.2)
    (hQ : ∀ s w, I s w → Q w) :
    ∀ (fuel : Nat) (s : σ) (w : World), I s w → Q (doWhile body cond fuel s w).world := by
  intro fuel
  induction fuel with
  | zero => intro s w h; exact hQ s w h
  | succ n ih =>
    intro s w h
    have hb := hbody s w h
    unfold doWhile
    rcases hbd : body s w with ⟨st, s', w'⟩
    rw [hbd] at hb
    cases st with
    | ok =>
      by_cases hc : cond s' = true
      · simpa [hc] using ih s' w' hb
      · simpa [hc] using hQ s' w' hb
    | fuel => simpa using hQ s' w' hb
    | fault => simpa using hQ s' w' hb

end Loops

section PixelLoops

variable {F : Type} [IntCast F] [DecidableEq F]

/-- A world property kept by every ray is kept by one pixel. -/
theorem pixel_preserves (p : Params F) (perRay : Nat → Nat → F → World → Run) (Q : World → Prop)
    (h : ∀ x y d w, Q w → Q (perRay x y d w).world) (y x : Nat) (r : Run) (hr : Q r.world) :
    Q (pixel p perRay y x r).world := by
  unfold pixel
  split
  · split
    · exact hr
    · split
      · exact hr
      · exact h _ _ _ _ hr
  · exact hr

/-- A world property kept by every ray is kept by the pixel loops. -/
theorem forPixels_preserves (p : Params F) (stride : Nat) (perRay : Nat → Nat → F → World → Run)
    (Q : World → Prop) (h : ∀ x y d w, Q w → Q (perRay x y d w).world) (w : World) (hw : Q w) :
    Q (forPixels p stride perRay w).world := by
  unfold forPixels
  refine foldl_preserves _ (fun r : Run => Q r.world) ?_ _ _ hw
  intro r y hr
  refine foldl_preserves _ (fun r : Run => Q r.world) ?_ _ _ hr
  intro r x hr
  exact pixel_preserves p perRay Q h y x r hr

end PixelLoops

section Reservation

/-- Keys of a log extended by one event. -/
theorem hashKeys_record (w : World) (e : Event) :
    hashKeys (w.record e).log = hashKeys w.log ++ hashKeys [e] := by
  simp [World.record, hashKeys, List.filterMap_append]

/-- Stores of a log extended by one event. -/
theorem storeEvents_record (w : World) (e : Event) :
    storeEvents (w.record e).log = storeEvents w.log ++ storeEvents [e] := by
  simp [World.record, storeEvents, List.filter_append]

/-- Recording a fetch keeps the counter invariant. -/
theorem CountInv_fetch (buf : Buffer) (R : Nat) (w : World) (x y z l : Int)
    (h : CountInv buf R w) : CountInv buf R (w.record (Event.fetch x y z l)) := by
  unfold CountInv at *
  rw [hashKeys_record, storeEvents_record]
  simpa [hashKeys, storeEvents, World.record] using h

/-- Recording an activation keeps the counter invariant. -/
theorem CountInv_activate (buf : Buffer) (R : Nat) (w : World) (n : Key)
    (h : CountInv buf R w) : CountInv buf R (w.record (Event.activate n)) := by
  unfold CountInv at *
  rw [hashKeys_record, storeEvents_record]
  simpa [hashKeys, storeEvents, World.record] using h

/-- Emitting a key keeps the counter invariant. -/
theorem CountInv_emitKey (buf : Buffer) (R : Nat) (w : World) (k : Key)
    (h : CountInv buf R w) : CountInv buf R (emitKey buf R k w) := by
  unfold CountInv at *
  unfold emitKey
  have hk : hashKeys (w.log ++ [Event.hash k]) = hashKeys w.log ++ [k] := by
    simp [hashKeys, List.filterMap_append]
  have hs : storeEvents (w.log ++ [Event.hash k]) = storeEvents w.log := by
    simp [storeEvents, List.filter_append]
  by_cases hle : incr w.allocation_count ≤ R
  · simp only [World.record, hle, if_true]
    intro hlt
    have hk2 : hashKeys (w.log ++ [Event.hash k] ++ [Event.store buf w.allocation_count k])
        = hashKeys w.log ++ [k] := by
      simp [hashKeys, List.filterMap_append]
    have hs2 : storeEvents (w.log ++ [Event.hash k] ++ [Event.store buf w.allocation_count k])
        = storeEvents w.log ++ [Event.store buf w.allocation_count k] := by
      simp [storeEvents, List.filter_append]
    rw [hk2] at hlt ⊢
    rw [hs2]
    simp only [List.length_append, List.length_singleton] at hlt ⊢
    obtain ⟨hc, hst⟩ := h (by omega)
    have hinc : incr w.allocation_count = (hashKeys w.log).length + 1 := by
      rw [hc]; unfold incr; exact Nat.mod_eq_of_lt hlt
    refine ⟨hinc, ?_⟩
    have hR : (hashKeys w.log).length + 1 ≤ R := by rw [← hinc]; exact hle
    rw [hst, hc]
    rw [List.take_of_length_le (by omega : (hashKeys w.log).length ≤ R)]
    rw [List.take_of_length_le (by simp; omega)]
    simp [List.enum_append, List.enumFrom_singleton]
  · simp only [World.record, hle, if_false]
    intro hlt
    rw [hk] at hlt ⊢
    rw [hs]
    simp only [List.length_append, List.length_singleton] at hlt ⊢
    obtain ⟨hc, hst⟩ := h (by omega)
    have hinc : incr w.allocation_count = (hashKeys w.log).length + 1 := by
      rw [hc]; unfold incr; exact Nat.mod_eq_of_lt hlt
    refine ⟨hinc, ?_⟩
    have hR : R ≤ (hashKeys w.log).length := by omega
    rw [hst, List.take_append_of_le_length hR]

/-- Under the counter invariant every store goes to a slot below `R`. -/
theorem CountInv_store_lt (buf : Buffer) (R : Nat) (w : World) (h : CountInv buf R w)
    (hlt : (hashKeys w.log).length < 2 ^ 32) (b : Buffer) (i : Nat) (k : Key)
    (hmem : Event.store b i k ∈ w.log) : i < R := by
  have hs : Event.store b i k ∈ storeEvents w.log := by
    simp [storeEvents, hmem]
  rw [(h hlt).2] at hs
  simp only [List.mem_map] at hs
  obtain ⟨⟨j, k'⟩, hjk, heq⟩ := hs
  have hj := List.fst_lt_of_mem_enum hjk
  simp only [List.length_take] at hj
  injection heq with _ h2 _
  omega

/-- Under the counter invariant the returned length is `min n R`. -/
theorem CountInv_returned (buf : Buffer) (R : Nat) (w : World) (h : CountInv buf R w)
    (hlt : (hashKeys w.log).length < 2 ^ 32) :
    returnedLength w.allocation_count R = min (hashKeys w.log).length R := by
  rw [(h hlt).1]
  unfold returnedLength
  split <;> omega

end Reservation

section ReservationRuns

variable {F : Type} [Add F] [Sub F] [Mul F] [Div F] [IntCast F] [LT F]
  [∀ a b : F, Decidable (a < b)] [DecidableEq F] [FloatOps F]

omit [Add F] [Sub F] [Mul F] [Div F] [IntCast F] [LT F] [∀ a b : F, Decidable (a < b)]
  [DecidableEq F] [FloatOps F] in
/-- The per-cell action of `buildOctantList` keeps the counter invariant. -/
theorem visitCell_CountInv (p : Params F) (s : RayState F) (w : World)
    (h : CountInv Buffer.allocation_list p.reserved_keys w) :
    CountInv Buffer.allocation_list p.reserved_keys (visitCell p s w) := by
  unfold visitCell
  split
  · split
    · exact CountInv_emitKey _ _ _ _ (CountInv_fetch _ _ _ _ _ _ _ h)
    · split
      · exact CountInv_activate _ _ _ _ (CountInv_fetch _ _ _ _ _ _ _ h)
      · exact CountInv_fetch _ _ _ _ _ _ _ h
  · exact h

/-- Sibling activation keeps the counter invariant. -/
theorem activateSiblings_CountInv (buf : Buffer) (R : Nat) (oct : Octree) (node : Key) (w : World)
    (h : CountInv buf R w) : CountInv buf R (activateSiblings oct node w).2 := by
  unfold activateSiblings
  split
  · exact h
  · refine foldl_preserves _ (fun acc : Status × World => CountInv buf R acc.2) ?_ _ _ h
    intro acc i hacc
    split
    · split
      · exact hacc
      · exact CountInv_activate _ _ _ _ hacc
    · exact hacc

omit [Add F] [Sub F] [Mul F] [Div F] [IntCast F] [LT F] [∀ a b : F, Decidable (a < b)]
  [DecidableEq F] [FloatOps F] in
/-- The per-cell action of `buildParentOctantList` keeps the counter invariant. -/
theorem visitParentCell_CountInv (p : Params F) (s : ParentState F) (w : World)
    (h : CountInv Buffer.parent_list p.reserved_keys w) :
    CountInv Buffer.parent_list p.reserved_keys (visitParentCell p s w).2 := by
  unfold visitParentCell
  split
  · split
    · exact CountInv_emitKey _ _ _ _ (CountInv_fetch _ _ _ _ _ _ _ h)
    · split
      · exact activateSiblings_CountInv _ _ _ _ _ (CountInv_fetch _ _ _ _ _ _ _ h)
      · exact CountInv_fetch _ _ _ _ _ _ _ h
  · exact h

omit [DecidableEq F] in
/-- The world after an iteration of the parent ray loop is the world left by
the per-cell action. -/
theorem parentBody_world (p : Params F) (ray : Ray F) (m : Int) (s : ParentState F) (w : World) :
    (parentBody p ray m s w).2.2 = (visitParentCell p s w).2 := by
  unfold parentBody
  cases h : (visitParentCell p s w).1 <;> simp [h]

/-- Every run of `buildOctantList` keeps the counter invariant. -/
theorem buildOctantList_CountInv (fuel : Nat) (p : Params F) (m : Int) :
    CountInv Buffer.allocation_list p.reserved_keys (buildOctantList fuel p m).world := by
  unfold buildOctantList
  refine forPixels_preserves p 1 _ _ ?_ _ ?_
  · intro x y d w hw
    unfold traverseRay
    refine doWhile_preserves _ _ (fun _ w => CountInv Buffer.allocation_list p.reserved_keys w)
      _ ?_ (fun _ _ h => h) fuel _ w hw
    intro s w h
    exact visitCell_CountInv p s w h
  · intro _
    simp [hashKeys, storeEvents]

/-- Every run of `buildParentOctantList` keeps the counter invariant. -/
theorem buildParentOctantList_CountInv (fuel : Nat) (p : Params F) (m : Int) :
    CountInv Buffer.parent_list p.reserved_keys (buildParentOctantList fuel p m).world := by
  unfold buildParentOctantList
  refine forPixels_preserves p 1 _ _ ?_ _ ?_
  · intro x y d w hw
    unfold traverseParentRay
    refine doWhile_preserves _ _ (fun _ w => CountInv Buffer.parent_list p.reserved_keys w)
      _ ?_ (fun _ _ h => h) fuel _ w hw
    intro s w h
    rw [parentBody_world]
    exact visitParentCell_CountInv p s w h
  · intro _
    simp [hashKeys, storeEvents]

/-- C1. Sequential reservation contract of `buildOctantList` and
`buildParentOctantList`: when the traversal produces `n < 2^32` keys, the
counter-derived return value is `min n R`, the stores are exactly the first
`min n R` produced keys, the `i`-th key into slot `i` of the allocator's own
list, and no slot with index `≥ R` is written. -/
theorem reservation_contract (fuel : Nat) (p : Params F) (m : Int)
    (hn : (hashKeys (buildOctantList fuel p m).world.log).length < 2 ^ 32)
    (hn' : (hashKeys (buildParentOctantList fuel p m).world.log).length < 2 ^ 32) :
    (((buildOctantList fuel p m).status = Status.ok →
        (buildOctantList fuel p m).returned p.reserved_keys
          = some (min (hashKeys (buildOctantList fuel p m).world.log).length p.reserved_keys))
      ∧ storeEvents (buildOctantList fuel p m).world.log
          = (((hashKeys (buildOctantList fuel p m).world.log).take p.reserved_keys).enum.map
              fun ik => Event.store Buffer.allocation_list ik.1 ik.2)
      ∧ ∀ b i k, Event.store b i k ∈ (buildOctantList fuel p m).world.log → i < p.reserved_keys)
    ∧ (((buildParentOctantList fuel p m).status = Status.ok →
        (buildParentOctantList fuel p m).returned p.reserved_keys
          = some (min (hashKeys (buildParentOctantList fuel p m).world.log).length
              p.reserved_keys))
      ∧ storeEvents (buildParentOctantList fuel p m).world.log
          = (((hashKeys (buildParentOctantList fuel p m).world.log).take p.reserved_keys).enum.map
              fun ik => Event.store Buffer.parent_list ik.1 ik.2)
      ∧ ∀ b i k, Event.store b i k ∈ (buildParentOctantList fuel p m).world.log
          → i < p.reserved_keys) := by
  have h1 := buildOctantList_CountInv fuel p m
  have h2 := buildParentOctantList_CountInv fuel p m
  refine ⟨⟨?_, (h1 hn).2, fun b i k => CountInv_store_lt _ _ _ h1 hn b i k⟩,
    ⟨?_, (h2 hn').2, fun b i k => CountInv_store_lt _ _ _ h2 hn' b i k⟩⟩
  · intro hst
    simp only [Run.returned, hst]
    rw [CountInv_returned _ _ _ h1 hn]
  · intro hst
    simp only [Run.returned, hst]
    rw [CountInv_returned _ _ _ h2 hn']

/-- The reservation contract on the concrete scene: four keys are produced, two
are stored. -/
theorem reservation_contract_witness :
    (hashKeys (buildOctantList 20 sceneParams 16).world.log).length < 2 ^ 32
    ∧ (hashKeys (buildParentOctantList 20 sceneParams 16).world.log).length < 2 ^ 32
    ∧ storeEvents (buildOctantList 20 sceneParams 16).world.log
        = (((hashKeys (buildOctantList 20 sceneParams 16).world.log).take
              sceneParams.reserved_keys).enum.map
            fun ik => Event.store Buffer.allocation_list ik.1 ik.2) :=
  ⟨by decide!, by decide!,
    (reservation_contract 20 sceneParams 16 (by decide!) (by decide!)).1.2.1⟩

end ReservationRuns

section LogInvariants

/-- Side of the next coarser level. -/
theorem sideAt_pred (oct : Octree) (l : Int) (h : l ≤ oct.leaves_level) :
    oct.sideAt (l - 1) = 2 * oct.sideAt l := by
  unfold Octree.sideAt
  have : (oct.leaves_level - (l - 1)).toNat = (oct.leaves_level - l).toNat + 1 := by omega
  rw [this, pow_succ]
  ring

/-- Side of the leaf level. -/
theorem sideAt_leaves (oct : Octree) : oct.sideAt oct.leaves_level = oct.blockSide := by
  simp [Octree.sideAt]

/-- The logarithm of a power of two. -/
theorem log2_two_pow (b : Nat) : log2 (2 ^ b) = b := by
  unfold log2
  have : ((2 : Int) ^ b).toNat = 2 ^ b := by
    have : ((2 : Int) ^ b) = ((2 ^ b : Nat) : Int) := by push_cast; rfl
    rw [this, Int.toNat_natCast]
  rw [this, Nat.log2_two_pow]

/-- With a block side `2^b`, `sideAt level` is the side `2^(max_level - level)`
of a node at `level`. -/
theorem sideAt_eq_pow (oct : Octree) (b : Nat) (hB : oct.blockSide = 2 ^ b) (l : Int)
    (h : l ≤ oct.leaves_level) : oct.sideAt l = 2 ^ (oct.max_level - l).toNat := by
  have hlog : log2 oct.blockSide = b := by rw [hB]; exact log2_two_pow b
  unfold Octree.sideAt
  have hl : oct.leaves_level = oct.max_level - b := by
    unfold Octree.leaves_level; rw [hlog]
  rw [hB, ← pow_add]
  congr 1
  omega

/-- The bounds test decides membership in the box. -/
theorem inBounds_iff (size : Int) (c : Vec3 Int) :
    inBounds size c = true ↔ inBox size c.x c.y c.z := by
  simp only [inBounds, inBox, Bool.and_eq_true, decide_eq_true_eq, ge_iff_le]
  tauto

/-- Recording an event that satisfies `EvOK`. -/
theorem LogOK_record (oct : Octree) (w : World) (e : Event) (h : LogOK oct w) (he : EvOK oct e) :
    LogOK oct (w.record e) := by
  intro e' he'
  simp only [World.record, List.mem_append, List.mem_singleton] at he'
  rcases he' with h' | h'
  · exact h e' h'
  · rw [h']; exact he

/-- Log of a world after `emitKey`. -/
theorem emitKey_log (buf : Buffer) (R : Nat) (k : Key) (w : World) :
    ∃ tl, (emitKey buf R k w).log = w.log ++ Event.hash k :: tl ∧ ∀ e ∈ tl, e.isEffect := by
  unfold emitKey
  simp only [World.record]
  split
  · exact ⟨[Event.store buf w.allocation_count k], by simp, by simp [Event.isEffect]⟩
  · exact ⟨[], by simp, by simp⟩

/-- Effects satisfy `EvOK`. -/
theorem EvOK_of_isEffect (oct : Octree) (e : Event) (h : e.isEffect) : EvOK oct e := by
  cases e <;> simp_all [Event.isEffect, EvOK]

/-- Appending a cell group to a cell trace. -/
theorem CellTrace_append (oct : Octree) (log g : List Event) (h : CellTrace oct log)
    (hg : IsCellGroup oct g) : CellTrace oct (log ++ g) := by
  obtain ⟨groups, hlog, hgr⟩ := h
  refine ⟨groups ++ [g], by simp [hlog], ?_⟩
  intro g' hg'
  simp only [List.mem_append, List.mem_singleton] at hg'
  rcases hg' with h' | h'
  · exact hgr g' h'
  · rw [h']; exact hg

/-- A log extended by events all satisfying `EvOK`. -/
theorem LogOK_append (oct : Octree) (w w' : World) (g : List Event) (h : LogOK oct w)
    (hw : w'.log = w.log ++ g) (hg : ∀ e ∈ g, EvOK oct e) : LogOK oct w' := by
  intro e he
  rw [hw, List.mem_append] at he
  rcases he with h' | h'
  · exact h e h'
  · exact hg e h'

/-- Keys produced in a cell trace were reported absent by `fetch_octant`. -/
theorem CellTrace_absent (oct : Octree) (log : List Event) (h : CellTrace oct log) (k : Key)
    (hk : Event.hash k ∈ log) : oct.fetch_octant k.x k.y k.z k.level = none := by
  obtain ⟨groups, hlog, hgr⟩ := h
  rw [hlog, List.mem_flatten] at hk
  obtain ⟨g, hg, hkg⟩ := hk
  obtain ⟨x, y, z, l, tl, htl, hcase⟩ := hgr g hg
  rcases hcase with ⟨hnone, hgeq⟩ | ⟨_, hgeq⟩
  · rw [hgeq] at hkg
    simp only [List.mem_cons] at hkg
    rcases hkg with h1 | h1 | h1
    · cases h1
    · injection h1 with h1; rw [h1]; exact hnone
    · exact absurd (htl _ h1) (by simp [Event.isEffect])
  · rw [hgeq] at hkg
    simp only [List.mem_cons] at hkg
    rcases hkg with h1 | h1
    · cases h1
    · exact absurd (htl _ h1) (by simp [Event.isEffect])

end LogInvariants

section SurfaceBand

variable {F : Type} [Add F] [Sub F] [Mul F] [Div F] [IntCast F] [LT F]
  [∀ a b : F, Decidable (a < b)] [FloatOps F]

omit [Add F] in
/-- The initial ray state of `buildOctantList` satisfies the invariant. -/
theorem initRay_RayInv (p : Params F) (ray : Ray F) : RayInv p.oct (initRay p ray) := by
  refine ⟨?_, ?_, ⟨?_, ?_, ?_⟩, ⟨?_, ?_, ?_⟩⟩
  · simp [initRay, Octree.leaves_level]
  · simp [initRay, Octree.sideAt, Octree.leaves_level]
  all_goals simp [initRay, alignF, stepOf]

/-- Doubling keeps the invariant of the ray state. -/
theorem doubleSize_RayInv (p : Params F) (ray : Ray F) (m : Int) (s : RayState F)
    (h : RayInv p.oct s) : RayInv p.oct (doubleSize p ray m s) := by
  unfold doubleSize
  split
  · obtain ⟨hl, hs, _, _⟩ := h
    refine ⟨?_, ?_, ⟨?_, ?_, ?_⟩, ⟨?_, ?_, ?_⟩⟩
    · show s.allocation_level - 1 ≤ _
      omega
    · show 2 * s.allocation_size = _
      rw [sideAt_pred _ _ hl, hs]
    all_goals simp [alignI, stepOf]
  · exact h

omit [Sub F] [Mul F] [Div F] [IntCast F] [FloatOps F] in
/-- Stepping keeps the invariant of the ray state. -/
theorem advance_RayInv (oct : Octree) (s : RayState F) (h : RayInv oct s) :
    RayInv oct (advance s) := by
  obtain ⟨hl, hs, ⟨hx, hy, hz⟩, ⟨sx, sy, sz⟩⟩ := h
  unfold advance
  split
  · split
    · exact ⟨hl, hs, ⟨dvd_add hx sx, hy, hz⟩, ⟨sx, sy, sz⟩⟩
    · exact ⟨hl, hs, ⟨hx, hy, dvd_add hz sz⟩, ⟨sx, sy, sz⟩⟩
  · split
    · exact ⟨hl, hs, ⟨hx, dvd_add hy sy, hz⟩, ⟨sx, sy, sz⟩⟩
    · exact ⟨hl, hs, ⟨hx, hy, dvd_add hz sz⟩, ⟨sx, sy, sz⟩⟩

omit [Add F] [Sub F] [Mul F] [Div F] [IntCast F] [LT F] [∀ a b : F, Decidable (a < b)]
  [FloatOps F] in
/-- The per-cell action of `buildOctantList` on a state satisfying the
invariant: the log grows by nothing (cell outside the map) or by one cell group
whose events satisfy `EvOK`. -/
theorem visitCell_log (p : Params F) (s : RayState F) (w : World) (h : RayInv p.oct s) :
    ∃ g, (visitCell p s w).log = w.log ++ g ∧ (∀ e ∈ g, EvOK p.oct e)
      ∧ (g = [] ∨ IsCellGroup p.oct g) := by
  obtain ⟨hl, hs, ⟨hx, hy, hz⟩, _⟩ := h
  unfold visitCell
  by_cases hb : inBounds p.oct.size s.curr_node = true
  · have hbox := (inBounds_iff _ _).1 hb
    simp only [hb, if_true]
    have hmin : min s.allocation_level p.oct.leaves_level = s.allocation_level :=
      min_eq_left hl
    cases hf : p.oct.fetch_octant s.curr_node.x s.curr_node.y s.curr_node.z s.allocation_level with
    | none =>
      simp only [hmin]
      obtain ⟨tl, htl, heff⟩ := emitKey_log Buffer.allocation_list p.reserved_keys
        ⟨s.curr_node.x, s.curr_node.y, s.curr_node.z, s.allocation_level⟩
        (w.record (Event.fetch s.curr_node.x s.curr_node.y s.curr_node.z s.allocation_level))
      refine ⟨Event.fetch s.curr_node.x s.curr_node.y s.curr_node.z s.allocation_level
        :: Event.hash ⟨s.curr_node.x, s.curr_node.y, s.curr_node.z, s.allocation_level⟩ :: tl,
        ?_, ?_, Or.inr ?_⟩
      · rw [htl]; simp [World.record]
      · intro e he
        simp only [List.mem_cons] at he
        rcases he with h1 | h1 | h1
        · rw [h1]; exact ⟨hbox, hl⟩
        · rw [h1]; exact ⟨hbox, hl, hs ▸ hx, hs ▸ hy, hs ▸ hz⟩
        · exact EvOK_of_isEffect _ _ (heff e h1)
      · exact ⟨_, _, _, _, tl, heff, Or.inl ⟨hf, rfl⟩⟩
    | some node =>
      simp only []
      split
      · refine ⟨[Event.fetch s.curr_node.x s.curr_node.y s.curr_node.z s.allocation_level,
          Event.activate node], by simp [World.record], ?_, Or.inr ?_⟩
        · intro e he
          simp only [List.mem_cons, List.mem_singleton, List.not_mem_nil, or_false] at he
          rcases he with h1 | h1
          · rw [h1]; exact ⟨hbox, hl⟩
          · rw [h1]; trivial
        · exact ⟨_, _, _, _, [Event.activate node], by simp [Event.isEffect],
            Or.inr ⟨by simp [hf], rfl⟩⟩
      · refine ⟨[Event.fetch s.curr_node.x s.curr_node.y s.curr_node.z s.allocation_level],
          by simp [World.record], ?_, Or.inr ?_⟩
        · intro e he
          simp only [List.mem_singleton] at he
          rw [he]; exact ⟨hbox, hl⟩
        · exact ⟨_, _, _, _, [], by simp, Or.inr ⟨by simp [hf], rfl⟩⟩
  · simp only [hb]
    exact ⟨[], by simp, by simp, Or.inl rfl⟩

/-- A world whose log grew by nothing or by one cell group of good events keeps
`LogOK` and `CellTrace`. -/
theorem logs_extend (oct : Octree) (w w' : World)
    (h : ∃ g, w'.log = w.log ++ g ∧ (∀ e ∈ g, EvOK oct e) ∧ (g = [] ∨ IsCellGroup oct g))
    (hw : LogOK oct w ∧ CellTrace oct w.log) : LogOK oct w' ∧ CellTrace oct w'.log := by
  obtain ⟨g, hlog, hev, hg⟩ := h
  refine ⟨LogOK_append oct w w' g hw.1 hlog hev, ?_⟩
  rw [hlog]
  rcases hg with hg | hg
  · rw [hg]; simpa using hw.2
  · exact CellTrace_append oct _ _ hw.2 hg

/-- The empty log is a cell trace of good events. -/
theorem logs_nil (oct : Octree) :
    LogOK oct ⟨0, 0, []⟩ ∧ CellTrace oct (⟨0, 0, []⟩ : World).log :=
  ⟨fun e he => by simp at he, ⟨[], by simp, by simp⟩⟩

/-- Every run of `buildOctantList` leaves a cell trace of good events. -/
theorem buildOctantList_logs [DecidableEq F] (fuel : Nat) (p : Params F) (m : Int) :
    LogOK p.oct (buildOctantList fuel p m).world
      ∧ CellTrace p.oct (buildOctantList fuel p m).world.log := by
  unfold buildOctantList
  refine forPixels_preserves p 1 _ (fun w => LogOK p.oct w ∧ CellTrace p.oct w.log)
    ?_ _ (logs_nil p.oct)
  intro x y d w hw
  unfold traverseRay
  refine doWhile_preserves _ _
    (fun s w => RayInv p.oct s ∧ LogOK p.oct w ∧ CellTrace p.oct w.log)
    _ ?_ (fun _ _ h => h.2) fuel _ w ⟨initRay_RayInv p _, hw⟩
  intro s w h
  exact ⟨advance_RayInv _ _ (doubleSize_RayInv p _ _ _ h.1),
    logs_extend p.oct w _ (visitCell_log p s w h.1) h.2⟩

end SurfaceBand

section Parent

variable {F : Type} [Add F] [Sub F] [Mul F] [Div F] [IntCast F] [LT F]
  [∀ a b : F, Decidable (a < b)] [FloatOps F]

omit [Add F] in
/-- The initial ray state of `buildParentOctantList` satisfies the invariant. -/
theorem initParentRay_ParentInv (p : Params F) (ray : Ray F) :
    ParentInv p.oct (initParentRay p ray) := by
  refine ⟨?_, ?_, rfl, rfl, ⟨?_, ?_, ?_⟩, ⟨?_, ?_, ?_⟩⟩
  · simp [initParentRay, Octree.leaves_level]
  · simp [initParentRay, Octree.sideAt, Octree.leaves_level]
  all_goals simp [initParentRay, alignF, stepOf]

/-- Doubling keeps the invariant of the parent ray state. -/
theorem doubleParentSize_ParentInv (p : Params F) (ray : Ray F) (m : Int) (s : ParentState F)
    (h : ParentInv p.oct s) : ParentInv p.oct (doubleParentSize p ray m s) := by
  unfold doubleParentSize
  split
  · obtain ⟨hl, hs, _, _, _, _⟩ := h
    refine ⟨?_, ?_, rfl, rfl, ⟨?_, ?_, ?_⟩, ⟨?_, ?_, ?_⟩⟩
    · show s.allocation_level - 1 ≤ _
      omega
    · show 2 * s.allocation_size = _
      rw [sideAt_pred _ _ hl, hs]
    all_goals simp [alignI, stepOf]
  · exact h

omit [Sub F] [Mul F] [Div F] [IntCast F] [FloatOps F] in
/-- Stepping keeps the invariant of the parent ray state. -/
theorem advance_ParentInv (oct : Octree) (s : ParentState F) (h : ParentInv oct s) :
    ParentInv oct { s with toRayState := advance s.toRayState } := by
  obtain ⟨hl, hs, hp, hpl, ⟨hx, hy, hz⟩, ⟨sx, sy, sz⟩⟩ := h
  unfold advance
  split
  · split
    · exact ⟨hl, hs, hp, hpl, ⟨dvd_add hx sx, hy, hz⟩, ⟨sx, sy, sz⟩⟩
    · exact ⟨hl, hs, hp, hpl, ⟨hx, hy, dvd_add hz sz⟩, ⟨sx, sy, sz⟩⟩
  · split
    · exact ⟨hl, hs, hp, hpl, ⟨hx, dvd_add hy sy, hz⟩, ⟨sx, sy, sz⟩⟩
    · exact ⟨hl, hs, hp, hpl, ⟨hx, hy, dvd_add hz sz⟩, ⟨sx, sy, sz⟩⟩

/-- Sibling activation appends activations only. -/
theorem activateSiblings_log (oct : Octree) (node : Key) (w : World) :
    ∃ tl, (activateSiblings oct node w).2.log = w.log ++ tl ∧ ∀ e ∈ tl, e.isEffect := by
  unfold activateSiblings
  split
  · exact ⟨[], by simp, by simp⟩
  · refine foldl_preserves _
      (fun acc : Status × World => ∃ tl, acc.2.log = w.log ++ tl ∧ ∀ e ∈ tl, e.isEffect)
      ?_ _ _ ⟨[], by simp, by simp⟩
    rintro acc i ⟨tl, htl, heff⟩
    split
    · split
      · exact ⟨tl, htl, heff⟩
      · rename_i c _
        refine ⟨tl ++ [Event.activate c], by simp [World.record, htl], ?_⟩
        intro e he
        simp only [List.mem_append, List.mem_singleton] at he
        rcases he with h1 | h1
        · exact heff e h1
        · rw [h1]; trivial
    · exact ⟨tl, htl, heff⟩

/-- Effects satisfy `ChildAbsent`. -/
theorem ChildAbsent_of_isEffect (oct : Octree) (e : Event) (h : e.isEffect) :
    ChildAbsent oct e := by
  cases e <;> simp_all [Event.isEffect, ChildAbsent]

omit [Add F] [Sub F] [Mul F] [Div F] [IntCast F] [LT F] [∀ a b : F, Decidable (a < b)]
  [FloatOps F] in
/-- The per-cell action of `buildParentOctantList` on a state satisfying the
invariant appends good events only, and nothing for a cell outside the map. -/
theorem visitParentCell_log (p : Params F) (s : ParentState F) (w : World)
    (h : ParentInv p.oct s) :
    ∃ g, (visitParentCell p s w).2.log = w.log ++ g
      ∧ ∀ e ∈ g, EvOK p.oct e ∧ ChildAbsent p.oct e := by
  obtain ⟨hl, hs, hp, hpl, ⟨hx, hy, hz⟩, _⟩ := h
  have hside : p.oct.sideAt s.parent_level = s.parent_size := by
    rw [hpl, sideAt_pred _ _ hl, hp, hs]
  unfold visitParentCell
  by_cases hb : inBounds p.oct.size s.curr_node = true
  · have hbox := (inBounds_iff _ _).1 hb
    simp only [hb, if_true]
    cases hf : p.oct.fetch_octant s.curr_node.x s.curr_node.y s.curr_node.z s.allocation_level with
    | none =>
      simp only []
      obtain ⟨tl, htl, heff⟩ := emitKey_log Buffer.parent_list p.reserved_keys
        ⟨s.curr_node.x, s.curr_node.y, s.curr_node.z, s.parent_level⟩
        (w.record (Event.fetch s.curr_node.x s.curr_node.y s.curr_node.z s.allocation_level))
      refine ⟨Event.fetch s.curr_node.x s.curr_node.y s.curr_node.z s.allocation_level
        :: Event.hash ⟨s.curr_node.x, s.curr_node.y, s.curr_node.z, s.parent_level⟩ :: tl,
        ?_, ?_⟩
      · rw [htl]; simp [World.record]
      · intro e he
        simp only [List.mem_cons] at he
        rcases he with h1 | h1 | h1
        · rw [h1]; exact ⟨⟨hbox, hl⟩, trivial⟩
        · rw [h1]
          refine ⟨⟨hbox, by show s.parent_level ≤ _; omega, ?_, ?_, ?_⟩, ?_⟩
          · show p.oct.sideAt s.parent_level ∣ s.curr_node.x
            rw [hside]; exact hx
          · show p.oct.sideAt s.parent_level ∣ s.curr_node.y
            rw [hside]; exact hy
          · show p.oct.sideAt s.parent_level ∣ s.curr_node.z
            rw [hside]; exact hz
          · show p.oct.fetch_octant s.curr_node.x s.curr_node.y s.curr_node.z
              (s.parent_level + 1) = none ∧ s.parent_level + 1 ≤ p.oct.leaves_level
            have : s.parent_level + 1 = s.allocation_level := by omega
            rw [this]; exact ⟨hf, hl⟩
        · exact ⟨EvOK_of_isEffect _ _ (heff e h1), ChildAbsent_of_isEffect _ _ (heff e h1)⟩
    | some node =>
      simp only []
      split
      · obtain ⟨tl, htl, heff⟩ := activateSiblings_log p.oct node
          (w.record (Event.fetch s.curr_node.x s.curr_node.y s.curr_node.z s.allocation_level))
        refine ⟨Event.fetch s.curr_node.x s.curr_node.y s.curr_node.z s.allocation_level :: tl,
          by rw [htl]; simp [World.record], ?_⟩
        intro e he
        simp only [List.mem_cons] at he
        rcases he with h1 | h1
        · rw [h1]; exact ⟨⟨hbox, hl⟩, trivial⟩
        · exact ⟨EvOK_of_isEffect _ _ (heff e h1), ChildAbsent_of_isEffect _ _ (heff e h1)⟩
      · refine ⟨[Event.fetch s.curr_node.x s.curr_node.y s.curr_node.z s.allocation_level],
          by simp [World.record], ?_⟩
        intro e he
        simp only [List.mem_singleton] at he
        rw [he]; exact ⟨⟨hbox, hl⟩, trivial⟩
  · simp only [hb]
    exact ⟨[], by simp, by simp⟩

/-- The state after an iteration of the parent ray loop satisfies the
invariant. -/
theorem parentBody_ParentInv (p : Params F) (ray : Ray F) (m : Int) (s : ParentState F)
    (w : World) (h : ParentInv p.oct s) : ParentInv p.oct (parentBody p ray m s w).2.1 := by
  unfold parentBody
  cases hv : (visitParentCell p s w).1 <;> simp only [hv]
  · exact advance_ParentInv _ _ (doubleParentSize_ParentInv p ray m s h)
  · exact h
  · exact h

/-- Every event of a run of `buildParentOctantList` satisfies `EvOK` and
`ChildAbsent`. -/
theorem buildParentOctantList_logs [DecidableEq F] (fuel : Nat) (p : Params F) (m : Int) :
    ∀ e ∈ (buildParentOctantList fuel p m).world.log, EvOK p.oct e ∧ ChildAbsent p.oct e := by
  unfold buildParentOctantList
  refine forPixels_preserves p 1 _
    (fun w => ∀ e ∈ w.log, EvOK p.oct e ∧ ChildAbsent p.oct e) ?_ _ (by simp)
  intro x y d w hw
  unfold traverseParentRay
  refine doWhile_preserves _ _
    (fun s w => ParentInv p.oct s ∧ ∀ e ∈ w.log, EvOK p.oct e ∧ ChildAbsent p.oct e)
    _ ?_ (fun _ _ h => h.2) fuel _ w ⟨initParentRay_ParentInv p _, hw⟩
  intro s w h
  refine ⟨parentBody_ParentInv p _ m s w h.1, ?_⟩
  rw [parentBody_world]
  obtain ⟨g, hg, hev⟩ := visitParentCell_log p s w h.1
  intro e he
  rw [hg, List.mem_append] at he
  rcases he with h1 | h1
  · exact h.2 e h1
  · exact hev e h1

end Parent

section Dense

variable {F : Type} [Add F] [Sub F] [Mul F] [Div F] [IntCast F] [LT F]
  [∀ a b : F, Decidable (a < b)] [FloatOps F]

/-- Re-aligning a non-negative coordinate moves it down, never below zero. -/
theorem align_coord_bounds (x s : Int) (h : 0 ≤ x) : 0 ≤ s * x.tdiv s ∧ s * x.tdiv s ≤ x := by
  constructor
  · rcases Int.lt_trichotomy s 0 with hs | hs | hs
    · have := Int.tdiv_nonpos h (le_of_lt hs)
      nlinarith
    · simp [hs]
    · have := Int.tdiv_nonneg h (le_of_lt hs)
      positivity
  · have h1 := Int.tdiv_add_tmod x s
    have h2 := Int.tmod_nonneg s h
    omega

/-- Re-aligning a cell of the map gives a cell of the map. -/
theorem alignI_inBox (size : Int) (c : Vec3 Int) (s : Int) (h : inBox size c.x c.y c.z) :
    inBox size (alignI c s).x (alignI c s).y (alignI c s).z := by
  obtain ⟨hx0, hx1, hy0, hy1, hz0, hz1⟩ := h
  have hx := align_coord_bounds c.x s hx0
  have hy := align_coord_bounds c.y s hy0
  have hz := align_coord_bounds c.z s hz0
  simp only [alignI]
  exact ⟨hx.1, by omega, hy.1, by omega, hz.1, by omega⟩

/-- The adaptation loop keeps the relation between size and level, and ends on
the cell re-aligned to the final size. -/
theorem adaptLoop_inv (oct : Octree) (reproject : Vec3 Int → Int → Bool)
    (curr_max : Int) (last_node : Vec3 Int) :
    ∀ (fuel : Nat) (size level : Int) (half : Bool) (a : Adapted),
      level ≤ oct.leaves_level → size = oct.sideAt level →
      adaptLoop reproject oct.blockSide curr_max last_node fuel size level half = some a →
      a.level ≤ oct.leaves_level ∧ a.size = oct.sideAt a.level
        ∧ a.node = alignI last_node a.size := by
  intro fuel
  induction fuel with
  | zero => intro size level half a _ _ h; simp [adaptLoop] at h
  | succ n ih =>
    intro size level half a hl hs h
    have hgrow : ∀ r : Option Adapted,
        r = (if 2 * size > curr_max ∨ half = true then
              some ⟨size, level, alignI last_node size⟩
            else if reproject (alignI last_node (2 * size)) (2 * size) = false then
              some ⟨size, level, alignI last_node size⟩
            else adaptLoop reproject oct.blockSide curr_max last_node n (2 * size) (level - 1)
              half) →
        r = some a →
        a.level ≤ oct.leaves_level ∧ a.size = oct.sideAt a.level
          ∧ a.node = alignI last_node a.size := by
      intro r hr hra
      rw [hr] at hra
      split at hra
      · injection hra with hra; subst hra; exact ⟨hl, hs, rfl⟩
      · split at hra
        · injection hra with hra; subst hra; exact ⟨hl, hs, rfl⟩
        · refine ih _ _ _ a (by omega) ?_ hra
          rw [sideAt_pred _ _ hl, hs]
    unfold adaptLoop at h
    simp only [] at h
    split at h
    · rename_i hc
      split at h
      · have hlt : level < oct.leaves_level := by
          rcases lt_or_eq_of_le hl with h1 | h1
          · exact h1
          · exfalso
            rw [hs, h1, sideAt_leaves] at hc
            exact lt_irrefl _ hc
        have h2 : oct.sideAt level = 2 * oct.sideAt (level + 1) := by
          have := sideAt_pred oct (level + 1) (by omega)
          simpa using this
        refine ih _ _ _ a (by omega) ?_ h
        rw [hs, h2, Int.mul_tdiv_cancel_left _ (by norm_num)]
      · exact hgrow _ rfl h
    · split at h
      · injection h with h; subst h; exact ⟨hl, hs, rfl⟩
      · exact hgrow _ rfl h

/-- Log of a world after `emitDense`. -/
theorem emitDense_log (R : Nat) (far : Bool) (k : Key) (w : World) :
    ∃ tl, (emitDense R far k w).log = w.log ++ Event.hash k :: tl ∧ ∀ e ∈ tl, e.isEffect := by
  unfold emitDense
  simp only [World.record]
  split
  · split
    · exact ⟨[Event.store Buffer.frustum_list w.frustum_count k], by simp,
        by simp [Event.isEffect]⟩
    · exact ⟨[], by simp, by simp⟩
  · split
    · exact ⟨[Event.store Buffer.allocation_list w.allocation_count k], by simp,
        by simp [Event.isEffect]⟩
    · exact ⟨[], by simp, by simp⟩

omit [Add F] [Sub F] [Mul F] [Div F] [FloatOps F] in
/-- The per-cell action of `buildDenseOctantList` on a state satisfying the
invariant: the state keeps the invariant, the log grows by nothing (cell outside
the map, or fuel exhausted) or by one cell group of good events. -/
theorem visitDenseCell_log (fuel : Nat) (p : Params F)
    (reproject : Vec3 Int → Int → Bool) (s : DenseState F) (w : World)
    (h : DenseInv p.oct s) :
    DenseInv p.oct (visitDenseCell fuel p reproject s w).2.1
      ∧ ∃ g, (visitDenseCell fuel p reproject s w).2.2.log = w.log ++ g
        ∧ (∀ e ∈ g, EvOK p.oct e) ∧ (g = [] ∨ IsCellGroup p.oct g) := by
  unfold visitDenseCell
  by_cases hb : inBounds p.oct.size s.curr_node = true
  · have hbox := (inBounds_iff _ _).1 hb
    simp only [hb, if_true]
    cases ha : adaptLoop reproject p.oct.blockSide s.curr_max_allocation_size s.curr_node fuel
        s.curr_allocation_size s.curr_allocation_level false with
    | none => exact ⟨h, [], by simp, by simp, Or.inl rfl⟩
    | some a =>
      obtain ⟨hl, hs, hn⟩ := adaptLoop_inv p.oct reproject _ _ fuel _ _ _ a h.1 h.2 ha
      have hbox' : inBox p.oct.size a.node.x a.node.y a.node.z := by
        rw [hn]; exact alignI_inBox _ _ _ hbox
      have hdvd : p.oct.sideAt a.level ∣ a.node.x ∧ p.oct.sideAt a.level ∣ a.node.y
          ∧ p.oct.sideAt a.level ∣ a.node.z := by
        rw [← hs, hn]; simp [alignI]
      have hmin : min a.level p.oct.leaves_level = a.level := min_eq_left hl
      simp only []
      cases hf : p.oct.fetch_octant a.node.x a.node.y a.node.z a.level with
      | none =>
        simp only [hmin]
        refine ⟨⟨hl, hs⟩, ?_⟩
        obtain ⟨tl, htl, heff⟩ := emitDense_log p.reserved_keys
          (decide (((2 * p.doubling_ratio * p.oct.blockSide : Int) : F) < s.travelled))
          ⟨a.node.x, a.node.y, a.node.z, a.level⟩
          (w.record (Event.fetch a.node.x a.node.y a.node.z a.level))
        refine ⟨Event.fetch a.node.x a.node.y a.node.z a.level
          :: Event.hash ⟨a.node.x, a.node.y, a.node.z, a.level⟩ :: tl, ?_, ?_, Or.inr ?_⟩
        · rw [htl]; simp [World.record]
        · intro e he
          simp only [List.mem_cons] at he
          rcases he with h1 | h1 | h1
          · rw [h1]; exact ⟨hbox', hl⟩
          · rw [h1]; exact ⟨hbox', hl, hdvd⟩
          · exact EvOK_of_isEffect _ _ (heff e h1)
        · exact ⟨_, _, _, _, tl, heff, Or.inl ⟨hf, rfl⟩⟩
      | some node =>
        refine ⟨⟨hl, hs⟩, [Event.fetch a.node.x a.node.y a.node.z a.level, Event.activate node],
          by simp [World.record], ?_, Or.inr ?_⟩
        · intro e he
          simp only [List.mem_cons, List.mem_singleton, List.not_mem_nil, or_false] at he
          rcases he with h1 | h1
          · rw [h1]; exact ⟨hbox', hl⟩
          · rw [h1]; trivial
        · exact ⟨_, _, _, _, [Event.activate node], by simp [Event.isEffect],
            Or.inr ⟨by simp [hf], rfl⟩⟩
  · simp only [hb]
    exact ⟨h, [], by simp, by simp, Or.inl rfl⟩

/-- Growth of the ceiling and stepping keep the dense invariant. -/
theorem denseAdvance_DenseInv (p : Params F) (ray : Ray F) (M : Int) (s : DenseState F)
    (h : DenseInv p.oct s) : DenseInv p.oct (denseAdvance p ray (growMax p M s)) := by
  have hg : DenseInv p.oct (growMax p M s) := by
    unfold growMax; split <;> exact h
  revert hg
  generalize growMax p M s = s1
  intro hg
  unfold denseAdvance
  simp only []
  split
  · split <;> exact hg
  · split <;> exact hg

/-- One iteration of the dense ray loop keeps the invariant and extends the log
by nothing or by one cell group of good events. -/
theorem denseBody_inv (fuel : Nat) (p : Params F)
    (reproject : Vec3 Int → Int → Bool) (ray : Ray F) (M : Int) (s : DenseState F) (w : World)
    (h : DenseInv p.oct s) :
    DenseInv p.oct (denseBody fuel p reproject ray M s w).2.1
      ∧ ∃ g, (denseBody fuel p reproject ray M s w).2.2.log = w.log ++ g
        ∧ (∀ e ∈ g, EvOK p.oct e) ∧ (g = [] ∨ IsCellGroup p.oct g) := by
  obtain ⟨h1, h2⟩ := visitDenseCell_log fuel p reproject s w h
  unfold denseBody
  cases hv : (visitDenseCell fuel p reproject s w).1 <;> simp only [hv]
  · exact ⟨denseAdvance_DenseInv p ray M _ h1, h2⟩
  · exact ⟨h1, h2⟩
  · exact ⟨h1, h2⟩

omit [Add F] [Sub F] [LT F] [∀ a b : F, Decidable (a < b)] in
/-- The initial ray state of `buildDenseOctantList` satisfies the invariant. -/
theorem initDenseRay_DenseInv (p : Params F) (ray : Ray F) :
    DenseInv p.oct (initDenseRay p ray) := by
  constructor
  · simp [initDenseRay, Octree.leaves_level]
  · simp [initDenseRay, Octree.sideAt, Octree.leaves_level]

/-- Every run of `buildDenseOctantList` leaves a cell trace of good events. -/
theorem buildDenseOctantList_logs [DecidableEq F] (fuel : Nat) (p : Params F)
    (reproject : Image → Vec3 Int → Int → Bool) (M : Int) :
    LogOK p.oct (buildDenseOctantList fuel p reproject M).world
      ∧ CellTrace p.oct (buildDenseOctantList fuel p reproject M).world.log := by
  unfold buildDenseOctantList
  split
  · exact logs_nil p.oct
  · refine forPixels_preserves p 2 _ (fun w => LogOK p.oct w ∧ CellTrace p.oct w.log)
      ?_ _ (logs_nil p.oct)
    intro x y d w hw
    unfold traverseDenseRay
    refine doWhile_preserves _ _
      (fun s w => DenseInv p.oct s ∧ LogOK p.oct w ∧ CellTrace p.oct w.log)
      _ ?_ (fun _ _ h => h.2) fuel _ w ⟨initDenseRay_DenseInv p _, hw⟩
    intro s w h
    obtain ⟨h1, h2⟩ := denseBody_inv fuel p _ (p.ray x y d) _ s w h.1
    exact ⟨h1, logs_extend p.oct w _ h2 h.2⟩

end Dense

section Contracts

variable {F : Type} [Add F] [Sub F] [Mul F] [Div F] [IntCast F] [LT F]
  [∀ a b : F, Decidable (a < b)] [DecidableEq F] [FloatOps F]

/-- C2 (evaluation of the code at the failing input). With a reservation of one
key `buildDenseOctantList` stores a second allocation key into slot `1` and a
second frustum key into slot `1`, one past the reserved range, and then reports
the lengths `(1, 1)`. -/
theorem dense_store_past_reservation :
    tightParams.reserved_keys = 1
    ∧ Event.store Buffer.allocation_list 1 ⟨0, 8, 8, 3⟩
        ∈ (buildDenseOctantList 20 tightParams acceptAll 16).world.log
    ∧ Event.store Buffer.frustum_list 1 ⟨0, 16, 16, 2⟩
        ∈ (buildDenseOctantList 20 tightParams acceptAll 16).world.log
    ∧ (buildDenseOctantList 20 tightParams acceptAll 16).denseLengths 1 = some (1, 1) := by
  refine ⟨rfl, ?_, ?_, ?_⟩ <;> decide!

/-- C3. Key alignment: with a block side `2^b`, every key produced by any of the
three allocators has a level `≤ max_level` and coordinates divisible by
`2^(max_level - level)`, whatever the number of doublings and in-cell
halvings, for every arithmetic, octree, reprojection test and fuel. -/
theorem key_alignment (fuel : Nat) (p : Params F) (m : Int)
    (reproject : Image → Vec3 Int → Int → Bool) (b : Nat) (hB : p.oct.blockSide = 2 ^ b)
    (k : Key)
    (hk : Event.hash k ∈ (buildOctantList fuel p m).world.log
      ∨ Event.hash k ∈ (buildParentOctantList fuel p m).world.log
      ∨ Event.hash k ∈ (buildDenseOctantList fuel p reproject m).world.log) :
    k.level ≤ p.oct.max_level
      ∧ (2 : Int) ^ (p.oct.max_level - k.level).toNat ∣ k.x
      ∧ (2 : Int) ^ (p.oct.max_level - k.level).toNat ∣ k.y
      ∧ (2 : Int) ^ (p.oct.max_level - k.level).toNat ∣ k.z := by
  have hev : EvOK p.oct (Event.hash k) := by
    rcases hk with h | h | h
    · exact (buildOctantList_logs fuel p m).1 _ h
    · exact (buildParentOctantList_logs fuel p m _ h).1
    · exact (buildDenseOctantList_logs fuel p reproject m).1 _ h
  obtain ⟨_, hl, hx, hy, hz⟩ := hev
  rw [sideAt_eq_pow p.oct b hB k.level hl] at hx hy hz
  refine ⟨?_, hx, hy, hz⟩
  have hlog : log2 p.oct.blockSide = b := by rw [hB]; exact log2_two_pow b
  unfold Octree.leaves_level at hl
  omega

/-- Key alignment on the concrete scene: the key `(0, 0, 16)` at level `2` of a
`64^3` map has coordinates divisible by `2^(6-2) = 16`. -/
theorem key_alignment_witness :
    sceneParams.oct.blockSide = 2 ^ 3
    ∧ Event.hash ⟨0, 0, 16, 2⟩ ∈ (buildOctantList 20 sceneParams 16).world.log
    ∧ ((2 : Int) ≤ sceneParams.oct.max_level
      ∧ (2 : Int) ^ (sceneParams.oct.max_level - 2).toNat ∣ 0
      ∧ (2 : Int) ^ (sceneParams.oct.max_level - 2).toNat ∣ 0
      ∧ (2 : Int) ^ (sceneParams.oct.max_level - 2).toNat ∣ 16) :=
  ⟨rfl, by decide!,
    key_alignment 20 sceneParams 16 acceptAll 3 rfl ⟨0, 0, 16, 2⟩ (Or.inl (by decide!))⟩

/-- C4. Bounds: every key produced and every fetch issued by any of the three
allocators has coordinates in `[0, size)^3` (in the dense allocator these are
the coordinates of the re-aligned cell), and the per-cell action of each
allocator on a cell outside the map changes nothing: no fetch, no key, no
store, no activation. -/
theorem keys_in_bounds (fuel : Nat) (p : Params F) (m : Int)
    (reproject : Image → Vec3 Int → Int → Bool) :
    (∀ k, (Event.hash k ∈ (buildOctantList fuel p m).world.log
          ∨ Event.hash k ∈ (buildParentOctantList fuel p m).world.log
          ∨ Event.hash k ∈ (buildDenseOctantList fuel p reproject m).world.log) →
        inBox p.oct.size k.x k.y k.z)
    ∧ (∀ x y z l, (Event.fetch x y z l ∈ (buildOctantList fuel p m).world.log
          ∨ Event.fetch x y z l ∈ (buildParentOctantList fuel p m).world.log
          ∨ Event.fetch x y z l ∈ (buildDenseOctantList fuel p reproject m).world.log) →
        inBox p.oct.size x y z)
    ∧ (∀ (s : RayState F) (w : World), inBounds p.oct.size s.curr_node = false →
        visitCell p s w = w)
    ∧ (∀ (s : ParentState F) (w : World), inBounds p.oct.size s.curr_node = false →
        visitParentCell p s w = (Status.ok, w))
    ∧ (∀ (n : Nat) (rp : Vec3 Int → Int → Bool) (s : DenseState F) (w : World),
        inBounds p.oct.size s.curr_node = false →
        visitDenseCell n p rp s w = (Status.ok, s, w)) := by
  have hev : ∀ e, (e ∈ (buildOctantList fuel p m).world.log
        ∨ e ∈ (buildParentOctantList fuel p m).world.log
        ∨ e ∈ (buildDenseOctantList fuel p reproject m).world.log) → EvOK p.oct e := by
    intro e he
    rcases he with h | h | h
    · exact (buildOctantList_logs fuel p m).1 _ h
    · exact (buildParentOctantList_logs fuel p m _ h).1
    · exact (buildDenseOctantList_logs fuel p reproject m).1 _ h
  refine ⟨fun k hk => (hev _ hk).1, fun x y z l h => (hev _ h).1, ?_, ?_, ?_⟩
  · intro s w hb; simp [visitCell, hb]
  · intro s w hb; simp [visitParentCell, hb]
  · intro n rp s w hb; simp [visitDenseCell, hb]

/-- C5. Level bound: every key produced by any of the three allocators has a
level `≤ leaves_level = max_level - log2(blockSide)`; in `buildOctantList` and
`buildDenseOctantList` every level `l` passed to `fetch_octant` is
`≤ leaves_level`, so that `min l leaves_level = l`. -/
theorem level_bound (fuel : Nat) (p : Params F) (m : Int)
    (reproject : Image → Vec3 Int → Int → Bool) :
    (∀ k, (Event.hash k ∈ (buildOctantList fuel p m).world.log
          ∨ Event.hash k ∈ (buildParentOctantList fuel p m).world.log
          ∨ Event.hash k ∈ (buildDenseOctantList fuel p reproject m).world.log) →
        k.level ≤ p.oct.leaves_level)
    ∧ (∀ x y z l, (Event.fetch x y z l ∈ (buildOctantList fuel p m).world.log
          ∨ Event.fetch x y z l ∈ (buildDenseOctantList fuel p reproject m).world.log) →
        l ≤ p.oct.leaves_level ∧ min l p.oct.leaves_level = l) := by
  constructor
  · intro k hk
    rcases hk with h | h | h
    · exact ((buildOctantList_logs fuel p m).1 _ h).2.1
    · exact (buildParentOctantList_logs fuel p m _ h).1.2.1
    · exact ((buildDenseOctantList_logs fuel p reproject m).1 _ h).2.1
  · intro x y z l h
    have hl : l ≤ p.oct.leaves_level := by
      rcases h with h | h
      · exact ((buildOctantList_logs fuel p m).1 _ h).2
      · exact ((buildDenseOctantList_logs fuel p reproject m).1 _ h).2
    exact ⟨hl, min_eq_left hl⟩

/-- C6. In `buildOctantList` and `buildDenseOctantList` the log is a sequence of
cell groups, one per visited in-bounds cell: the fetch of `(cell, level)`,
followed by the production of the key `(cell, level)` (same cell, same level)
if and only if the fetch returned no node.  Hence every key produced names an
octant that `fetch_octant` reported absent.  The per-cell action on an in-bounds
cell starts with the fetch of that cell (re-aligned, in the dense allocator) at
the current level. -/
theorem key_iff_absent (fuel : Nat) (p : Params F) (m : Int)
    (reproject : Image → Vec3 Int → Int → Bool) :
    CellTrace p.oct (buildOctantList fuel p m).world.log
    ∧ CellTrace p.oct (buildDenseOctantList fuel p reproject m).world.log
    ∧ (∀ k, (Event.hash k ∈ (buildOctantList fuel p m).world.log
          ∨ Event.hash k ∈ (buildDenseOctantList fuel p reproject m).world.log) →
        p.oct.fetch_octant k.x k.y k.z k.level = none)
    ∧ (∀ (s : RayState F) (w : World), inBounds p.oct.size s.curr_node = true →
        ∃ tl, (visitCell p s w).log
          = w.log ++ Event.fetch s.curr_node.x s.curr_node.y s.curr_node.z s.allocation_level :: tl)
    ∧ (∀ (n : Nat) (rp : Vec3 Int → Int → Bool) (s : DenseState F) (w : World) (a : Adapted),
        inBounds p.oct.size s.curr_node = true →
        adaptLoop rp p.oct.blockSide s.curr_max_allocation_size s.curr_node n
          s.curr_allocation_size s.curr_allocation_level false = some a →
        ∃ tl, (visitDenseCell n p rp s w).2.2.log
          = w.log ++ Event.fetch a.node.x a.node.y a.node.z a.level :: tl) := by
  refine ⟨(buildOctantList_logs fuel p m).2, (buildDenseOctantList_logs fuel p reproject m).2,
    ?_, ?_, ?_⟩
  · intro k hk
    rcases hk with h | h
    · exact CellTrace_absent _ _ (buildOctantList_logs fuel p m).2 k h
    · exact CellTrace_absent _ _ (buildDenseOctantList_logs fuel p reproject m).2 k h
  · intro s w hb
    unfold visitCell
    simp only [hb, if_true]
    split
    · obtain ⟨tl, htl, _⟩ := emitKey_log Buffer.allocation_list p.reserved_keys
        ⟨s.curr_node.x, s.curr_node.y, s.curr_node.z, min s.allocation_level p.oct.leaves_level⟩
        (w.record (Event.fetch s.curr_node.x s.curr_node.y s.curr_node.z s.allocation_level))
      exact ⟨Event.hash ⟨s.curr_node.x, s.curr_node.y, s.curr_node.z,
        min s.allocation_level p.oct.leaves_level⟩ :: tl, by rw [htl]; simp [World.record]⟩
    · rename_i node _
      split
      · exact ⟨[Event.activate node], by simp [World.record]⟩
      · exact ⟨[], by simp [World.record]⟩
  · intro n rp s w a hb ha
    unfold visitDenseCell
    simp only [hb, if_true, ha]
    split
    · obtain ⟨tl, htl, _⟩ := emitDense_log p.reserved_keys
        (decide (((2 * p.doubling_ratio * p.oct.blockSide : Int) : F) < s.travelled))
        ⟨a.node.x, a.node.y, a.node.z, min a.level p.oct.leaves_level⟩
        (w.record (Event.fetch a.node.x a.node.y a.node.z a.level))
      exact ⟨Event.hash ⟨a.node.x, a.node.y, a.node.z, min a.level p.oct.leaves_level⟩ :: tl,
        by rw [htl]; simp [World.record]⟩
    · rename_i node _
      exact ⟨[Event.activate node], by simp [World.record]⟩

/-- C7 (counterexample). In a `16^3` map with blocks of side `8` whose only
allocated node is the root (an ancestor-closed set), `buildParentOctantList`
fetches the absent level-1 node at the origin and produces the key
`(0, 0, 0)` at level `0`: the root, which is present. -/
theorem parent_key_present_counterexample :
    AncestorClosed 16 [⟨0, 0, 0, 0⟩]
    ∧ ¬ (∀ k, Event.hash k ∈ (buildParentOctantList 20 rootOnlyParams 8).world.log →
          k ∉ [(⟨0, 0, 0, 0⟩ : Key)]) := by
  constructor
  · intro k hk
    simp only [List.mem_singleton] at hk
    rw [hk]; decide
  · intro h
    exact h ⟨0, 0, 0, 0⟩ (by decide!) (by simp)

/-- C7 (amended). Every key `(cell, parent_level)` produced by
`buildParentOctantList` has `fetch_octant(cell, parent_level + 1) = none`, with
`parent_level + 1 ≤ leaves_level` the allocation level: what is absent is the
octant one level below the key at the same corner.  In the tree model with a
block side `2^b` that octant is the node `(cell, parent_level + 1)`, which is
not allocated; nothing is said about the octant at `parent_level` itself. -/
theorem parent_key_child_absent (fuel : Nat) (p : Params F) (m : Int) (k : Key)
    (hk : Event.hash k ∈ (buildParentOctantList fuel p m).world.log) :
    p.oct.fetch_octant k.x k.y k.z (k.level + 1) = none
    ∧ k.level + 1 ≤ p.oct.leaves_level
    ∧ ∀ (nodes : List Key) (b : Nat), p.oct = treeOctree p.oct.size (2 ^ b) nodes →
        (⟨k.x, k.y, k.z, k.level + 1⟩ : Key) ∉ nodes := by
  obtain ⟨hev, habs⟩ := buildParentOctantList_logs fuel p m _ hk
  have habs' : p.oct.fetch_octant k.x k.y k.z (k.level + 1) = none := habs.1
  have hlev : k.level + 1 ≤ p.oct.leaves_level := habs.2
  obtain ⟨_, hl, hx, hy, hz⟩ := hev
  refine ⟨habs', hlev, ?_⟩
  intro nodes b hoct
  have hB : p.oct.blockSide = 2 ^ b := by rw [hoct]; rfl
  rw [sideAt_eq_pow p.oct b hB k.level hl] at hx hy hz
  have hpow : (2 : Int) ^ (log2 p.oct.size - (k.level + 1)).toNat
      ∣ 2 ^ (p.oct.max_level - k.level).toNat := by
    apply pow_dvd_pow
    unfold Octree.max_level
    omega
  have hnode : nodeAt p.oct.size k.x k.y k.z (k.level + 1) = ⟨k.x, k.y, k.z, k.level + 1⟩ := by
    simp only [nodeAt]
    rw [Int.mul_ediv_cancel' (dvd_trans hpow hx), Int.mul_ediv_cancel' (dvd_trans hpow hy),
      Int.mul_ediv_cancel' (dvd_trans hpow hz)]
  rw [hoct] at habs'
  simp only [treeOctree] at habs'
  rw [hnode] at habs'
  intro hmem
  simp [hmem] at habs'

/-- The amended C7 on the root-only map: the key `(0, 0, 0)` at level `0` is
produced, and the level-1 node at the origin is not allocated. -/
theorem parent_key_child_absent_witness :
    Event.hash ⟨0, 0, 0, 0⟩ ∈ (buildParentOctantList 20 rootOnlyParams 8).world.log
    ∧ rootOnlyParams.oct.fetch_octant 0 0 0 (0 + 1) = none :=
  ⟨by decide!, (parent_key_child_absent 20 rootOnlyParams 8 ⟨0, 0, 0, 0⟩ (by decide!)).1⟩

end Contracts

section DepthMask

variable {F : Type} [IntCast F] [DecidableEq F]

/-- A fold whose step conjoins a test to a defined accumulator. -/
theorem foldl_and {ι : Type} (f : Option Bool → ι → Option Bool) (g : ι → Bool) (l : List ι)
    (hf : ∀ i ∈ l, ∀ b, f (some b) i = some (b && g i)) :
    ∀ b, l.foldl f (some b) = some (b && l.all g) := by
  induction l with
  | nil => intro b; simp
  | cons a l ih =>
    intro b
    rw [List.foldl_cons, hf a (List.mem_cons_self _ _) b,
      ih (fun i hi => hf i (List.mem_cons_of_mem _ hi))]
    simp [Bool.and_assoc]

/-- A source pixel of a mask cell lies inside the image. -/
theorem source_index_bounds (W H d : Int) (hW : 0 ≤ W) (hd : 1 ≤ d)
    (x y i j : Nat) (hx : (x : Int) < W / d) (hy : (y : Int) < H / d) (hi : (i : Int) < d)
    (hj : (j : Int) < d) :
    0 ≤ (d * x + j) + (d * y + i) * W ∧ (d * x + j) + (d * y + i) * W < W * H := by
  have hd0 : (0 : Int) < d := by omega
  have h1 : d * (W / d) ≤ W := Int.mul_ediv_self_le (by omega)
  have h2 : d * (H / d) ≤ H := Int.mul_ediv_self_le (by omega)
  have hx1 : d * (x : Int) + d ≤ d * (W / d) := by nlinarith
  have hy1 : d * (y : Int) + d ≤ d * (H / d) := by nlinarith
  have hcx : d * (x : Int) + j < W := by omega
  have hcy : d * (y : Int) + i < H := by omega
  have hcx0 : (0 : Int) ≤ d * x + j := by positivity
  have hcy0 : (0 : Int) ≤ d * y + i := by positivity
  constructor
  · positivity
  · nlinarith

omit [IntCast F] [DecidableEq F] in
/-- A read inside the array returns one of its elements. -/
theorem readDepth_some (depthmap : List F) (i : Int) (h0 : 0 ≤ i)
    (h1 : i < depthmap.length) : ∃ u, readDepth depthmap i = some u ∧ u ∈ depthmap := by
  have hlt : i.toNat < depthmap.length := by omega
  refine ⟨depthmap[i.toNat], ?_, List.getElem_mem _⟩
  simp [readDepth, h0, List.getElem?_eq_getElem hlt]

/-- When all reads of a mask cell stay inside the image, `maskCell` computes
`dataComplete`. -/
theorem maskCell_eq (depthmap : List F) (W H d : Int) (x y : Nat)
    (hread : ∀ i j : Nat, (i : Int) < d → (j : Int) < d →
      ∃ u, readDepth depthmap ((d * x + j) + (d * y + i) * W) = some u) :
    maskCell depthmap ⟨W, H⟩ d x y = some (dataComplete depthmap W d x y) := by
  unfold maskCell dataComplete
  rw [foldl_and _ (fun i : Nat => (List.range d.toNat).all fun j : Nat =>
    decide (readDepth depthmap ((d * x + j) + (d * y + i) * W) ≠ some ((0 : Int) : F)))]
  · simp
  · intro i hi b
    rw [foldl_and _ (fun j : Nat =>
      decide (readDepth depthmap ((d * x + j) + (d * y + i) * W) ≠ some ((0 : Int) : F)))]
    intro j hj b'
    simp only [List.mem_range] at hi hj
    obtain ⟨u, hu⟩ := hread i j (by omega) (by omega)
    simp only [Option.bind_some, hu, Option.map_some']
    by_cases h0 : u = ((0 : Int) : F)
    · simp [h0]
    · simp [h0]

/-- Effect of the inner loop of `depth_mask` on row `y`: the cells `x < X` of the
row hold their values, everything before the row and from `X` on is unchanged. -/
theorem mask_row (cell : Nat → Nat → Option Bool) (val : Nat → Nat → Bool) (w h y : Nat)
    (hy : y < h) (hcell : ∀ x < w, cell x y = some (val x y)) :
    ∀ X ≤ w, ∀ m : Image, m.width = w → m.data.length = w * h →
      ∃ m', (List.range X).foldl (maskStore cell y) (some m) = some m'
        ∧ m'.width = m.width ∧ m'.height = m.height ∧ m'.data.length = m.data.length
        ∧ (∀ x < X, m'.data[x + y * w]? = some (if val x y then 1 else 0))
        ∧ (∀ idx, (idx < y * w ∨ X + y * w ≤ idx) → m'.data[idx]? = m.data[idx]?) := by
  intro X
  induction X with
  | zero =>
    intro _ m _ _
    exact ⟨m, by simp, rfl, rfl, rfl, by simp, by simp⟩
  | succ X ih =>
    intro hX m hw hlen
    obtain ⟨m1, hfold, hw1, hh1, hl1, hrow, hrest⟩ := ih (by omega) m hw hlen
    have hidx : X + y * w < m1.data.length := by
      have : (y + 1) * w ≤ h * w := Nat.mul_le_mul_right w hy
      rw [hl1, hlen]
      nlinarith
    have hcast : ((X : Int) + (y : Int) * m1.width) = ((X + y * w : Nat) : Int) := by
      rw [hw1, hw]; push_cast; rfl
    refine ⟨{ m1 with data := m1.data.set (X + y * w) (if val X y then 1 else 0) }, ?_, hw1, hh1,
      by simp [hl1], ?_, ?_⟩
    · rw [List.range_succ, List.foldl_append, hfold]
      simp only [List.foldl_cons, List.foldl_nil, maskStore, hcell X (by omega), Image.assign,
        Option.some_bind]
      rw [hcast, Int.toNat_natCast]
      simp [hidx]
      positivity
    · intro x hx
      by_cases hxX : x = X
      · subst hxX
        simp [hidx]
      · have hne : X + y * w ≠ x + y * w := by omega
        simp only []
        rw [List.getElem?_set_ne hne]
        exact hrow x (by omega)
    · intro idx hidx'
      have hne : X + y * w ≠ idx := by omega
      simp only []
      rw [List.getElem?_set_ne hne]
      exact hrest idx (by omega)

/-- Effect of the two loops of `depth_mask`: after the rows `y < Y` every cell
of these rows holds its value. -/
theorem mask_rows (cell : Nat → Nat → Option Bool) (val : Nat → Nat → Bool) (w h : Nat)
    (hcell : ∀ y < h, ∀ x < w, cell x y = some (val x y)) :
    ∀ Y ≤ h, ∀ m : Image, m.width = w → m.data.length = w * h →
      ∃ m', (List.range Y).foldl
            (fun acc (y : Nat) => (List.range w).foldl (maskStore cell y) acc) (some m) = some m'
        ∧ m'.width = m.width ∧ m'.height = m.height ∧ m'.data.length = m.data.length
        ∧ (∀ y < Y, ∀ x < w, m'.data[x + y * w]? = some (if val x y then 1 else 0)) := by
  intro Y
  induction Y with
  | zero =>
    intro _ m _ _
    exact ⟨m, by simp, rfl, rfl, rfl, by simp⟩
  | succ Y ih =>
    intro hY m hw hlen
    obtain ⟨m1, hfold, hw1, hh1, hl1, hrows⟩ := ih (by omega) m hw hlen
    obtain ⟨m2, hfold2, hw2, hh2, hl2, hrow, hrest⟩ :=
      mask_row cell val w h Y (by omega) (hcell Y (by omega)) w le_rfl m1
        (by rw [hw1, hw]) (by rw [hl1, hlen])
    refine ⟨m2, ?_, by rw [hw2, hw1], by rw [hh2, hh1], by rw [hl2, hl1], ?_⟩
    · rw [List.range_succ, List.foldl_append, hfold]
      simpa using hfold2
    · intro y hy x hx
      by_cases hyY : y = Y
      · subst hyY; exact hrow x hx
      · have hlt : x + y * w < Y * w := by
          have : (y + 1) * w ≤ Y * w := Nat.mul_le_mul_right w (by omega)
          nlinarith
        rw [hrest _ (Or.inl hlt)]
        exact hrows y (by omega) x hx

/-- The mask cell value decides "all source pixels are read inside the image
and are non-zero". -/
theorem dataComplete_iff (depthmap : List F) (W d : Int) (x y : Nat) :
    dataComplete depthmap W d x y = true ↔
      ∀ i j : Nat, (i : Int) < d → (j : Int) < d →
        readDepth depthmap ((d * x + j) + (d * y + i) * W) ≠ some ((0 : Int) : F) := by
  unfold dataComplete
  simp only [List.all_eq_true, List.mem_range, decide_eq_true_eq]
  constructor
  · intro h i j hi hj
    exact h i (by omega) j (by omega)
  · intro h i hi j hj
    exact h i j (by omega) (by omega)

/-- On an image whose array has `W * H` elements, `depth_mask` with a factor
`d ≥ 1` returns a `W/d × H/d` mask; the cell `(x, y)` holds `1` or `0` according
to `dataComplete`. -/
theorem depth_mask_cells (depthmap : List F) (W H d : Int) (hW : 0 ≤ W) (hH : 0 ≤ H)
    (hd : 1 ≤ d) (hlen : (depthmap.length : Int) = W * H) :
    ∃ mask, depth_mask depthmap ⟨W, H⟩ d = some mask
      ∧ mask.width = W / d ∧ mask.height = H / d
      ∧ ∀ x y : Nat, (x : Int) < W / d → (y : Int) < H / d →
          mask.read (x + y * (W / d)) = some (if dataComplete depthmap W d x y then 1 else 0) := by
  have hWd : 0 ≤ W / d := Int.ediv_nonneg hW (by omega)
  have hHd : 0 ≤ H / d := Int.ediv_nonneg hH (by omega)
  obtain ⟨w, hw⟩ := Int.eq_ofNat_of_zero_le hWd
  obtain ⟨h, hh⟩ := Int.eq_ofNat_of_zero_le hHd
  have hcell : ∀ y < h, ∀ x < w,
      maskCell depthmap ⟨W, H⟩ d x y = some (dataComplete depthmap W d x y) := by
    intro y hy x hx
    apply maskCell_eq
    intro i j hi hj
    have hb := source_index_bounds W H d hW hd x y i j (by omega) (by omega) hi hj
    obtain ⟨u, hu, _⟩ := readDepth_some depthmap _ hb.1 (by omega)
    exact ⟨u, hu⟩
  have hcreate : Image.create (W.tdiv d) (H.tdiv d) = Image.create (w : Int) (h : Int) := by
    rw [Int.tdiv_eq_ediv hW (by omega), Int.tdiv_eq_ediv hH (by omega), hw, hh]
  obtain ⟨m', hfold, hw', hh', _, hcells⟩ :=
    mask_rows (maskCell depthmap ⟨W, H⟩ d) (dataComplete depthmap W d) w h hcell h le_rfl
      (Image.create (w : Int) (h : Int)) rfl
      (by simp only [Image.create, List.length_replicate]; norm_cast)
  refine ⟨m', ?_, by rw [hw', hw]; rfl, by rw [hh', hh]; rfl, ?_⟩
  · unfold depth_mask
    simp only [hcreate]
    simpa [Image.create] using hfold
  · intro x y hx hy
    have hcast : ((x : Int) + (y : Int) * (W / d)) = ((x + y * w : Nat) : Int) := by
      rw [hw]; push_cast; rfl
    unfold Image.read
    rw [hcast, if_pos (Int.natCast_nonneg _), Int.toNat_natCast]
    exact hcells y (by omega) x (by omega)

end DepthMask

section DepthMaskContract

variable {F : Type} [PartialOrder F] [IntCast F] [DecidableEq F]

/-- C9. For a `W × H` depth image of non-negative values and a downsample factor
`d ≥ 1`, `depth_mask` returns (every read and store being in range) a mask of
width `W / d` and height `H / d` whose cell `(x, y)` is `1` if and only if every
source pixel `(d*x + j, d*y + i)`, `0 ≤ i, j < d`, is read inside `[0, W*H)` and
has strictly positive depth, and is `0` otherwise. -/
theorem depth_mask_spec (depthmap : List F) (W H d : Int) (hW : 0 ≤ W) (hH : 0 ≤ H)
    (hd : 1 ≤ d) (hlen : (depthmap.length : Int) = W * H)
    (hnn : ∀ v ∈ depthmap, ((0 : Int) : F) ≤ v) :
    ∃ mask, depth_mask depthmap ⟨W, H⟩ d = some mask
      ∧ mask.width = W / d ∧ mask.height = H / d
      ∧ ∀ x y : Nat, (x : Int) < W / d → (y : Int) < H / d →
          (mask.read (x + y * (W / d)) = some 1 ∨ mask.read (x + y * (W / d)) = some 0)
          ∧ (mask.read (x + y * (W / d)) = some 1 ↔
              ∀ i j : Nat, (i : Int) < d → (j : Int) < d →
                ∃ u, readDepth depthmap ((d * x + j) + (d * y + i) * W) = some u
                  ∧ 0 ≤ (d * x + j) + (d * y + i) * W ∧ (d * x + j) + (d * y + i) * W < W * H
                  ∧ ((0 : Int) : F) < u) := by
  obtain ⟨mask, hmask, hw, hh, hcells⟩ := depth_mask_cells depthmap W H d hW hH hd hlen
  refine ⟨mask, hmask, hw, hh, ?_⟩
  intro x y hx hy
  have hread : ∀ i j : Nat, (i : Int) < d → (j : Int) < d →
      ∃ u, readDepth depthmap ((d * x + j) + (d * y + i) * W) = some u ∧ u ∈ depthmap := by
    intro i j hi hj
    have hb := source_index_bounds W H d hW hd x y i j hx hy hi hj
    exact readDepth_some depthmap _ hb.1 (by omega)
  rw [hcells x y hx hy]
  constructor
  · by_cases hc : dataComplete depthmap W d x y = true <;> simp [hc]
  · constructor
    · intro h1
      have hc : dataComplete depthmap W d x y = true := by
        by_contra hc
        simp [hc] at h1
      intro i j hi hj
      obtain ⟨u, hu, hmem⟩ := hread i j hi hj
      have hb := source_index_bounds W H d hW hd x y i j hx hy hi hj
      refine ⟨u, hu, hb.1, hb.2, ?_⟩
      have hne := (dataComplete_iff depthmap W d x y).1 hc i j hi hj
      rw [hu] at hne
      exact lt_of_le_of_ne (hnn u hmem) (fun h0 => hne (by rw [h0]))
    · intro h1
      have hc : dataComplete depthmap W d x y = true := by
        rw [dataComplete_iff]
        intro i j hi hj
        obtain ⟨u, hu, _, _, hpos⟩ := h1 i j hi hj
        rw [hu]
        intro h0
        injection h0 with h0
        rw [h0] at hpos
        exact lt_irrefl _ hpos
      simp [hc]

/-- The contract of `depth_mask` on a `4 × 2` image with one zero pixel and
factor `2`: a `2 × 1` mask is returned. -/
theorem depth_mask_spec_witness :
    (0 : Int) ≤ 4 ∧ (0 : Int) ≤ 2 ∧ (1 : Int) ≤ 2 ∧ ((sampleDepth.length : Nat) : Int) = 4 * 2
    ∧ (∀ v ∈ sampleDepth, ((0 : Int) : ℚ) ≤ v)
    ∧ ∃ mask, depth_mask sampleDepth ⟨4, 2⟩ 2 = some mask
        ∧ mask.width = 4 / 2 ∧ mask.height = 2 / 2 :=
  ⟨by decide, by decide, by decide, by decide, by decide!,
    (depth_mask_spec sampleDepth 4 2 2 (by decide) (by decide) (by decide) (by decide)
      (by decide!)).imp fun _ h => ⟨h.1, h.2.1, h.2.2.1⟩⟩

end DepthMaskContract

section ZeroDepth

variable {F : Type} [Add F] [Sub F] [Mul F] [Div F] [IntCast F] [LT F]
  [∀ a b : F, Decidable (a < b)] [DecidableEq F] [FloatOps F]

/-- A property of the accumulator preserved by the steps on the elements of the
list holds after a fold. -/
theorem foldl_preserves_mem {α β : Type} (f : β → α → β) (I : β → Prop) :
    ∀ (l : List α), (∀ a ∈ l, ∀ b, I b → I (f b a)) → ∀ b, I b → I (l.foldl f b) := by
  intro l
  induction l with
  | nil => intro _ b hb; simpa using hb
  | cons a l ih =>
    intro h b hb
    exact ih (fun a' ha' => h a' (List.mem_cons_of_mem _ ha')) _
      (h a (List.mem_cons_self _ _) b hb)

omit [Add F] [Sub F] [Mul F] [Div F] [LT F] [∀ a b : F, Decidable (a < b)] [FloatOps F] in
/-- On a depth image that is zero everywhere the pixel loops run no ray. -/
theorem forPixels_zero (p : Params F) (stride : Nat) (hs : stride = 1 ∨ stride = 2)
    (perRay : Nat → Nat → F → World → Run) (w : World)
    (hW : 0 ≤ p.image_size.x) (hH : 0 ≤ p.image_size.y)
    (hlen : (p.depthmap.length : Int) = p.image_size.x * p.image_size.y)
    (hz : ∀ v ∈ p.depthmap, v = ((0 : Int) : F)) :
    forPixels p stride perRay w = ⟨Status.ok, w⟩ := by
  unfold forPixels
  refine foldl_preserves_mem _ (fun r : Run => r = ⟨Status.ok, w⟩) _ ?_ _ rfl
  intro y hy r hr
  refine foldl_preserves_mem _ (fun r : Run => r = ⟨Status.ok, w⟩) _ ?_ _ hr
  intro x hx r hr
  simp only [List.mem_map, List.mem_range] at hx hy
  obtain ⟨i, hi, hxi⟩ := hx
  obtain ⟨j, hj, hyj⟩ := hy
  have hxW : (x : Int) < p.image_size.x := by
    rcases hs with hs | hs <;> subst hs <;> omega
  have hyH : (y : Int) < p.image_size.y := by
    rcases hs with hs | hs <;> subst hs <;> omega
  have h0 : (0 : Int) ≤ (x : Int) + (y : Int) * p.image_size.x := by positivity
  have h1 : (x : Int) + (y : Int) * p.image_size.x < p.depthmap.length := by
    rw [hlen]; nlinarith
  obtain ⟨u, hu, hmem⟩ := readDepth_some p.depthmap _ h0 h1
  rw [hr]
  simp only [pixel, hu, hz u hmem, if_true]

/-- C8. On every input whose depth image (`W × H` values, all zero) has no
measurement, `buildOctantList` and `buildParentOctantList` come to their end and
return `0`, `buildDenseOctantList` comes to its end with `allocation_length` and
`frustum_length` `0`, and the event log of each run is empty: no slot of any
output list is written, `fetch_octant` is never called, no node is activated.
This holds for every fuel, octree, arithmetic and reprojection test. -/
theorem zero_depth_image (fuel : Nat) (p : Params F) (m : Int)
    (reproject : Image → Vec3 Int → Int → Bool)
    (hW : 0 ≤ p.image_size.x) (hH : 0 ≤ p.image_size.y)
    (hlen : (p.depthmap.length : Int) = p.image_size.x * p.image_size.y)
    (hz : ∀ v ∈ p.depthmap, v = ((0 : Int) : F)) :
    ((buildOctantList fuel p m).returned p.reserved_keys = some 0
      ∧ (buildOctantList fuel p m).world.log = [])
    ∧ ((buildParentOctantList fuel p m).returned p.reserved_keys = some 0
      ∧ (buildParentOctantList fuel p m).world.log = [])
    ∧ ((buildDenseOctantList fuel p reproject m).denseLengths p.reserved_keys = some (0, 0)
      ∧ (buildDenseOctantList fuel p reproject m).world.log = []) := by
  refine ⟨?_, ?_, ?_⟩
  · unfold buildOctantList
    rw [forPixels_zero p 1 (Or.inl rfl) _ _ hW hH hlen hz]
    simp [Run.returned, returnedLength]
  · unfold buildParentOctantList
    rw [forPixels_zero p 1 (Or.inl rfl) _ _ hW hH hlen hz]
    simp [Run.returned, returnedLength]
  · obtain ⟨mask, hmask, _⟩ :=
      depth_mask_cells p.depthmap p.image_size.x p.image_size.y 4 hW hH (by decide) hlen
    unfold buildDenseOctantList
    rw [hmask]
    simp only []
    rw [forPixels_zero p 2 (Or.inr rfl) _ _ hW hH hlen hz]
    simp [Run.denseLengths, returnedLength]

/-- The zero-depth property on a `2 × 2` image of zeros. -/
theorem zero_depth_image_witness :
    (0 : Int) ≤ blankParams.image_size.x ∧ (0 : Int) ≤ blankParams.image_size.y
    ∧ (blankParams.depthmap.length : Int) = blankParams.image_size.x * blankParams.image_size.y
    ∧ (∀ v ∈ blankParams.depthmap, v = ((0 : Int) : ℚ))
    ∧ ((buildOctantList 20 blankParams 16).returned blankParams.reserved_keys = some 0
      ∧ (buildOctantList 20 blankParams 16).world.log = []) :=
  ⟨by decide, by decide, by decide, by decide!,
    (zero_depth_image 20 blankParams 16 acceptAll (by decide) (by decide) (by decide)
      (by decide!)).1⟩

end ZeroDepth

section ExactAxis

/-- The operation `abs` on exact numbers. -/
theorem abs_rat (q : ℚ) : FloatOps.abs q = |q| := rfl

/-- The operation `floor` on exact numbers. -/
theorem floor_rat (q : ℚ) : FloatOps.floor q = ((⌊q⌋ : Int) : ℚ) := rfl

/-- Conversion to `int` of a non-negative exact number. -/
theorem toInt_rat_nonneg (q : ℚ) (h : 0 ≤ q) : FloatOps.toInt q = ⌊q⌋ := by
  show (if 0 ≤ q then ⌊q⌋ else ⌈q⌉) = ⌊q⌋
  rw [if_pos h]

/-- The quantised coordinate `B * (floor(q) / B).cast<int>()` of a non-negative
`q` is the `B`-aligned cell of `q`. -/
theorem quantise_nonneg (B : Int) (hB : 0 < B) (q : ℚ) (hq : 0 ≤ q) :
    B * FloatOps.toInt (FloatOps.floor q / (B : ℚ)) = B * ⌊q / (B : ℚ)⌋ := by
  have hBq : (0 : ℚ) < (B : ℚ) := by exact_mod_cast hB
  have hfl : (0 : ℚ) ≤ ((⌊q⌋ : Int) : ℚ) := by exact_mod_cast Int.floor_nonneg.2 hq
  rw [floor_rat, toInt_rat_nonneg _ (div_nonneg hfl (le_of_lt hBq))]
  congr 1
  rw [Int.floor_eq_iff]
  have h1 : ((⌊q / (B : ℚ)⌋ : Int) : ℚ) ≤ q / B := Int.floor_le _
  have h2 : q / B < ((⌊q / (B : ℚ)⌋ : Int) : ℚ) + 1 := Int.lt_floor_add_one _
  have h3 : ((⌊q⌋ : Int) : ℚ) ≤ q := Int.floor_le _
  rw [le_div_iff₀ hBq] at h1
  rw [div_lt_iff₀ hBq] at h2
  have h4 : ⌊q / (B : ℚ)⌋ * B ≤ ⌊q⌋ := by
    rw [Int.le_floor]; push_cast; exact h1
  have h5 : ⌊q⌋ < (⌊q / (B : ℚ)⌋ + 1) * B := by
    rw [Int.floor_lt]; push_cast; exact h2
  constructor
  · rw [le_div_iff₀ hBq]; exact_mod_cast h4
  · rw [div_lt_iff₀ hBq]; exact_mod_cast h5

/-- An axis that is not stepped keeps its invariant when the travelled distance
moves up to at most its `T`. -/
theorem axis_stay (B : Int) (p0 d : ℚ) (c : Int) (T τ τ' : ℚ) (h : AxisInv B p0 d c T τ)
    (h1 : τ ≤ τ') (h2 : τ' ≤ T) : AxisInv B p0 d c T τ' := by
  obtain ⟨hc, _, hlow, hT⟩ := h
  exact ⟨hc, h2, le_trans hlow h1, hT⟩

/-- The stepped axis: the cell moves by `B` in the direction of the ray, `T` by
`B / |d|`, and the travelled distance becomes the old `T`. -/
theorem axis_step (B : Int) (hB : 0 < B) (p0 d : ℚ) (hd : d ≠ 0) (c : Int) (T τ : ℚ)
    (h : AxisInv B p0 d c T τ) :
    AxisInv B p0 d (c + B * (if d < 0 then -1 else 1)) (T + (B : ℚ) / |d|) T := by
  obtain ⟨hc, _, _, hT⟩ := h
  have hBq : (0 : ℚ) < (B : ℚ) := by exact_mod_cast hB
  have habs : 0 < |d| := abs_pos.2 hd
  refine ⟨dvd_add hc (Dvd.intro _ rfl), ?_, by simp, ?_⟩
  · have : 0 < (B : ℚ) / |d| := div_pos hBq habs
    linarith
  · rcases lt_or_gt_of_ne hd with hneg | hpos
    · rw [if_pos hneg] at hT
      simp only [if_pos hneg, abs_of_neg hneg]
      have hd' : -d ≠ 0 := neg_ne_zero.2 hd
      have e : (T + (B : ℚ) / -d) * d = T * d - B := by field_simp; ring
      push_cast
      linarith
    · have hn : ¬ d < 0 := not_lt.2 (le_of_lt hpos)
      rw [if_neg hn] at hT
      simp only [if_neg hn, abs_of_pos hpos]
      have e : (T + (B : ℚ) / d) * d = T * d + B := by field_simp
      push_cast
      linarith

/-- The initial axis state satisfies the invariant with travelled distance
`0`. -/
theorem axis_init (B : Int) (hB : 0 < B) (p0 d : ℚ) (hp0 : 0 ≤ p0) (hd : d ≠ 0) :
    AxisInv B p0 d (B * FloatOps.toInt (FloatOps.floor p0 / (B : ℚ)))
      (tInit d ((p0 - ((B * FloatOps.toInt (FloatOps.floor p0 / (B : ℚ)) : Int) : ℚ)) / (B : ℚ))
        ((B : ℚ) / FloatOps.abs d)) 0 := by
  rw [quantise_nonneg B hB p0 hp0, abs_rat]
  have hBq : (0 : ℚ) < (B : ℚ) := by exact_mod_cast hB
  have habs : 0 < |d| := abs_pos.2 hd
  have h1 : ((⌊p0 / (B : ℚ)⌋ : Int) : ℚ) ≤ p0 / B := Int.floor_le _
  have h2 : p0 / B < ((⌊p0 / (B : ℚ)⌋ : Int) : ℚ) + 1 := Int.lt_floor_add_one _
  rw [le_div_iff₀ hBq] at h1
  rw [div_lt_iff₀ hBq] at h2
  unfold tInit
  simp only [Int.cast_zero, Int.cast_one, Int.cast_mul]
  refine ⟨Dvd.intro _ rfl, ?_, ?_, ?_⟩
  · split
    · apply mul_nonneg (div_nonneg (by linarith) (le_of_lt hBq)) (le_of_lt (div_pos hBq habs))
    · apply mul_nonneg _ (le_of_lt (div_pos hBq habs))
      rw [sub_nonneg, div_le_one hBq]
      linarith
  · rcases lt_or_gt_of_ne hd with hneg | hpos
    · simp only [if_pos hneg, abs_of_neg hneg]
      have hd' : -d ≠ 0 := neg_ne_zero.2 hd
      have hd'' : 0 < -d := by linarith
      rw [sub_nonpos, ← sub_nonneg]
      have : (B : ℚ) / -d - (p0 - (B : ℚ) * ⌊p0 / (B : ℚ)⌋) / B * (B / -d)
          = ((B : ℚ) * ⌊p0 / (B : ℚ)⌋ + B - p0) / -d := by
        field_simp
        ring
      rw [this]
      exact div_nonneg (by linarith) (le_of_lt hd'')
    · have hn : ¬ d < 0 := not_lt.2 (le_of_lt hpos)
      simp only [if_neg hn, abs_of_pos hpos]
      rw [sub_nonpos, ← sub_nonneg]
      have : (B : ℚ) / d - (1 - (p0 - (B : ℚ) * ⌊p0 / (B : ℚ)⌋) / B) * (B / d)
          = (p0 - (B : ℚ) * ⌊p0 / (B : ℚ)⌋) / d := by
        field_simp
      rw [this]
      exact div_nonneg (by linarith) (le_of_lt hpos)
  · rcases lt_or_gt_of_ne hd with hneg | hpos
    · simp only [if_pos hneg, abs_of_neg hneg]
      have hd' : -d ≠ 0 := neg_ne_zero.2 hd
      field_simp
      ring
    · have hn : ¬ d < 0 := not_lt.2 (le_of_lt hpos)
      simp only [if_neg hn, abs_of_pos hpos]
      field_simp
      ring

/-- Stepping an axis whose next crossing is at a distance `≤ t` uses up one of
its crossings. -/
theorem axisCount_step (t T δ : ℚ) (hδ : 0 < δ) (hT : T ≤ t) :
    axisCount t (T + δ) δ + 1 = axisCount t T δ := by
  unfold axisCount
  have h1 : (t - (T + δ)) / δ = (t - T) / δ - 1 := by
    field_simp
    ring
  have h2 : 0 ≤ ⌊(t - T) / δ⌋ := Int.floor_nonneg.2 (div_nonneg (by linarith) (le_of_lt hδ))
  rw [h1, Int.floor_sub_one]
  omega

end ExactAxis

section ExactRay

variable (p : Params ℚ) (ray : Ray ℚ)

/-- The initial ray state of a ray with non-negative origin and a direction
without zero component satisfies the band invariant. -/
theorem initRay_BandInv (hB : 0 < p.oct.blockSide)
    (hp0 : 0 ≤ (originV p ray).x ∧ 0 ≤ (originV p ray).y ∧ 0 ≤ (originV p ray).z)
    (hd : ray.direction.x ≠ 0 ∧ ray.direction.y ≠ 0 ∧ ray.direction.z ≠ 0) :
    BandInv p ray (initRay p ray) ∧ (initRay p ray).travelled = 0 := by
  refine ⟨⟨rfl, ?_, rfl, rfl, ?_, ?_, ?_⟩, by simp [initRay]⟩
  · simp [initRay, Octree.leaves_level]
  · have h := axis_init p.oct.blockSide hB _ ray.direction.x hp0.1 hd.1
    simpa [initRay, alignF, fracOf, deltaOf, tMaxInit] using h
  · have h := axis_init p.oct.blockSide hB _ ray.direction.y hp0.2.1 hd.2.1
    simpa [initRay, alignF, fracOf, deltaOf, tMaxInit] using h
  · have h := axis_init p.oct.blockSide hB _ ray.direction.z hp0.2.2 hd.2.2
    simpa [initRay, alignF, fracOf, deltaOf, tMaxInit] using h

/-- The distance between two crossings of an axis is positive. -/
theorem delta_pos (B : Int) (hB : 0 < B) (d : ℚ) (hd : d ≠ 0) :
    0 < (B : ℚ) / FloatOps.abs d := by
  rw [abs_rat]
  exact div_pos (by exact_mod_cast hB) (abs_pos.2 hd)

/-- Effect of a step along `x` taken when `T_max.x` is the least `T_max`. -/
theorem stepX_BandInv (hB : 0 < p.oct.blockSide)
    (hd : ray.direction.x ≠ 0 ∧ ray.direction.y ≠ 0 ∧ ray.direction.z ≠ 0)
    (s : RayState ℚ) (h : BandInv p ray s) (hy : s.T_max.x ≤ s.T_max.y)
    (hz : s.T_max.x ≤ s.T_max.z) (t : ℚ) :
    BandInv p ray (stepX s) ∧ s.travelled ≤ (stepX s).travelled
      ∧ (t < (stepX s).travelled →
          t < s.T_max.x ∧ t < s.T_max.y ∧ t < s.T_max.z)
      ∧ ((stepX s).travelled ≤ t → crossings t (stepX s) + 1 = crossings t s) := by
  obtain ⟨h1, h2, h3, h4, hx, hyy, hzz⟩ := h
  have hsx := axis_step p.oct.blockSide hB _ _ hd.1 _ _ _ hx
  refine ⟨⟨h1, h2, h3, h4, ?_, ?_, ?_⟩, hx.2.1, ?_, ?_⟩
  · simpa [stepX, h3, h4, stepOf, stepBase, deltaOf, abs_rat] using hsx
  · exact axis_stay _ _ _ _ _ _ _ hyy hx.2.1 hy
  · exact axis_stay _ _ _ _ _ _ _ hzz hx.2.1 hz
  · intro ht
    have : t < s.T_max.x := ht
    exact ⟨this, lt_of_lt_of_le this hy, lt_of_lt_of_le this hz⟩
  · intro ht
    have hδ : 0 < s.delta_T.x := by rw [h3]; exact delta_pos _ hB _ hd.1
    have := axisCount_step t s.T_max.x s.delta_T.x hδ ht
    simp only [crossings, stepX]
    omega

/-- Effect of a step along `y` taken when `T_max.y` is the least `T_max`. -/
theorem stepY_BandInv (hB : 0 < p.oct.blockSide)
    (hd : ray.direction.x ≠ 0 ∧ ray.direction.y ≠ 0 ∧ ray.direction.z ≠ 0)
    (s : RayState ℚ) (h : BandInv p ray s) (hx' : s.T_max.y ≤ s.T_max.x)
    (hz : s.T_max.y ≤ s.T_max.z) (t : ℚ) :
    BandInv p ray (stepY s) ∧ s.travelled ≤ (stepY s).travelled
      ∧ (t < (stepY s).travelled →
          t < s.T_max.x ∧ t < s.T_max.y ∧ t < s.T_max.z)
      ∧ ((stepY s).travelled ≤ t → crossings t (stepY s) + 1 = crossings t s) := by
  obtain ⟨h1, h2, h3, h4, hx, hyy, hzz⟩ := h
  have hsy := axis_step p.oct.blockSide hB _ _ hd.2.1 _ _ _ hyy
  refine ⟨⟨h1, h2, h3, h4, ?_, ?_, ?_⟩, hyy.2.1, ?_, ?_⟩
  · exact axis_stay _ _ _ _ _ _ _ hx hyy.2.1 hx'
  · simpa [stepY, h3, h4, stepOf, stepBase, deltaOf, abs_rat] using hsy
  · exact axis_stay _ _ _ _ _ _ _ hzz hyy.2.1 hz
  · intro ht
    have : t < s.T_max.y := ht
    exact ⟨lt_of_lt_of_le this hx', this, lt_of_lt_of_le this hz⟩
  · intro ht
    have hδ : 0 < s.delta_T.y := by rw [h3]; exact delta_pos _ hB _ hd.2.1
    have := axisCount_step t s.T_max.y s.delta_T.y hδ ht
    simp only [crossings, stepY]
    omega

/-- Effect of a step along `z` taken when `T_max.z` is the least `T_max`. -/
theorem stepZ_BandInv (hB : 0 < p.oct.blockSide)
    (hd : ray.direction.x ≠ 0 ∧ ray.direction.y ≠ 0 ∧ ray.direction.z ≠ 0)
    (s : RayState ℚ) (h : BandInv p ray s) (hx' : s.T_max.z ≤ s.T_max.x)
    (hy : s.T_max.z ≤ s.T_max.y) (t : ℚ) :
    BandInv p ray (stepZ s) ∧ s.travelled ≤ (stepZ s).travelled
      ∧ (t < (stepZ s).travelled →
          t < s.T_max.x ∧ t < s.T_max.y ∧ t < s.T_max.z)
      ∧ ((stepZ s).travelled ≤ t → crossings t (stepZ s) + 1 = crossings t s) := by
  obtain ⟨h1, h2, h3, h4, hx, hyy, hzz⟩ := h
  have hsz := axis_step p.oct.blockSide hB _ _ hd.2.2 _ _ _ hzz
  refine ⟨⟨h1, h2, h3, h4, ?_, ?_, ?_⟩, hzz.2.1, ?_, ?_⟩
  · exact axis_stay _ _ _ _ _ _ _ hx hzz.2.1 hx'
  · exact axis_stay _ _ _ _ _ _ _ hyy hzz.2.1 hy
  · simpa [stepZ, h3, h4, stepOf, stepBase, deltaOf, abs_rat] using hsz
  · intro ht
    have : t < s.T_max.z := ht
    exact ⟨lt_of_lt_of_le this hx', lt_of_lt_of_le this hy, this⟩
  · intro ht
    have hδ : 0 < s.delta_T.z := by rw [h3]; exact delta_pos _ hB _ hd.2.2
    have := axisCount_step t s.T_max.z s.delta_T.z hδ ht
    simp only [crossings, stepZ]
    omega

/-- Effect of the stepping phase on a state satisfying the band invariant: the
invariant is kept, the travelled distance does not decrease, it becomes the
least `T_max`, and a step to a distance `≤ t` uses up one crossing. -/
theorem advance_BandInv (hB : 0 < p.oct.blockSide)
    (hd : ray.direction.x ≠ 0 ∧ ray.direction.y ≠ 0 ∧ ray.direction.z ≠ 0)
    (s : RayState ℚ) (h : BandInv p ray s) (t : ℚ) :
    BandInv p ray (advance s) ∧ s.travelled ≤ (advance s).travelled
      ∧ (t < (advance s).travelled →
          t < s.T_max.x ∧ t < s.T_max.y ∧ t < s.T_max.z)
      ∧ ((advance s).travelled ≤ t → crossings t (advance s) + 1 = crossings t s) := by
  unfold advance
  by_cases hxy : s.T_max.x < s.T_max.y
  · by_cases hxz : s.T_max.x < s.T_max.z
    · simp only [hxy, hxz, if_true]
      exact stepX_BandInv p ray hB hd s h (le_of_lt hxy) (le_of_lt hxz) t
    · simp only [hxy, hxz, if_true, if_false]
      have hzx : s.T_max.z ≤ s.T_max.x := not_lt.1 hxz
      exact stepZ_BandInv p ray hB hd s h hzx (le_trans hzx (le_of_lt hxy)) t
  · by_cases hyz : s.T_max.y < s.T_max.z
    · simp only [hxy, hyz, if_true, if_false]
      exact stepY_BandInv p ray hB hd s h (not_lt.1 hxy) (le_of_lt hyz) t
    · simp only [hxy, hyz, if_false]
      have hzy : s.T_max.z ≤ s.T_max.y := not_lt.1 hyz
      exact stepZ_BandInv p ray hB hd s h (le_trans hzy (not_lt.1 hxy)) hzy t

/-- Inside the band the doubling phase does nothing. -/
theorem doubleSize_band (m : Int) (s : RayState ℚ) (t : ℚ) (h1 : s.travelled ≤ t)
    (hband : t < p.band / p.voxel_dim) : doubleSize p ray m s = s := by
  have hinv : p.inv_voxel_dim * p.band = p.band / p.voxel_dim := by
    simp [Params.inv_voxel_dim]; ring
  have hg : doublingGuard p s.travelled s.allocation_size s.allocation_size m = false := by
    unfold doublingGuard
    have : ¬ ((0 : ℚ) < s.travelled - p.inv_voxel_dim * p.band) := by
      rw [hinv]; linarith
    simp [this]
  unfold doubleSize
  simp [hg]

/-- The per-cell action on an in-bounds cell at leaf level fetches the cell and,
when no node is found, produces its key. -/
theorem visitCell_Visited (s : RayState ℚ) (w : World)
    (hl : s.allocation_level = p.oct.leaves_level)
    (hb : inBox p.oct.size s.curr_node.x s.curr_node.y s.curr_node.z) :
    Visited p.oct s.curr_node (visitCell p s w).log := by
  have hb' := (inBounds_iff p.oct.size s.curr_node).2 hb
  unfold Visited visitCell
  simp only [hb', if_true, hl, min_self]
  constructor
  · split
    · obtain ⟨tl, htl, _⟩ := emitKey_log Buffer.allocation_list p.reserved_keys
        ⟨s.curr_node.x, s.curr_node.y, s.curr_node.z, p.oct.leaves_level⟩
        (w.record (Event.fetch s.curr_node.x s.curr_node.y s.curr_node.z p.oct.leaves_level))
      rw [htl]; simp [World.record]
    · split <;> simp [World.record]
  · intro hnone
    simp only [hnone]
    obtain ⟨tl, htl, _⟩ := emitKey_log Buffer.allocation_list p.reserved_keys
      ⟨s.curr_node.x, s.curr_node.y, s.curr_node.z, p.oct.leaves_level⟩
      (w.record (Event.fetch s.curr_node.x s.curr_node.y s.curr_node.z p.oct.leaves_level))
    rw [htl]; simp [World.record]

end ExactRay

section LogGrowth

variable {F : Type} [Add F] [Sub F] [Mul F] [Div F] [IntCast F] [LT F]
  [∀ a b : F, Decidable (a < b)] [FloatOps F]

omit [Add F] [Sub F] [Mul F] [Div F] [IntCast F] [LT F] [∀ a b : F, Decidable (a < b)]
  [FloatOps F] in
/-- The per-cell action of `buildOctantList` only appends to the log. -/
theorem visitCell_mono (p : Params F) (s : RayState F) (w : World) (e : Event)
    (he : e ∈ w.log) : e ∈ (visitCell p s w).log := by
  unfold visitCell
  split
  · split
    · obtain ⟨tl, htl, _⟩ := emitKey_log Buffer.allocation_list p.reserved_keys
        ⟨s.curr_node.x, s.curr_node.y, s.curr_node.z, min s.allocation_level p.oct.leaves_level⟩
        (w.record (Event.fetch s.curr_node.x s.curr_node.y s.curr_node.z s.allocation_level))
      rw [htl]; simp [World.record, he]
    · split <;> simp [World.record, he]
  · exact he

/-- A ray of `buildOctantList` only appends to the log. -/
theorem traverseRay_mono (fuel : Nat) (p : Params F) (m : Int) (x y : Nat) (d : F) (w : World)
    (e : Event) (he : e ∈ w.log) : e ∈ (traverseRay fuel p m x y d w).world.log := by
  unfold traverseRay
  exact doWhile_preserves _ _ (fun _ w' => e ∈ w'.log) _
    (fun s w' h => visitCell_mono p s w' e h) (fun _ _ h => h) fuel _ w he

end LogGrowth

section ExactTraversal

variable (p : Params ℚ) (ray : Ray ℚ) (m : Int)

/-- One iteration of the ray loop of `buildOctantList`. -/
theorem doWhile_ray_succ (f : Nat) (s : RayState ℚ) (w : World) :
    doWhile (rayBody p ray m) (rayCond ray) (f + 1) s w
      = if rayCond ray (advance (doubleSize p ray m s)) = true
        then doWhile (rayBody p ray m) (rayCond ray) f (advance (doubleSize p ray m s))
          (visitCell p s w)
        else ⟨Status.ok, visitCell p s w⟩ := by
  simp [doWhile, rayBody]

/-- The ray loop only appends to the log. -/
theorem doWhile_ray_mono (f : Nat) (s : RayState ℚ) (w : World) (e : Event) (he : e ∈ w.log) :
    e ∈ (doWhile (rayBody p ray m) (rayCond ray) f s w).world.log :=
  doWhile_preserves _ _ (fun _ w' => e ∈ w'.log) _
    (fun s w' h => visitCell_mono p s w' e h) (fun _ _ h => h) f s w he

/-- The property `Visited` survives the growth of the log. -/
theorem Visited_mono (oct : Octree) (c : Vec3 Int) (log log' : List Event)
    (h : Visited oct c log) (hsub : ∀ e ∈ log, e ∈ log') : Visited oct c log' :=
  ⟨hsub _ h.1, fun hn => hsub _ (h.2 hn)⟩

end ExactTraversal

section CompletedRuns

/-- Anatomy of a fold over runs that ended normally, for a step that cannot
recover from a stopped run and only appends to the log: the fold started from a
normal run, every element was processed from a normal run to a normal run, and
the log of every intermediate run is part of the final log. -/
theorem foldl_ok {α : Type} (f : Run → α → Run)
    (hst : ∀ r a, (f r a).status = Status.ok → r.status = Status.ok)
    (hlog : ∀ r a e, e ∈ r.world.log → e ∈ (f r a).world.log) :
    ∀ (l : List α) (r : Run), (l.foldl f r).status = Status.ok →
      r.status = Status.ok ∧ (∀ e ∈ r.world.log, e ∈ (l.foldl f r).world.log)
        ∧ ∀ a ∈ l, ∃ r', r'.status = Status.ok ∧ (f r' a).status = Status.ok
            ∧ ∀ e ∈ (f r' a).world.log, e ∈ (l.foldl f r).world.log := by
  intro l
  induction l with
  | nil => intro r h; exact ⟨h, fun e he => he, fun a ha => by simp at ha⟩
  | cons a l ih =>
    intro r h
    rw [List.foldl_cons] at h ⊢
    obtain ⟨h1, h2, h3⟩ := ih (f r a) h
    refine ⟨hst r a h1, fun e he => h2 e (hlog r a e he), ?_⟩
    intro a' ha'
    rcases List.mem_cons.1 ha' with heq | hmem
    · rw [heq]; exact ⟨r, hst r a h1, h1, h2⟩
    · exact h3 a' hmem

variable {F : Type} [IntCast F] [DecidableEq F]

/-- A pixel processed to a normal run was processed from a normal run. -/
theorem pixel_status (p : Params F) (perRay : Nat → Nat → F → World → Run) (y x : Nat) (r : Run)
    (h : (pixel p perRay y x r).status = Status.ok) : r.status = Status.ok := by
  unfold pixel at h
  split at h
  · assumption
  · rename_i hne
    exact absurd h (by simpa using hne)

/-- A pixel only appends to the log when its ray does. -/
theorem pixel_mono (p : Params F) (perRay : Nat → Nat → F → World → Run)
    (hmono : ∀ x y d w e, e ∈ w.log → e ∈ (perRay x y d w).world.log) (y x : Nat) (r : Run)
    (e : Event) (he : e ∈ r.world.log) : e ∈ (pixel p perRay y x r).world.log :=
  pixel_preserves p perRay (fun w => e ∈ w.log) (fun x y d w h => hmono x y d w e h) y x r he

/-- In a run of the pixel loops that ended normally, the ray of every pixel with
a non-zero depth was run to its end, and all it logged is in the final log. -/
theorem forPixels_ok_ray (p : Params F) (perRay : Nat → Nat → F → World → Run)
    (hmono : ∀ x y d w e, e ∈ w.log → e ∈ (perRay x y d w).world.log) (w0 : World)
    (hok : (forPixels p 1 perRay w0).status = Status.ok) (x y : Nat)
    (hx : (x : Int) < p.image_size.x) (hy : (y : Int) < p.image_size.y) (depth : F)
    (hread : readDepth p.depthmap ((x : Int) + (y : Int) * p.image_size.x) = some depth)
    (hne : depth ≠ ((0 : Int) : F)) :
    ∃ w, (perRay x y depth w).status = Status.ok
      ∧ ∀ e ∈ (perRay x y depth w).world.log, e ∈ (forPixels p 1 perRay w0).world.log := by
  unfold forPixels at hok ⊢
  simp only [] at hok ⊢
  have hxs : x ∈ (List.range ((p.image_size.x.toNat + 1 - 1) / 1)).map (fun i => 1 * i) := by
    simp only [List.mem_map, List.mem_range]
    exact ⟨x, by omega, by omega⟩
  have hys : y ∈ (List.range ((p.image_size.y.toNat + 1 - 1) / 1)).map (fun i => 1 * i) := by
    simp only [List.mem_map, List.mem_range]
    exact ⟨y, by omega, by omega⟩
  have hin := fun (y : Nat) => foldl_ok (fun r x => pixel p perRay y x r)
    (fun r a h => pixel_status p perRay y a r h)
    (fun r a e he => pixel_mono p perRay hmono y a r e he)
  obtain ⟨_, _, hrows⟩ := foldl_ok
    (fun r y => ((List.range ((p.image_size.x.toNat + 1 - 1) / 1)).map (fun i => 1 * i)).foldl
      (fun r x => pixel p perRay y x r) r)
    (fun r a h => (hin a _ r h).1)
    (fun r a e he => foldl_preserves _ (fun r' : Run => e ∈ r'.world.log)
      (fun r' x' h' => pixel_mono p perRay hmono a x' r' e h') _ r he)
    _ _ hok
  obtain ⟨r1, _, hok1, hsub1⟩ := hrows y hys
  obtain ⟨_, _, hcols⟩ := hin y _ r1 hok1
  obtain ⟨r2, hr2, hok2, hsub2⟩ := hcols x hxs
  have hpix : pixel p perRay y x r2 = perRay x y depth r2.world := by
    simp only [pixel, hr2, hread, hne, if_false]
  rw [hpix] at hok2 hsub2
  exact ⟨r2.world, hok2, fun e he => hsub1 e (hsub2 e he)⟩

end CompletedRuns

section Stored

/-- Under the counter invariant, with room for all keys, every produced key is
stored. -/
theorem CountInv_stored (buf : Buffer) (R : Nat) (w : World) (h : CountInv buf R w)
    (hlt : (hashKeys w.log).length < 2 ^ 32) (hR : (hashKeys w.log).length ≤ R) (k : Key)
    (hk : Event.hash k ∈ w.log) : ∃ idx, Event.store buf idx k ∈ w.log := by
  have hmem : k ∈ hashKeys w.log := by
    unfold hashKeys
    rw [List.mem_filterMap]
    exact ⟨Event.hash k, hk, rfl⟩
  obtain ⟨i, hi, hget⟩ := List.getElem_of_mem hmem
  have henum : (i, k) ∈ ((hashKeys w.log).take R).enum := by
    rw [List.take_of_length_le hR, List.mk_mem_enum_iff_getElem?, List.getElem?_eq_getElem hi,
      hget]
  have hs : Event.store buf i k ∈ storeEvents w.log := by
    rw [(h hlt).2, List.mem_map]
    exact ⟨(i, k), henum, rfl⟩
  unfold storeEvents at hs
  exact ⟨i, (List.mem_filter.1 hs).1⟩

end Stored

section Termination

variable (p : Params ℚ) (ray : Ray ℚ) (m : Int)

/-- Stepping an axis whose next crossing is at a distance `< D` uses up one of
its steps. -/
theorem axisSteps_step (D T δ : ℚ) (hδ : 0 < δ) (hT : T < D) :
    axisSteps D (T + δ) δ + 1 = axisSteps D T δ := by
  unfold axisSteps
  have h1 : (D - (T + δ)) / δ = (D - T) / δ - 1 := by
    field_simp
    ring
  have h2 : 0 < ⌈(D - T) / δ⌉ := Int.ceil_pos.2 (div_pos (by linarith) hδ)
  rw [h1, Int.ceil_sub_one]
  omega

/-- The stepping phase keeps the termination invariant and the room for
doublings; a step to a distance `< D` uses up one of the steps left. -/
theorem advance_WalkInv
    (hd : ray.direction.x ≠ 0 ∧ ray.direction.y ≠ 0 ∧ ray.direction.z ≠ 0)
    (s : RayState ℚ) (h : WalkInv ray s) :
    WalkInv ray (advance s) ∧ doublingsLeft m (advance s) = doublingsLeft m s
      ∧ ((advance s).travelled < ray.distance →
          stepsLeft ray.distance (advance s) + 1 = stepsLeft ray.distance s) := by
  obtain ⟨hpos, hdelta⟩ := h
  have hx : 0 < s.delta_T.x := by rw [hdelta]; exact delta_pos _ hpos _ hd.1
  have hy : 0 < s.delta_T.y := by rw [hdelta]; exact delta_pos _ hpos _ hd.2.1
  have hz : 0 < s.delta_T.z := by rw [hdelta]; exact delta_pos _ hpos _ hd.2.2
  have stepx : WalkInv ray (stepX s) ∧ doublingsLeft m (stepX s) = doublingsLeft m s
      ∧ ((stepX s).travelled < ray.distance →
          stepsLeft ray.distance (stepX s) + 1 = stepsLeft ray.distance s) := by
    refine ⟨⟨hpos, hdelta⟩, rfl, fun hlt => ?_⟩
    have := axisSteps_step ray.distance s.T_max.x s.delta_T.x hx hlt
    simp only [stepsLeft, stepX]
    omega
  have stepy : WalkInv ray (stepY s) ∧ doublingsLeft m (stepY s) = doublingsLeft m s
      ∧ ((stepY s).travelled < ray.distance →
          stepsLeft ray.distance (stepY s) + 1 = stepsLeft ray.distance s) := by
    refine ⟨⟨hpos, hdelta⟩, rfl, fun hlt => ?_⟩
    have := axisSteps_step ray.distance s.T_max.y s.delta_T.y hy hlt
    simp only [stepsLeft, stepY]
    omega
  have stepz : WalkInv ray (stepZ s) ∧ doublingsLeft m (stepZ s) = doublingsLeft m s
      ∧ ((stepZ s).travelled < ray.distance →
          stepsLeft ray.distance (stepZ s) + 1 = stepsLeft ray.distance s) := by
    refine ⟨⟨hpos, hdelta⟩, rfl, fun hlt => ?_⟩
    have := axisSteps_step ray.distance s.T_max.z s.delta_T.z hz hlt
    simp only [stepsLeft, stepZ]
    omega
  unfold advance
  split
  · split
    · exact stepx
    · exact stepz
  · split
    · exact stepy
    · exact stepz

/-- The doubling phase keeps the termination invariant; it either leaves the
state as it is or uses up room for doublings. -/
theorem doubleSize_WalkInv (s : RayState ℚ) (h : WalkInv ray s) :
    WalkInv ray (doubleSize p ray m s)
      ∧ (doubleSize p ray m s = s ∨ doublingsLeft m (doubleSize p ray m s) < doublingsLeft m s) := by
  unfold doubleSize
  by_cases hg : doublingGuard p s.travelled s.allocation_size s.allocation_size m = true
  · simp only [hg, if_true]
    have hlt : s.allocation_size < m := by
      unfold doublingGuard at hg
      simp only [Bool.and_eq_true, decide_eq_true_eq] at hg
      exact hg.2
    refine ⟨⟨?_, rfl⟩, Or.inr ?_⟩
    · show 0 < 2 * s.allocation_size
      have := h.1
      omega
    · show (m - 2 * s.allocation_size).toNat < (m - s.allocation_size).toNat
      have := h.1
      omega
  · simp only [hg]
    exact ⟨h, Or.inl rfl⟩

/-- Termination of the ray loop of `buildOctantList` in exact arithmetic: from
every state with a positive cell side, on a ray whose direction has no zero
component, the loop comes to its end once it has enough fuel. -/
theorem ray_terminates
    (hd : ray.direction.x ≠ 0 ∧ ray.direction.y ≠ 0 ∧ ray.direction.z ≠ 0) :
    ∀ (a b : Nat) (s : RayState ℚ), WalkInv ray s →
      doublingsLeft m (doubleSize p ray m s) = a →
      stepsLeft ray.distance (doubleSize p ray m s) = b →
      ∃ N, ∀ fuel, N ≤ fuel → ∀ w : World,
        (doWhile (rayBody p ray m) (rayCond ray) fuel s w).status = Status.ok := by
  intro a
  induction a using Nat.strong_induction_on with
  | _ a iha =>
    intro b
    induction b using Nat.strong_induction_on with
    | _ b ihb =>
      intro s hs ha hb
      obtain ⟨hdbl, _⟩ := doubleSize_WalkInv p ray m s hs
      obtain ⟨hadv, hleft, hsteps⟩ := advance_WalkInv ray m hd (doubleSize p ray m s) hdbl
      by_cases hc : rayCond ray (advance (doubleSize p ray m s)) = true
      · have hlt : (advance (doubleSize p ray m s)).travelled < ray.distance := by
          unfold rayCond at hc
          simp only [Int.cast_zero, decide_eq_true_eq] at hc
          linarith
        have hnext : ∃ N, ∀ fuel, N ≤ fuel → ∀ w : World,
            (doWhile (rayBody p ray m) (rayCond ray) fuel (advance (doubleSize p ray m s))
              w).status = Status.ok := by
          obtain ⟨_, hcase'⟩ :=
            doubleSize_WalkInv p ray m (advance (doubleSize p ray m s)) hadv
          rcases hcase' with heq' | hless'
          · refine ihb (stepsLeft ray.distance (advance (doubleSize p ray m s))) ?_ _ hadv ?_
              (by rw [heq'])
            · have := hsteps hlt
              omega
            · rw [heq', hleft]; exact ha
          · exact iha _ (by rw [← ha, ← hleft]; exact hless') _ _ hadv rfl rfl
        obtain ⟨N, hN⟩ := hnext
        refine ⟨N + 1, ?_⟩
        intro fuel hf w
        obtain ⟨f, rfl⟩ : ∃ f, fuel = f + 1 := ⟨fuel - 1, by omega⟩
        rw [doWhile_ray_succ, if_pos hc]
        exact hN f (by omega) _
      · refine ⟨1, ?_⟩
        intro fuel hf w
        obtain ⟨f, rfl⟩ : ∃ f, fuel = f + 1 := ⟨fuel - 1, by omega⟩
        rw [doWhile_ray_succ, if_neg hc]

end Termination

section RunTermination

/-- A bound that exists for each of finitely many indices can be chosen
uniformly when the property is monotone in the bound. -/
theorem exists_uniform_bound (P : Nat → Nat → Prop)
    (hmono : ∀ i n n', n ≤ n' → P i n → P i n') :
    ∀ k : Nat, (∀ i < k, ∃ n, P i n) → ∃ N, ∀ i < k, P i N := by
  intro k
  induction k with
  | zero => intro _; exact ⟨0, fun i hi => absurd hi (Nat.not_lt_zero i)⟩
  | succ k ih =>
    intro h
    obtain ⟨N1, hN1⟩ := ih (fun i hi => h i (by omega))
    obtain ⟨N2, hN2⟩ := h k (by omega)
    refine ⟨max N1 N2, fun i hi => ?_⟩
    rcases Nat.lt_succ_iff_lt_or_eq.1 hi with hlt | heq
    · exact hmono i N1 _ (le_max_left _ _) (hN1 i hlt)
    · rw [heq]; exact hmono k N2 _ (le_max_right _ _) hN2

variable {F : Type} [IntCast F] [DecidableEq F]

/-- Termination of the pixel loops: on a well-sized image, when the ray of
every measured pixel comes to its end with enough fuel, so does the whole
run. -/
theorem forPixels_terminates (p : Params F) (perRay : Nat → Nat → Nat → F → World → Run)
    (hW : 0 ≤ p.image_size.x) (hH : 0 ≤ p.image_size.y)
    (hlen : (p.depthmap.length : Int) = p.image_size.x * p.image_size.y)
    (hterm : ∀ (x y : Nat) (depth : F), (x : Int) < p.image_size.x → (y : Int) < p.image_size.y →
      readDepth p.depthmap ((x : Int) + (y : Int) * p.image_size.x) = some depth →
      depth ≠ ((0 : Int) : F) →
      ∃ N, ∀ fuel, N ≤ fuel → ∀ w : World, (perRay fuel x y depth w).status = Status.ok) :
    ∃ N, ∀ fuel, N ≤ fuel → ∀ w : World,
      (forPixels p 1 (perRay fuel) w).status = Status.ok := by
  have hread : ∀ x y : Nat, (x : Int) < p.image_size.x → (y : Int) < p.image_size.y →
      ∃ u, readDepth p.depthmap ((x : Int) + (y : Int) * p.image_size.x) = some u := by
    intro x y hx hy
    have h0 : (0 : Int) ≤ (x : Int) + (y : Int) * p.image_size.x := by positivity
    have h1 : (x : Int) + (y : Int) * p.image_size.x < p.depthmap.length := by
      rw [hlen]; nlinarith
    obtain ⟨u, hu, _⟩ := readDepth_some p.depthmap _ h0 h1
    exact ⟨u, hu⟩
  have huni : ∃ N, ∀ y < p.image_size.y.toNat, ∀ x < p.image_size.x.toNat, ∀ depth : F,
      readDepth p.depthmap ((x : Int) + (y : Int) * p.image_size.x) = some depth →
      depth ≠ ((0 : Int) : F) →
      ∀ fuel, N ≤ fuel → ∀ w : World, (perRay fuel x y depth w).status = Status.ok := by
    refine exists_uniform_bound
      (fun y N => ∀ x < p.image_size.x.toNat, ∀ depth : F,
        readDepth p.depthmap ((x : Int) + (y : Int) * p.image_size.x) = some depth →
        depth ≠ ((0 : Int) : F) →
        ∀ fuel, N ≤ fuel → ∀ w : World, (perRay fuel x y depth w).status = Status.ok)
      (fun y n n' hn h x hx depth hr hd fuel hf w => h x hx depth hr hd fuel (le_trans hn hf) w)
      _ ?_
    intro y hy
    refine exists_uniform_bound
      (fun x N => ∀ depth : F,
        readDepth p.depthmap ((x : Int) + (y : Int) * p.image_size.x) = some depth →
        depth ≠ ((0 : Int) : F) →
        ∀ fuel, N ≤ fuel → ∀ w : World, (perRay fuel x y depth w).status = Status.ok)
      (fun x n n' hn h depth hr hd fuel hf w => h depth hr hd fuel (le_trans hn hf) w)
      _ ?_
    intro x hx
    obtain ⟨u, hu⟩ := hread x y (by omega) (by omega)
    by_cases hu0 : u = ((0 : Int) : F)
    · refine ⟨0, fun depth hr hd => ?_⟩
      rw [hu] at hr
      injection hr with hr
      exact absurd (hr ▸ hu0) hd
    · obtain ⟨N, hN⟩ := hterm x y u (by omega) (by omega) hu hu0
      refine ⟨N, fun depth hr hd fuel hf w => ?_⟩
      rw [hu] at hr
      injection hr with hr
      subst hr
      exact hN fuel hf w
  obtain ⟨N, hN⟩ := huni
  refine ⟨N, fun fuel hf w => ?_⟩
  unfold forPixels
  refine foldl_preserves_mem _ (fun r : Run => r.status = Status.ok) _ ?_ _ rfl
  intro y hy r hr
  refine foldl_preserves_mem _ (fun r : Run => r.status = Status.ok) _ ?_ _ hr
  intro x hx r hr
  simp only [List.mem_map, List.mem_range] at hx hy
  obtain ⟨i, hi, hxi⟩ := hx
  obtain ⟨j, hj, hyj⟩ := hy
  obtain ⟨u, hu⟩ := hread x y (by omega) (by omega)
  simp only [pixel, hr, hu]
  split
  · exact hr
  · rename_i hu0
    exact hN y (by omega) x (by omega) u hu hu0 fuel hf _

end RunTermination

section ExactTrack

/-- At the distance `T` of an axis invariant the ray point lies on a face. -/
theorem axis_onFace (B : Int) (p0 d : ℚ) (c : Int) (T τ : ℚ) (h : AxisInv B p0 d c T τ) :
    OnFace B (p0 + T * d) := by
  obtain ⟨⟨k, hk⟩, _, _, hT⟩ := h
  rw [hT]
  split
  · exact ⟨k, by rw [hk]; push_cast; ring⟩
  · exact ⟨k + 1, by rw [hk]; push_cast; ring⟩

/-- An axis that is behind has its next crossing before `t` (walked downwards)
or at most at `t` (walked upwards). -/
theorem axisAhead_pending (t d T δ : ℚ) (hδ : 0 < δ) (h : 0 < axisAhead t d T δ) :
    if d < 0 then T < t else T ≤ t := by
  unfold axisAhead at h
  split
  · rename_i hd
    rw [if_pos hd] at h
    unfold axisSteps at h
    have h1 : 0 < ⌈(t - T) / δ⌉ := by omega
    have h2 := Int.ceil_pos.1 h1
    have h3 : 0 < t - T := by
      by_contra hc
      have : (t - T) / δ ≤ 0 := div_nonpos_of_nonpos_of_nonneg (not_lt.1 hc) (le_of_lt hδ)
      linarith
    linarith
  · rename_i hd
    rw [if_neg hd] at h
    unfold axisCount at h
    have h1 : 0 ≤ ⌊(t - T) / δ⌋ := by omega
    have h2 := Int.floor_nonneg.1 h1
    have h3 : 0 ≤ t - T := by
      by_contra hc
      have : (t - T) / δ < 0 := div_neg_of_neg_of_pos (not_le.1 hc) hδ
      linarith
    linarith

/-- Stepping a pending axis brings it one cell closer. -/
theorem axisAhead_step (t d T δ : ℚ) (hδ : 0 < δ) (h : if d < 0 then T < t else T ≤ t) :
    axisAhead t d (T + δ) δ + 1 = axisAhead t d T δ := by
  unfold axisAhead
  split
  · rename_i hd
    rw [if_pos hd] at h
    exact axisSteps_step t T δ hδ h
  · rename_i hd
    rw [if_neg hd] at h
    exact axisCount_step t T δ hδ h

/-- The axis with the least `T_max` is pending when another axis is, unless it
is walked downwards and crosses at `t` together with an axis walked
upwards. -/
theorem pending_of_le (da db Ta Tb t : ℚ) (hdb : db ≠ 0) (hle : Ta ≤ Tb)
    (hb : if db < 0 then Tb < t else Tb ≤ t)
    (hno : ¬ (da < 0 ∧ Ta = t ∧ 0 < db ∧ Tb = t)) :
    if da < 0 then Ta < t else Ta ≤ t := by
  have hbt : Tb ≤ t := by
    split at hb
    · exact le_of_lt hb
    · exact hb
  split
  · rename_i hda
    by_contra hc
    have hTa : Ta = t := le_antisymm (le_trans hle hbt) (not_lt.1 hc)
    have hTb : Tb = t := le_antisymm hbt (by rw [← hTa]; exact hle)
    have hdbpos : 0 < db := by
      rcases lt_or_gt_of_ne hdb with h | h
      · rw [if_pos h] at hb
        linarith
      · exact h
    exact hno ⟨hda, hTa, hdbpos, hTb⟩
  · exact le_trans hle hbt

/-- The cell coordinate of the ray point at distance `t`, from an axis that is
not past it: the coordinate of the state moved by the cells the axis is
behind. -/
theorem axis_target (B : Int) (hB : 0 < B) (p0 d : ℚ) (hd : d ≠ 0) (c : Int) (T τ t : ℚ)
    (h : AxisInv B p0 d c T τ) (h1 : τ ≤ t) (hs : AxisBehind t d T ((B : ℚ) / |d|)) :
    B * ⌊(p0 + t * d) / (B : ℚ)⌋
      = c + B * (if d < 0 then -1 else 1) * (axisAhead t d T ((B : ℚ) / |d|) : Int) := by
  obtain ⟨⟨k, hk⟩, _, hlow, hT⟩ := h
  have hBq : (0 : ℚ) < (B : ℚ) := by exact_mod_cast hB
  have hBne : (B : ℚ) ≠ 0 := ne_of_gt hBq
  have hck : (c : ℚ) = (B : ℚ) * (k : ℚ) := by rw [hk]; push_cast; rfl
  unfold axisAhead
  rcases lt_or_gt_of_ne hd with hneg | hpos
  · rw [if_pos hneg] at hT
    rw [if_pos hneg, if_pos hneg]
    have habs : |d| = -d := abs_of_neg hneg
    have hnd : (0 : ℚ) < -d := by linarith
    have hδ : 0 < (B : ℚ) / -d := div_pos hBq hnd
    have hstrict := hs.1 hneg
    rw [habs] at hstrict ⊢
    have hq : (p0 + t * d) / (B : ℚ) = (k : ℚ) + -((t - T) / ((B : ℚ) / -d)) := by
      have : p0 = (B : ℚ) * k - T * d := by linarith
      rw [this]
      field_simp
      ring
    have hx : -1 < (t - T) / ((B : ℚ) / -d) := by
      rw [lt_div_iff₀ hδ]
      linarith
    have hceil : 0 ≤ ⌈(t - T) / ((B : ℚ) / -d)⌉ := by
      have h2 : (t - T) / ((B : ℚ) / -d) ≤ (⌈(t - T) / ((B : ℚ) / -d)⌉ : ℚ) := Int.le_ceil _
      have h3 : (-1 : ℚ) < (⌈(t - T) / ((B : ℚ) / -d)⌉ : ℚ) := lt_of_lt_of_le hx h2
      have h4 : (-1 : Int) < ⌈(t - T) / ((B : ℚ) / -d)⌉ := by exact_mod_cast h3
      omega
    rw [hq, Int.floor_int_add, Int.floor_neg]
    unfold axisSteps
    rw [Int.toNat_of_nonneg hceil, hk]
    ring
  · have hn : ¬ d < 0 := not_lt.2 (le_of_lt hpos)
    rw [if_neg hn] at hT
    rw [if_neg hn, if_neg hn]
    have habs : |d| = d := abs_of_pos hpos
    have hδ : 0 < (B : ℚ) / d := div_pos hBq hpos
    rw [habs] at hlow ⊢
    have hq : (p0 + t * d) / (B : ℚ) = ((k + 1 : Int) : ℚ) + (t - T) / ((B : ℚ) / d) := by
      have : p0 = (B : ℚ) * k + B - T * d := by linarith
      rw [this]
      push_cast
      field_simp
      ring
    have hx : -1 ≤ (t - T) / ((B : ℚ) / d) := by
      rw [le_div_iff₀ hδ]
      linarith
    have hfloor : -1 ≤ ⌊(t - T) / ((B : ℚ) / d)⌋ := by
      rw [Int.le_floor]
      exact_mod_cast hx
    rw [hq, Int.floor_int_add]
    unfold axisCount
    rw [Int.toNat_of_nonneg (by omega), hk]
    ring

end ExactTrack

section ExactTrackAxis

/-- The initial axis state is not past any distance `t ≥ 0`. -/
theorem axis_init_behind (B : Int) (hB : 0 < B) (p0 d : ℚ) (hp0 : 0 ≤ p0) (hd : d ≠ 0) (t : ℚ)
    (ht : 0 ≤ t) :
    AxisBehind t d
      (tInit d ((p0 - ((B * FloatOps.toInt (FloatOps.floor p0 / (B : ℚ)) : Int) : ℚ)) / (B : ℚ))
        ((B : ℚ) / FloatOps.abs d))
      ((B : ℚ) / FloatOps.abs d) := by
  rw [quantise_nonneg B hB p0 hp0, abs_rat]
  have hBq : (0 : ℚ) < (B : ℚ) := by exact_mod_cast hB
  have habs : 0 < |d| := abs_pos.2 hd
  have hδ : 0 < (B : ℚ) / |d| := div_pos hBq habs
  have h1 : ((⌊p0 / (B : ℚ)⌋ : Int) : ℚ) ≤ p0 / B := Int.floor_le _
  have h2 : p0 / B < ((⌊p0 / (B : ℚ)⌋ : Int) : ℚ) + 1 := Int.lt_floor_add_one _
  rw [le_div_iff₀ hBq] at h1
  rw [div_lt_iff₀ hBq] at h2
  have hfrac : (p0 - ((B * ⌊p0 / (B : ℚ)⌋ : Int) : ℚ)) / (B : ℚ) < 1 := by
    rw [div_lt_one hBq]
    push_cast
    linarith
  unfold tInit
  simp only [Int.cast_zero, Int.cast_one]
  constructor
  · intro hneg
    rw [if_pos hneg]
    have : (p0 - ((B * ⌊p0 / (B : ℚ)⌋ : Int) : ℚ)) / (B : ℚ) * ((B : ℚ) / |d|)
        < 1 * ((B : ℚ) / |d|) := mul_lt_mul_of_pos_right hfrac hδ
    linarith
  · intro hpos
    rw [if_neg (not_lt.2 (le_of_lt hpos))]
    exact mul_pos (by linarith) hδ

end ExactTrackAxis

section ExactTrackRay

variable (p : Params ℚ) (ray : Ray ℚ)

/-- The initial ray state of a ray with non-negative origin and a direction
without zero component satisfies the tracking invariant of every distance
`t ≥ 0`. -/
theorem initRay_TrackInv (hB : 0 < p.oct.blockSide)
    (hp0 : 0 ≤ (originV p ray).x ∧ 0 ≤ (originV p ray).y ∧ 0 ≤ (originV p ray).z)
    (hd : ray.direction.x ≠ 0 ∧ ray.direction.y ≠ 0 ∧ ray.direction.z ≠ 0)
    (t : ℚ) (ht : 0 ≤ t) : TrackInv p ray t (initRay p ray) := by
  obtain ⟨hinv, hzero⟩ := initRay_BandInv p ray hB hp0 hd
  refine ⟨hinv, by rw [hzero]; exact ht, ?_, ?_, ?_⟩
  · have h := axis_init_behind p.oct.blockSide hB _ ray.direction.x hp0.1 hd.1 t ht
    simpa [initRay, alignF, fracOf, deltaOf, tMaxInit] using h
  · have h := axis_init_behind p.oct.blockSide hB _ ray.direction.y hp0.2.1 hd.2.1 t ht
    simpa [initRay, alignF, fracOf, deltaOf, tMaxInit] using h
  · have h := axis_init_behind p.oct.blockSide hB _ ray.direction.z hp0.2.2 hd.2.2 t ht
    simpa [initRay, alignF, fracOf, deltaOf, tMaxInit] using h

/-- A stepped pending axis is still not past the ray point. -/
theorem AxisBehind_step (t d T δ : ℚ) (hδ : 0 < δ) (h : AxisBehind t d T δ)
    (hp : if d < 0 then T < t else T ≤ t) : AxisBehind t d (T + δ) δ := by
  constructor
  · intro hneg
    rw [if_pos hneg] at hp
    linarith
  · intro hpos
    have := h.2 hpos
    linarith

/-- A step along a pending `x` with the least `T_max`. -/
theorem stepX_TrackInv (hB : 0 < p.oct.blockSide)
    (hd : ray.direction.x ≠ 0 ∧ ray.direction.y ≠ 0 ∧ ray.direction.z ≠ 0)
    (t : ℚ) (s : RayState ℚ) (h : TrackInv p ray t s) (hy : s.T_max.x ≤ s.T_max.y)
    (hz : s.T_max.x ≤ s.T_max.z)
    (hp : if ray.direction.x < 0 then s.T_max.x < t else s.T_max.x ≤ t) :
    TrackInv p ray t (stepX s)
      ∧ ahead t ray.direction (stepX s) + 1 = ahead t ray.direction s := by
  obtain ⟨hb, _, hax, hay, haz⟩ := h
  have hδ : 0 < s.delta_T.x := by rw [hb.2.2.1]; exact delta_pos _ hB _ hd.1
  have hstep := stepX_BandInv p ray hB hd s hb hy hz t
  have hle : s.T_max.x ≤ t := by
    split at hp
    · exact le_of_lt hp
    · exact hp
  refine ⟨⟨hstep.1, hle, AxisBehind_step _ _ _ _ hδ hax hp, hay, haz⟩, ?_⟩
  have := axisAhead_step t ray.direction.x s.T_max.x s.delta_T.x hδ hp
  simp only [ahead, stepX]
  omega

/-- A step along a pending `y` with the least `T_max`. -/
theorem stepY_TrackInv (hB : 0 < p.oct.blockSide)
    (hd : ray.direction.x ≠ 0 ∧ ray.direction.y ≠ 0 ∧ ray.direction.z ≠ 0)
    (t : ℚ) (s : RayState ℚ) (h : TrackInv p ray t s) (hx : s.T_max.y ≤ s.T_max.x)
    (hz : s.T_max.y ≤ s.T_max.z)
    (hp : if ray.direction.y < 0 then s.T_max.y < t else s.T_max.y ≤ t) :
    TrackInv p ray t (stepY s)
      ∧ ahead t ray.direction (stepY s) + 1 = ahead t ray.direction s := by
  obtain ⟨hb, _, hax, hay, haz⟩ := h
  have hδ : 0 < s.delta_T.y := by rw [hb.2.2.1]; exact delta_pos _ hB _ hd.2.1
  have hstep := stepY_BandInv p ray hB hd s hb hx hz t
  have hle : s.T_max.y ≤ t := by
    split at hp
    · exact le_of_lt hp
    · exact hp
  refine ⟨⟨hstep.1, hle, hax, AxisBehind_step _ _ _ _ hδ hay hp, haz⟩, ?_⟩
  have := axisAhead_step t ray.direction.y s.T_max.y s.delta_T.y hδ hp
  simp only [ahead, stepY]
  omega

/-- A step along a pending `z` with the least `T_max`. -/
theorem stepZ_TrackInv (hB : 0 < p.oct.blockSide)
    (hd : ray.direction.x ≠ 0 ∧ ray.direction.y ≠ 0 ∧ ray.direction.z ≠ 0)
    (t : ℚ) (s : RayState ℚ) (h : TrackInv p ray t s) (hx : s.T_max.z ≤ s.T_max.x)
    (hy : s.T_max.z ≤ s.T_max.y)
    (hp : if ray.direction.z < 0 then s.T_max.z < t else s.T_max.z ≤ t) :
    TrackInv p ray t (stepZ s)
      ∧ ahead t ray.direction (stepZ s) + 1 = ahead t ray.direction s := by
  obtain ⟨hb, _, hax, hay, haz⟩ := h
  have hδ : 0 < s.delta_T.z := by rw [hb.2.2.1]; exact delta_pos _ hB _ hd.2.2
  have hstep := stepZ_BandInv p ray hB hd s hb hx hy t
  have hle : s.T_max.z ≤ t := by
    split at hp
    · exact le_of_lt hp
    · exact hp
  refine ⟨⟨hstep.1, hle, hax, hay, AxisBehind_step _ _ _ _ hδ haz hp⟩, ?_⟩
  have := axisAhead_step t ray.direction.z s.T_max.z s.delta_T.z hδ hp
  simp only [ahead, stepZ]
  omega

/-- The stepping phase on a state that is behind the cell of the ray point at
distance `t`, which is not a lost tie: the stepped axis is pending, the
invariant is kept and the state is one step closer. -/
theorem advance_TrackInv (hB : 0 < p.oct.blockSide)
    (hd : ray.direction.x ≠ 0 ∧ ray.direction.y ≠ 0 ∧ ray.direction.z ≠ 0)
    (t : ℚ) (hno : ¬ LostTie p.oct.blockSide ray.direction (posAt p ray t) t)
    (s : RayState ℚ) (h : TrackInv p ray t s) (hpos : 0 < ahead t ray.direction s) :
    TrackInv p ray t (advance s)
      ∧ ahead t ray.direction (advance s) + 1 = ahead t ray.direction s := by
  have hb := h.1
  have hδx : 0 < s.delta_T.x := by rw [hb.2.2.1]; exact delta_pos _ hB _ hd.1
  have hδy : 0 < s.delta_T.y := by rw [hb.2.2.1]; exact delta_pos _ hB _ hd.2.1
  have hδz : 0 < s.delta_T.z := by rw [hb.2.2.1]; exact delta_pos _ hB _ hd.2.2
  have hfx : ∀ T, T = t → s.T_max.x = T → OnFace p.oct.blockSide (posAt p ray t).x := by
    intro T hT hTx
    have := axis_onFace _ _ _ _ _ _ hb.2.2.2.2.1
    rw [hTx, hT] at this
    simpa [posAt, originV] using this
  have hfy : ∀ T, T = t → s.T_max.y = T → OnFace p.oct.blockSide (posAt p ray t).y := by
    intro T hT hTy
    have := axis_onFace _ _ _ _ _ _ hb.2.2.2.2.2.1
    rw [hTy, hT] at this
    simpa [posAt, originV] using this
  have hfz : ∀ T, T = t → s.T_max.z = T → OnFace p.oct.blockSide (posAt p ray t).z := by
    intro T hT hTz
    have := axis_onFace _ _ _ _ _ _ hb.2.2.2.2.2.2
    rw [hTz, hT] at this
    simpa [posAt, originV] using this
  have hzy : ¬ (ray.direction.z < 0 ∧ s.T_max.z = t ∧ 0 < ray.direction.y ∧ s.T_max.y = t) := by
    rintro ⟨h1, h2, h3, h4⟩
    exact hno ⟨by have := h.2.2.2.1.2 h3; linarith,
      Or.inl ⟨h1, hfz t rfl h2, h3, hfy t rfl h4⟩⟩
  have hzx : ¬ (ray.direction.z < 0 ∧ s.T_max.z = t ∧ 0 < ray.direction.x ∧ s.T_max.x = t) := by
    rintro ⟨h1, h2, h3, h4⟩
    exact hno ⟨by have := h.2.2.1.2 h3; linarith,
      Or.inr (Or.inl ⟨h1, hfz t rfl h2, h3, hfx t rfl h4⟩)⟩
  have hyx : ¬ (ray.direction.y < 0 ∧ s.T_max.y = t ∧ 0 < ray.direction.x ∧ s.T_max.x = t) := by
    rintro ⟨h1, h2, h3, h4⟩
    exact hno ⟨by have := h.2.2.1.2 h3; linarith,
      Or.inr (Or.inr ⟨h1, hfy t rfl h2, h3, hfx t rfl h4⟩)⟩
  have hsome : 0 < axisAhead t ray.direction.x s.T_max.x s.delta_T.x
      ∨ 0 < axisAhead t ray.direction.y s.T_max.y s.delta_T.y
      ∨ 0 < axisAhead t ray.direction.z s.T_max.z s.delta_T.z := by
    unfold ahead at hpos
    omega
  have px := axisAhead_pending t ray.direction.x s.T_max.x s.delta_T.x hδx
  have py := axisAhead_pending t ray.direction.y s.T_max.y s.delta_T.y hδy
  have pz := axisAhead_pending t ray.direction.z s.T_max.z s.delta_T.z hδz
  unfold advance
  by_cases hxy : s.T_max.x < s.T_max.y
  · by_cases hxz : s.T_max.x < s.T_max.z
    · simp only [hxy, hxz, if_true]
      refine stepX_TrackInv p ray hB hd t s h (le_of_lt hxy) (le_of_lt hxz) ?_
      rcases hsome with h1 | h1 | h1
      · exact px h1
      · exact pending_of_le _ _ _ _ t hd.2.1 (le_of_lt hxy) (py h1)
          (fun hc => by linarith [hc.2.1, hc.2.2.2])
      · exact pending_of_le _ _ _ _ t hd.2.2 (le_of_lt hxz) (pz h1)
          (fun hc => by linarith [hc.2.1, hc.2.2.2])
    · simp only [hxy, hxz, if_true, if_false]
      have hzx' : s.T_max.z ≤ s.T_max.x := not_lt.1 hxz
      refine stepZ_TrackInv p ray hB hd t s h hzx' (le_trans hzx' (le_of_lt hxy)) ?_
      rcases hsome with h1 | h1 | h1
      · exact pending_of_le _ _ _ _ t hd.1 hzx' (px h1) hzx
      · exact pending_of_le _ _ _ _ t hd.2.1 (le_trans hzx' (le_of_lt hxy)) (py h1)
          (fun hc => by linarith [hc.2.1, hc.2.2.2])
      · exact pz h1
  · by_cases hyz : s.T_max.y < s.T_max.z
    · simp only [hxy, hyz, if_true, if_false]
      refine stepY_TrackInv p ray hB hd t s h (not_lt.1 hxy) (le_of_lt hyz) ?_
      rcases hsome with h1 | h1 | h1
      · exact pending_of_le _ _ _ _ t hd.1 (not_lt.1 hxy) (px h1) hyx
      · exact py h1
      · exact pending_of_le _ _ _ _ t hd.2.2 (le_of_lt hyz) (pz h1)
          (fun hc => by linarith [hc.2.1, hc.2.2.2])
    · simp only [hxy, hyz, if_false]
      have hzy' : s.T_max.z ≤ s.T_max.y := not_lt.1 hyz
      refine stepZ_TrackInv p ray hB hd t s h (le_trans hzy' (not_lt.1 hxy)) hzy' ?_
      rcases hsome with h1 | h1 | h1
      · exact pending_of_le _ _ _ _ t hd.1 (le_trans hzy' (not_lt.1 hxy)) (px h1) hzx
      · exact pending_of_le _ _ _ _ t hd.2.1 hzy' (py h1) hzy
      · exact pz h1

/-- A state that is no step behind sits in the cell of the ray point at
distance `t`. -/
theorem TrackInv_cell (hB : 0 < p.oct.blockSide)
    (hd : ray.direction.x ≠ 0 ∧ ray.direction.y ≠ 0 ∧ ray.direction.z ≠ 0)
    (t : ℚ) (s : RayState ℚ) (h : TrackInv p ray t s) (h0 : ahead t ray.direction s = 0) :
    s.curr_node = cellOf p.oct.blockSide (posAt p ray t) := by
  obtain ⟨⟨_, _, h3, _, hx, hy, hz⟩, h1, hax, hay, haz⟩ := h
  have e3x : s.delta_T.x = (p.oct.blockSide : ℚ) / |ray.direction.x| := by rw [h3]; rfl
  have e3y : s.delta_T.y = (p.oct.blockSide : ℚ) / |ray.direction.y| := by rw [h3]; rfl
  have e3z : s.delta_T.z = (p.oct.blockSide : ℚ) / |ray.direction.z| := by rw [h3]; rfl
  unfold ahead at h0
  rw [e3x, e3y, e3z] at h0
  rw [e3x] at hax
  rw [e3y] at hay
  rw [e3z] at haz
  have ex := axis_target _ hB _ _ hd.1 _ _ _ t hx h1 hax
  have ey := axis_target _ hB _ _ hd.2.1 _ _ _ t hy h1 hay
  have ez := axis_target _ hB _ _ hd.2.2 _ _ _ t hz h1 haz
  have zx : axisAhead t ray.direction.x s.T_max.x ((p.oct.blockSide : ℚ) / |ray.direction.x|)
      = 0 := by omega
  have zy : axisAhead t ray.direction.y s.T_max.y ((p.oct.blockSide : ℚ) / |ray.direction.y|)
      = 0 := by omega
  have zz : axisAhead t ray.direction.z s.T_max.z ((p.oct.blockSide : ℚ) / |ray.direction.z|)
      = 0 := by omega
  rw [zx] at ex
  rw [zy] at ey
  rw [zz] at ez
  cases hc : s.curr_node with
  | mk cx cy cz =>
    rw [hc] at ex ey ez
    simp only [cellOf, posAt, originV] at ex ey ez ⊢
    simp only [Nat.cast_zero, mul_zero, add_zero] at ex ey ez
    rw [ex, ey, ez]

end ExactTrackRay

section ExactTracking

variable (p : Params ℚ) (ray : Ray ℚ) (m : Int)

/-- One iteration of the ray loop on a state that tracks the ray point at
distance `t`: a state that is no step behind visits the cell of the ray point;
any other state goes on, one step closer. -/
theorem track_iteration (hB : 0 < p.oct.blockSide)
    (hd : ray.direction.x ≠ 0 ∧ ray.direction.y ≠ 0 ∧ ray.direction.z ≠ 0)
    (t : ℚ) (htD : t < ray.distance) (hband : t < p.band / p.voxel_dim)
    (hno : ¬ LostTie p.oct.blockSide ray.direction (posAt p ray t) t)
    (hin : inBox p.oct.size (cellOf p.oct.blockSide (posAt p ray t)).x
      (cellOf p.oct.blockSide (posAt p ray t)).y (cellOf p.oct.blockSide (posAt p ray t)).z)
    (f : Nat) (s : RayState ℚ) (w : World) (h : TrackInv p ray t s) :
    (ahead t ray.direction s = 0
        ∧ Visited p.oct (cellOf p.oct.blockSide (posAt p ray t))
            (doWhile (rayBody p ray m) (rayCond ray) (f + 1) s w).world.log)
    ∨ (TrackInv p ray t (advance s)
        ∧ ahead t ray.direction (advance s) + 1 = ahead t ray.direction s
        ∧ doWhile (rayBody p ray m) (rayCond ray) (f + 1) s w
            = doWhile (rayBody p ray m) (rayCond ray) f (advance s) (visitCell p s w)) := by
  have hdbl := doubleSize_band p ray m s t h.2.1 hband
  rw [doWhile_ray_succ, hdbl]
  by_cases hcase : ahead t ray.direction s = 0
  · left
    refine ⟨hcase, ?_⟩
    have hcell := TrackInv_cell p ray hB hd t s h hcase
    have hv : Visited p.oct (cellOf p.oct.blockSide (posAt p ray t)) (visitCell p s w).log := by
      rw [← hcell]
      exact visitCell_Visited p s w h.1.2.1 (by rw [hcell]; exact hin)
    split
    · exact Visited_mono _ _ _ _ hv (fun e he => doWhile_ray_mono p ray m f _ _ e he)
    · exact hv
  · right
    obtain ⟨hinv, hdec⟩ := advance_TrackInv p ray hB hd t hno s h (by omega)
    refine ⟨hinv, hdec, ?_⟩
    have hc : rayCond ray (advance s) = true := by
      unfold rayCond
      simp only [Int.cast_zero, decide_eq_true_eq]
      have := hinv.2.1
      linarith
    rw [if_pos hc]

/-- Enough fuel: from a state that tracks the ray point at distance `t`, a loop
with more fuel than steps to go visits the cell of the ray point. -/
theorem track_reach (hB : 0 < p.oct.blockSide)
    (hd : ray.direction.x ≠ 0 ∧ ray.direction.y ≠ 0 ∧ ray.direction.z ≠ 0)
    (t : ℚ) (htD : t < ray.distance) (hband : t < p.band / p.voxel_dim)
    (hno : ¬ LostTie p.oct.blockSide ray.direction (posAt p ray t) t)
    (hin : inBox p.oct.size (cellOf p.oct.blockSide (posAt p ray t)).x
      (cellOf p.oct.blockSide (posAt p ray t)).y (cellOf p.oct.blockSide (posAt p ray t)).z) :
    ∀ (n : Nat) (s : RayState ℚ) (w : World), TrackInv p ray t s →
      ahead t ray.direction s ≤ n → ∀ fuel, n < fuel →
      Visited p.oct (cellOf p.oct.blockSide (posAt p ray t))
        (doWhile (rayBody p ray m) (rayCond ray) fuel s w).world.log := by
  intro n
  induction n with
  | zero =>
    intro s w h hc fuel hf
    obtain ⟨f, rfl⟩ : ∃ f, fuel = f + 1 := ⟨fuel - 1, by omega⟩
    rcases track_iteration p ray m hB hd t htD hband hno hin f s w h with hv | ⟨_, hcr, _⟩
    · exact hv.2
    · omega
  | succ n ih =>
    intro s w h hc fuel hf
    obtain ⟨f, rfl⟩ : ∃ f, fuel = f + 1 := ⟨fuel - 1, by omega⟩
    rcases track_iteration p ray m hB hd t htD hband hno hin f s w h with
      hv | ⟨hinv, hcr, heq⟩
    · exact hv.2
    · rw [heq]
      exact ih _ _ hinv (by omega) f (by omega)

/-- Completed loops: a loop that came to its end from a state that tracks the
ray point at distance `t` has visited the cell of the ray point. -/
theorem track_complete (hB : 0 < p.oct.blockSide)
    (hd : ray.direction.x ≠ 0 ∧ ray.direction.y ≠ 0 ∧ ray.direction.z ≠ 0)
    (t : ℚ) (htD : t < ray.distance) (hband : t < p.band / p.voxel_dim)
    (hno : ¬ LostTie p.oct.blockSide ray.direction (posAt p ray t) t)
    (hin : inBox p.oct.size (cellOf p.oct.blockSide (posAt p ray t)).x
      (cellOf p.oct.blockSide (posAt p ray t)).y (cellOf p.oct.blockSide (posAt p ray t)).z) :
    ∀ (fuel : Nat) (s : RayState ℚ) (w : World), TrackInv p ray t s →
      (doWhile (rayBody p ray m) (rayCond ray) fuel s w).status = Status.ok →
      Visited p.oct (cellOf p.oct.blockSide (posAt p ray t))
        (doWhile (rayBody p ray m) (rayCond ray) fuel s w).world.log := by
  intro fuel
  induction fuel with
  | zero => intro s w _ hst; simp [doWhile] at hst
  | succ f ih =>
    intro s w h hst
    rcases track_iteration p ray m hB hd t htD hband hno hin f s w h with
      hv | ⟨hinv, _, heq⟩
    · exact hv.2
    · rw [heq] at hst ⊢
      exact ih _ _ hinv hst

end ExactTracking

section LostTies

/-- The distance to the next crossing of an axis from a distance `t` at which
the ray point lies on a face of that axis is a whole number of crossing
intervals. -/
theorem axis_lattice (B : Int) (hB : 0 < B) (p0 d : ℚ) (hd : d ≠ 0) (c : Int) (T τ t : ℚ)
    (h : AxisInv B p0 d c T τ) (hf : OnFace B (p0 + t * d)) :
    ∃ n : Int, t - T = (n : ℚ) * ((B : ℚ) / |d|) := by
  obtain ⟨⟨k, hk⟩, _, _, hT⟩ := h
  obtain ⟨n, hn⟩ := hf
  have hBq : (0 : ℚ) < (B : ℚ) := by exact_mod_cast hB
  have hck : (c : ℚ) = (B : ℚ) * (k : ℚ) := by rw [hk]; push_cast; rfl
  rcases lt_or_gt_of_ne hd with hneg | hpos
  · rw [if_pos hneg] at hT
    refine ⟨k - n, ?_⟩
    rw [abs_of_neg hneg]
    have hnd : -d ≠ 0 := neg_ne_zero.2 hd
    have e : (t - T) * d = ((n : ℚ) - k) * B := by linarith
    push_cast
    field_simp
    linarith
  · rw [if_neg (not_lt.2 (le_of_lt hpos))] at hT
    refine ⟨n - k - 1, ?_⟩
    rw [abs_of_pos hpos]
    have e : (t - T) * d = ((n : ℚ) - k - 1) * B := by linarith
    push_cast
    field_simp
    linarith

/-- A crossing before `t` on the lattice of `t` is followed by a crossing at
most at `t`. -/
theorem lattice_next (t T δ : ℚ) (hδ : 0 < δ) (n : Int) (h : t - T = (n : ℚ) * δ) (hlt : T < t) :
    T + δ ≤ t := by
  have h1 : (0 : ℚ) < (n : ℚ) * δ := by linarith
  have h2 : (0 : ℚ) < (n : ℚ) := by
    by_contra hc
    have : (n : ℚ) * δ ≤ 0 := mul_nonpos_of_nonpos_of_nonneg (not_lt.1 hc) (le_of_lt hδ)
    linarith
  have h3 : (1 : Int) ≤ n := by
    have : (0 : Int) < n := by exact_mod_cast h2
    omega
  have h4 : (1 : ℚ) ≤ (n : ℚ) := by exact_mod_cast h3
  nlinarith

/-- An axis walked upwards from a distance before `t`, with the ray point at
`t` on a face: the next crossing is at most at `t`. -/
theorem axis_face_pending (B : Int) (hB : 0 < B) (p0 d : ℚ) (hd : 0 < d) (c : Int) (T τ t : ℚ)
    (h : AxisInv B p0 d c T τ) (hf : OnFace B (p0 + t * d)) (hτ : τ < t) : T ≤ t := by
  obtain ⟨n, hn⟩ := axis_lattice B hB p0 d (ne_of_gt hd) c T τ t h hf
  have hBq : (0 : ℚ) < (B : ℚ) := by exact_mod_cast hB
  have hδ : 0 < (B : ℚ) / |d| := div_pos hBq (abs_pos.2 (ne_of_gt hd))
  have hlow := h.2.2.1
  have h1 : -((B : ℚ) / |d|) < (n : ℚ) * ((B : ℚ) / |d|) := by linarith
  have h2 : (-1 : ℚ) < (n : ℚ) := by
    by_contra hc
    have : (n : ℚ) * ((B : ℚ) / |d|) ≤ (-1) * ((B : ℚ) / |d|) :=
      mul_le_mul_of_nonneg_right (not_lt.1 hc) (le_of_lt hδ)
    linarith
  have h3 : (0 : Int) ≤ n := by
    have : (-1 : Int) < n := by exact_mod_cast h2
    omega
  have h4 : (0 : ℚ) ≤ (n : ℚ) := by exact_mod_cast h3
  have h5 : 0 ≤ (n : ℚ) * ((B : ℚ) / |d|) := mul_nonneg h4 (le_of_lt hδ)
  linarith

/-- The cell coordinate of a point on a face is the coordinate of the
point. -/
theorem face_cell (B : Int) (hB : 0 < B) (q : ℚ) (hf : OnFace B q) :
    ((B * ⌊q / (B : ℚ)⌋ : Int) : ℚ) = q := by
  obtain ⟨n, hn⟩ := hf
  have hBq : (B : ℚ) ≠ 0 := by
    have : (0 : ℚ) < (B : ℚ) := by exact_mod_cast hB
    exact ne_of_gt this
  have : q / (B : ℚ) = (n : ℚ) := by rw [hn]; field_simp
  rw [this, Int.floor_intCast, hn]
  push_cast
  ring

/-- An axis walked downwards sits in the cell of a point on one of its faces
only when that face is its next crossing. -/
theorem down_cell_crossing (B : Int) (hB : 0 < B) (p0 d : ℚ) (hd : d < 0) (c : Int) (T τ t : ℚ)
    (h : AxisInv B p0 d c T τ) (hf : OnFace B (p0 + t * d))
    (hc : c = B * ⌊(p0 + t * d) / (B : ℚ)⌋) : T = t := by
  have hq := face_cell B hB _ hf
  rw [← hc] at hq
  have hT := h.2.2.2
  rw [if_pos hd] at hT
  have e : (T - t) * d = 0 := by linarith
  rcases mul_eq_zero.1 e with h1 | h1
  · linarith
  · linarith

/-- An axis walked upwards sits in the cell of a point on one of its faces only
after it has crossed that face. -/
theorem up_cell_crossed (B : Int) (hB : 0 < B) (p0 d : ℚ) (hd : 0 < d) (c : Int) (T τ t : ℚ)
    (h : AxisInv B p0 d c T τ) (hf : OnFace B (p0 + t * d))
    (hc : c = B * ⌊(p0 + t * d) / (B : ℚ)⌋) : t < T := by
  have hq := face_cell B hB _ hf
  rw [← hc] at hq
  have hT := h.2.2.2
  rw [if_neg (not_lt.2 (le_of_lt hd))] at hT
  have hBq : (0 : ℚ) < (B : ℚ) := by exact_mod_cast hB
  have e : (T - t) * d = B := by linarith
  by_contra hcon
  have : (T - t) * d ≤ 0 := mul_nonpos_of_nonpos_of_nonneg (by linarith) (le_of_lt hd)
  linarith

end LostTies

section LostTieRay

variable (p : Params ℚ) (ray : Ray ℚ) (m : Int)

/-- The per-cell action of `buildOctantList` produces no key but the key of
the current cell at the current level. -/
theorem visitCell_hash (s : RayState ℚ) (w : World) (k : Key)
    (h : Event.hash k ∈ (visitCell p s w).log) :
    Event.hash k ∈ w.log
      ∨ k = ⟨s.curr_node.x, s.curr_node.y, s.curr_node.z,
          min s.allocation_level p.oct.leaves_level⟩ := by
  unfold visitCell at h
  split at h
  · split at h
    · unfold emitKey at h
      simp only [World.record] at h
      split at h
      · simp only [List.mem_append, List.mem_singleton] at h
        rcases h with ((h | h) | h) | h
        · exact Or.inl h
        · cases h
        · injection h with h
          exact Or.inr h
        · cases h
      · simp only [List.mem_append, List.mem_singleton] at h
        rcases h with (h | h) | h
        · exact Or.inl h
        · cases h
        · injection h with h
          exact Or.inr h
    · left
      split at h <;> simpa [World.record] using h
  · exact Or.inl h

/-- A ray loop whose states, as long as the cell side is `B`, satisfy a
property `K` that keeps them out of a cell, never produces the key of that
cell at leaf level. -/
theorem skip_loop (hB : 0 < p.oct.blockSide)
    (hd : ray.direction.x ≠ 0 ∧ ray.direction.y ≠ 0 ∧ ray.direction.z ≠ 0)
    (c : Vec3 Int) (K : RayState ℚ → Prop)
    (hadv : ∀ s, BandInv p ray s → K s → K (advance s))
    (hcell : ∀ s, BandInv p ray s → K s → s.curr_node ≠ c) :
    ∀ (fuel : Nat) (s : RayState ℚ) (w : World),
      (s.allocation_level < p.oct.leaves_level ∨ (BandInv p ray s ∧ K s)) →
      Event.hash ⟨c.x, c.y, c.z, p.oct.leaves_level⟩ ∉ w.log →
      Event.hash ⟨c.x, c.y, c.z, p.oct.leaves_level⟩
        ∉ (doWhile (rayBody p ray m) (rayCond ray) fuel s w).world.log := by
  intro fuel s w hs hw
  refine doWhile_preserves (rayBody p ray m) (rayCond ray)
    (fun s w => (s.allocation_level < p.oct.leaves_level ∨ (BandInv p ray s ∧ K s))
      ∧ Event.hash ⟨c.x, c.y, c.z, p.oct.leaves_level⟩ ∉ w.log)
    (fun w => Event.hash ⟨c.x, c.y, c.z, p.oct.leaves_level⟩ ∉ w.log)
    ?_ (fun _ _ h => h.2) fuel s w ⟨hs, hw⟩
  rintro s w ⟨hs, hw⟩
  constructor
  · show (advance (doubleSize p ray m s)).allocation_level < p.oct.leaves_level
      ∨ (BandInv p ray (advance (doubleSize p ray m s)) ∧ K (advance (doubleSize p ray m s)))
    have e : (advance (doubleSize p ray m s)).allocation_level
        = (doubleSize p ray m s).allocation_level := by
      unfold advance
      split <;> split <;> rfl
    rw [e]
    unfold doubleSize
    split
    · left
      show s.allocation_level - 1 < p.oct.leaves_level
      rcases hs with h1 | ⟨h1, _⟩
      · omega
      · have := h1.2.1
        omega
    · rcases hs with h1 | ⟨h1, h2⟩
      · exact Or.inl h1
      · exact Or.inr ⟨(advance_BandInv p ray hB hd s h1 0).1, hadv s h1 h2⟩
  · show Event.hash ⟨c.x, c.y, c.z, p.oct.leaves_level⟩ ∉ (visitCell p s w).log
    intro hmem
    rcases visitCell_hash p s w _ hmem with h1 | h1
    · exact hw h1
    · injection h1 with hx hy hz hl
      rcases hs with h2 | ⟨h2, h3⟩
      · rw [min_eq_left (le_of_lt h2)] at hl
        omega
      · apply hcell s h2 h3
        cases hn : s.curr_node with
        | mk cx cy cz =>
          rw [hn] at hx hy hz
          simp only at hx hy hz
          cases c
          simp only at hx hy hz
          rw [hx, hy, hz]

/-- A tie of `z` walked downwards with `y` walked upwards: the walk never
enters the cell of the ray point. -/
theorem skip_zy (hB : 0 < p.oct.blockSide)
    (hd : ray.direction.x ≠ 0 ∧ ray.direction.y ≠ 0 ∧ ray.direction.z ≠ 0)
    (t : ℚ) (hz : ray.direction.z < 0) (hfz : OnFace p.oct.blockSide (posAt p ray t).z)
    (hy : 0 < ray.direction.y) (hfy : OnFace p.oct.blockSide (posAt p ray t).y) :
    (∀ s, BandInv p ray s → (s.T_max.y ≤ t ∨ t < s.T_max.z) →
      ((advance s).T_max.y ≤ t ∨ t < (advance s).T_max.z))
    ∧ (∀ s, BandInv p ray s → (s.T_max.y ≤ t ∨ t < s.T_max.z) →
      s.curr_node ≠ cellOf p.oct.blockSide (posAt p ray t)) := by
  constructor
  · intro s hb hK
    have hδy : 0 < s.delta_T.y := by rw [hb.2.2.1]; exact delta_pos _ hB _ hd.2.1
    have hδz : 0 < s.delta_T.z := by rw [hb.2.2.1]; exact delta_pos _ hB _ hd.2.2
    obtain ⟨n, hn⟩ := axis_lattice _ hB _ _ hd.2.1 _ _ _ t hb.2.2.2.2.2.1
      (by simpa [posAt, originV] using hfy)
    have e : s.delta_T.y = (p.oct.blockSide : ℚ) / |ray.direction.y| := by rw [hb.2.2.1]; rfl
    rw [← e] at hn
    unfold advance
    by_cases hxy : s.T_max.x < s.T_max.y
    · by_cases hxz : s.T_max.x < s.T_max.z
      · simp only [hxy, hxz, if_true, stepX]
        exact hK
      · simp only [hxy, hxz, if_true, if_false, stepZ]
        rcases hK with h1 | h1
        · exact Or.inl h1
        · right; linarith
    · by_cases hyz : s.T_max.y < s.T_max.z
      · simp only [hxy, hyz, if_true, if_false, stepY]
        rcases hK with h1 | h1
        · by_cases h2 : t < s.T_max.z
          · exact Or.inr h2
          · left
            exact lattice_next t _ _ hδy n hn (by linarith)
        · exact Or.inr h1
      · simp only [hxy, hyz, if_false, stepZ]
        rcases hK with h1 | h1
        · exact Or.inl h1
        · right; linarith
  · intro s hb hK hc
    have hcz : s.curr_node.z = p.oct.blockSide * ⌊(posAt p ray t).z / (p.oct.blockSide : ℚ)⌋ := by
      rw [hc]; rfl
    have hcy : s.curr_node.y = p.oct.blockSide * ⌊(posAt p ray t).y / (p.oct.blockSide : ℚ)⌋ := by
      rw [hc]; rfl
    have h1 := down_cell_crossing _ hB _ _ hz _ _ _ t hb.2.2.2.2.2.2
      (by simpa [posAt, originV] using hfz) (by simpa [posAt, originV] using hcz)
    have h2 := up_cell_crossed _ hB _ _ hy _ _ _ t hb.2.2.2.2.2.1
      (by simpa [posAt, originV] using hfy) (by simpa [posAt, originV] using hcy)
    rcases hK with h3 | h3
    · linarith
    · linarith

/-- A tie of `z` walked downwards with `x` walked upwards: the walk never
enters the cell of the ray point. -/
theorem skip_zx (hB : 0 < p.oct.blockSide)
    (hd : ray.direction.x ≠ 0 ∧ ray.direction.y ≠ 0 ∧ ray.direction.z ≠ 0)
    (t : ℚ) (hz : ray.direction.z < 0) (hfz : OnFace p.oct.blockSide (posAt p ray t).z)
    (hx : 0 < ray.direction.x) (hfx : OnFace p.oct.blockSide (posAt p ray t).x) :
    (∀ s, BandInv p ray s → (s.T_max.x ≤ t ∨ t < s.T_max.z) →
      ((advance s).T_max.x ≤ t ∨ t < (advance s).T_max.z))
    ∧ (∀ s, BandInv p ray s → (s.T_max.x ≤ t ∨ t < s.T_max.z) →
      s.curr_node ≠ cellOf p.oct.blockSide (posAt p ray t)) := by
  constructor
  · intro s hb hK
    have hδx : 0 < s.delta_T.x := by rw [hb.2.2.1]; exact delta_pos _ hB _ hd.1
    have hδz : 0 < s.delta_T.z := by rw [hb.2.2.1]; exact delta_pos _ hB _ hd.2.2
    obtain ⟨n, hn⟩ := axis_lattice _ hB _ _ hd.1 _ _ _ t hb.2.2.2.2.1
      (by simpa [posAt, originV] using hfx)
    have e : s.delta_T.x = (p.oct.blockSide : ℚ) / |ray.direction.x| := by rw [hb.2.2.1]; rfl
    rw [← e] at hn
    unfold advance
    by_cases hxy : s.T_max.x < s.T_max.y
    · by_cases hxz : s.T_max.x < s.T_max.z
      · simp only [hxy, hxz, if_true, stepX]
        rcases hK with h1 | h1
        · by_cases h2 : t < s.T_max.z
          · exact Or.inr h2
          · left
            exact lattice_next t _ _ hδx n hn (by linarith)
        · exact Or.inr h1
      · simp only [hxy, hxz, if_true, if_false, stepZ]
        rcases hK with h1 | h1
        · exact Or.inl h1
        · right; linarith
    · by_cases hyz : s.T_max.y < s.T_max.z
      · simp only [hxy, hyz, if_true, if_false, stepY]
        exact hK
      · simp only [hxy, hyz, if_false, stepZ]
        rcases hK with h1 | h1
        · exact Or.inl h1
        · right; linarith
  · intro s hb hK hc
    have hcz : s.curr_node.z = p.oct.blockSide * ⌊(posAt p ray t).z / (p.oct.blockSide : ℚ)⌋ := by
      rw [hc]; rfl
    have hcx : s.curr_node.x = p.oct.blockSide * ⌊(posAt p ray t).x / (p.oct.blockSide : ℚ)⌋ := by
      rw [hc]; rfl
    have h1 := down_cell_crossing _ hB _ _ hz _ _ _ t hb.2.2.2.2.2.2
      (by simpa [posAt, originV] using hfz) (by simpa [posAt, originV] using hcz)
    have h2 := up_cell_crossed _ hB _ _ hx _ _ _ t hb.2.2.2.2.1
      (by simpa [posAt, originV] using hfx) (by simpa [posAt, originV] using hcx)
    rcases hK with h3 | h3
    · linarith
    · linarith

/-- A tie of `y` walked downwards with `x` walked upwards: the walk never
enters the cell of the ray point. -/
theorem skip_yx (hB : 0 < p.oct.blockSide)
    (hd : ray.direction.x ≠ 0 ∧ ray.direction.y ≠ 0 ∧ ray.direction.z ≠ 0)
    (t : ℚ) (hy : ray.direction.y < 0) (hfy : OnFace p.oct.blockSide (posAt p ray t).y)
    (hx : 0 < ray.direction.x) (hfx : OnFace p.oct.blockSide (posAt p ray t).x) :
    (∀ s, BandInv p ray s → (s.T_max.x ≤ t ∨ t < s.T_max.y) →
      ((advance s).T_max.x ≤ t ∨ t < (advance s).T_max.y))
    ∧ (∀ s, BandInv p ray s → (s.T_max.x ≤ t ∨ t < s.T_max.y) →
      s.curr_node ≠ cellOf p.oct.blockSide (posAt p ray t)) := by
  constructor
  · intro s hb hK
    have hδx : 0 < s.delta_T.x := by rw [hb.2.2.1]; exact delta_pos _ hB _ hd.1
    have hδy : 0 < s.delta_T.y := by rw [hb.2.2.1]; exact delta_pos _ hB _ hd.2.1
    obtain ⟨n, hn⟩ := axis_lattice _ hB _ _ hd.1 _ _ _ t hb.2.2.2.2.1
      (by simpa [posAt, originV] using hfx)
    have e : s.delta_T.x = (p.oct.blockSide : ℚ) / |ray.direction.x| := by rw [hb.2.2.1]; rfl
    rw [← e] at hn
    unfold advance
    by_cases hxy : s.T_max.x < s.T_max.y
    · by_cases hxz : s.T_max.x < s.T_max.z
      · simp only [hxy, hxz, if_true, stepX]
        rcases hK with h1 | h1
        · by_cases h2 : t < s.T_max.y
          · exact Or.inr h2
          · left
            exact lattice_next t _ _ hδx n hn (by linarith)
        · exact Or.inr h1
      · simp only [hxy, hxz, if_true, if_false, stepZ]
        exact hK
    · by_cases hyz : s.T_max.y < s.T_max.z
      · simp only [hxy, hyz, if_true, if_false, stepY]
        rcases hK with h1 | h1
        · exact Or.inl h1
        · right; linarith
      · simp only [hxy, hyz, if_false, stepZ]
        exact hK
  · intro s hb hK hc
    have hcy : s.curr_node.y = p.oct.blockSide * ⌊(posAt p ray t).y / (p.oct.blockSide : ℚ)⌋ := by
      rw [hc]; rfl
    have hcx : s.curr_node.x = p.oct.blockSide * ⌊(posAt p ray t).x / (p.oct.blockSide : ℚ)⌋ := by
      rw [hc]; rfl
    have h1 := down_cell_crossing _ hB _ _ hy _ _ _ t hb.2.2.2.2.2.1
      (by simpa [posAt, originV] using hfy) (by simpa [posAt, originV] using hcy)
    have h2 := up_cell_crossed _ hB _ _ hx _ _ _ t hb.2.2.2.2.1
      (by simpa [posAt, originV] using hfx) (by simpa [posAt, originV] using hcx)
    rcases hK with h3 | h3
    · linarith
    · linarith

/-- At a lost tie the traversal of the ray never produces the key of the cell
of the ray point: the exclusion of the lost ties gives up no point that the
walk reaches. -/
theorem lost_tie_skipped (hB : 0 < p.oct.blockSide)
    (hp0 : 0 ≤ (originV p ray).x ∧ 0 ≤ (originV p ray).y ∧ 0 ≤ (originV p ray).z)
    (hd : ray.direction.x ≠ 0 ∧ ray.direction.y ≠ 0 ∧ ray.direction.z ≠ 0)
    (t : ℚ) (hlost : LostTie p.oct.blockSide ray.direction (posAt p ray t) t)
    (fuel : Nat) (w : World)
    (hw : Event.hash ⟨(cellOf p.oct.blockSide (posAt p ray t)).x,
      (cellOf p.oct.blockSide (posAt p ray t)).y, (cellOf p.oct.blockSide (posAt p ray t)).z,
      p.oct.leaves_level⟩ ∉ w.log) :
    Event.hash ⟨(cellOf p.oct.blockSide (posAt p ray t)).x,
      (cellOf p.oct.blockSide (posAt p ray t)).y, (cellOf p.oct.blockSide (posAt p ray t)).z,
      p.oct.leaves_level⟩
      ∉ (doWhile (rayBody p ray m) (rayCond ray) fuel (initRay p ray) w).world.log := by
  obtain ⟨hinit, hzero⟩ := initRay_BandInv p ray hB hp0 hd
  obtain ⟨ht, hpat⟩ := hlost
  have hτ : (initRay p ray).travelled < t := by rw [hzero]; exact ht
  rcases hpat with ⟨hz, hfz, hy, hfy⟩ | ⟨hz, hfz, hx, hfx⟩ | ⟨hy, hfy, hx, hfx⟩
  · obtain ⟨h1, h2⟩ := skip_zy p ray hB hd t hz hfz hy hfy
    refine skip_loop p ray m hB hd _ _ h1 h2 fuel _ w (Or.inr ⟨hinit, Or.inl ?_⟩) hw
    exact axis_face_pending _ hB _ _ hy _ _ _ t hinit.2.2.2.2.2.1
      (by simpa [posAt, originV] using hfy) hτ
  · obtain ⟨h1, h2⟩ := skip_zx p ray hB hd t hz hfz hx hfx
    refine skip_loop p ray m hB hd _ _ h1 h2 fuel _ w (Or.inr ⟨hinit, Or.inl ?_⟩) hw
    exact axis_face_pending _ hB _ _ hx _ _ _ t hinit.2.2.2.2.1
      (by simpa [posAt, originV] using hfx) hτ
  · obtain ⟨h1, h2⟩ := skip_yx p ray hB hd t hy hfy hx hfx
    refine skip_loop p ray m hB hd _ _ h1 h2 fuel _ w (Or.inr ⟨hinit, Or.inl ?_⟩) hw
    exact axis_face_pending _ hB _ _ hx _ _ _ t hinit.2.2.2.2.1
      (by simpa [posAt, originV] using hfx) hτ

end LostTieRay

section BandCompleteness

/-- A loop that stopped for another reason than the fuel gives the same run
with more fuel. -/
theorem doWhile_stable {σ : Type} (body : σ → World → Status × σ × World) (cond : σ → Bool) :
    ∀ (n : Nat) (s : σ) (w : World), (doWhile body cond n s w).status ≠ Status.fuel →
      ∀ k, doWhile body cond (n + k) s w = doWhile body cond n s w := by
  intro n
  induction n with
  | zero => intro s w h; simp [doWhile] at h
  | succ n ih =>
    intro s w h k
    have hk : n + 1 + k = (n + k) + 1 := by omega
    rw [hk]
    unfold doWhile at h ⊢
    rcases hb : body s w with ⟨st, s', w'⟩
    rw [hb] at h
    cases st with
    | ok =>
      by_cases hc : cond s' = true
      · simp only [hc, if_true] at h ⊢
        exact ih s' w' h k
      · simp only [hc]
        rfl
    | fuel => rfl
    | fault => rfl

end BandCompleteness

section BandCompletenessWitness

end BandCompletenessWitness

section ReprojectionLemmas

variable {F : Type} [Add F] [Sub F] [Mul F] [Div F] [Neg F] [IntCast F] [LT F]
  [∀ a b : F, Decidable (a < b)] [FloatOps F]

omit [Neg F] [FloatOps F] in
/-- The flag after the corner loop: still set iff it was set and every corner
of the list passed both tests. -/
theorem cornerStep_fold_is_inside (fr : Frame F) (sz : Vec2 Int) (l : List Nat) (s : Corners F) :
    (l.foldl (cornerStep fr sz) s).is_inside =
      (s.is_inside && l.all fun i => !behindCamera fr i && !outsideImage fr sz i) := by
  induction l generalizing s with
  | nil => simp
  | cons a l ih =>
    rw [List.foldl_cons, ih]
    unfold cornerStep
    cases hb : behindCamera fr a <;> cases ho : outsideImage fr sz a <;> simp [hb, ho]

omit [Neg F] [FloatOps F] in
/-- The arrays after the corner loop, when no corner of the list fails the
depth test: entry `j` holds `corner_p` of corner `j`. -/
theorem cornerStep_fold_arrays (fr : Frame F) (sz : Vec2 Int) (l : List Nat) (s : Corners F)
    (h : ∀ i ∈ l, behindCamera fr i = false) (j : Nat) :
    (l.foldl (cornerStep fr sz) s).corners_p_x j =
        (if j ∈ l then (corner_p fr j).x else s.corners_p_x j) ∧
      (l.foldl (cornerStep fr sz) s).corners_p_y j =
        (if j ∈ l then (corner_p fr j).y else s.corners_p_y j) := by
  induction l generalizing s with
  | nil => simp
  | cons a l ih =>
    rw [List.foldl_cons]
    have ha : behindCamera fr a = false := h a (List.mem_cons_self _ _)
    have ih' := ih (cornerStep fr sz s a) (fun i hi => h i (List.mem_cons_of_mem _ hi))
    rw [ih'.1, ih'.2]
    have hx : (cornerStep fr sz s a).corners_p_x j =
        if j = a then (corner_p fr a).x else s.corners_p_x j := by
      unfold cornerStep
      cases ho : outsideImage fr sz a <;> simp [ha, ho]
    have hy : (cornerStep fr sz s a).corners_p_y j =
        if j = a then (corner_p fr a).y else s.corners_p_y j := by
      unfold cornerStep
      cases ho : outsideImage fr sz a <;> simp [ha, ho]
    rw [hx, hy]
    by_cases hjl : j ∈ l
    · simp [hjl]
    · by_cases hja : j = a
      · subst hja; simp [hjl]
      · simp [hjl, hja]

omit [Add F] [Sub F] [Mul F] [Div F] [Neg F] in
/-- The function `bounds` reads only the entries `0..7`. -/
theorem bounds_congr (a b : Nat → F) (h : ∀ i, i < 8 → a i = b i) : bounds a = bounds b := by
  unfold bounds
  have h0 := h 0 (by decide)
  have h1 := h 1 (by decide)
  have h2 := h 2 (by decide)
  have h3 := h 3 (by decide)
  have h4 := h 4 (by decide)
  have h5 := h 5 (by decide)
  have h6 := h 6 (by decide)
  have h7 := h 7 (by decide)
  simp only [List.range', List.foldl, h0, h1, h2, h3, h4, h5, h6, h7]

/-- The result of `reprojectIntoImage` in closed form. -/
theorem reprojectIntoImage_eq (uninit : F) (Twc K : Mat4 F) (image_size : Vec2 Int) (mask : Image)
    (downsample : Int) (world_node : Vec3 Int) (voxel_dim : F) (node_size : Int) :
    reprojectIntoImage uninit Twc K image_size mask downsample world_node voxel_dim node_size =
      if allCornersPass (reprojectFrame Twc K world_node voxel_dim node_size) image_size = true then
        if 8 < node_size then
          maskScan mask downsample
            (bounds fun i => (corner_p (reprojectFrame Twc K world_node voxel_dim node_size) i).x)
            (bounds fun i => (corner_p (reprojectFrame Twc K world_node voxel_dim node_size) i).y)
            true
        else some true
      else some false := by
  unfold reprojectIntoImage
  simp only []
  have hin : (cornerLoop uninit (reprojectFrame Twc K world_node voxel_dim node_size)
      image_size).is_inside =
      allCornersPass (reprojectFrame Twc K world_node voxel_dim node_size) image_size := by
    unfold cornerLoop allCornersPass
    rw [cornerStep_fold_is_inside]
    simp
  rw [hin]
  cases hp : allCornersPass (reprojectFrame Twc K world_node voxel_dim node_size) image_size
  · simp
  · by_cases hn : 8 < node_size
    · simp only [hn, and_self, if_true]
      have hb : ∀ i ∈ List.range 8,
          behindCamera (reprojectFrame Twc K world_node voxel_dim node_size) i = false := by
        intro i hi
        unfold allCornersPass at hp
        rw [List.all_eq_true] at hp
        have := hp i hi
        simp only [Bool.and_eq_true, Bool.not_eq_true'] at this
        exact this.1
      have hx := bounds_congr
        (cornerLoop uninit (reprojectFrame Twc K world_node voxel_dim node_size)
          image_size).corners_p_x
        (fun i => (corner_p (reprojectFrame Twc K world_node voxel_dim node_size) i).x)
        (fun i hi => by
          unfold cornerLoop
          rw [(cornerStep_fold_arrays _ _ _ _ hb i).1]
          simp [hi])
      have hy := bounds_congr
        (cornerLoop uninit (reprojectFrame Twc K world_node voxel_dim node_size)
          image_size).corners_p_y
        (fun i => (corner_p (reprojectFrame Twc K world_node voxel_dim node_size) i).y)
        (fun i hi => by
          unfold cornerLoop
          rw [(cornerStep_fold_arrays _ _ _ _ hb i).2]
          simp [hi])
      rw [hx, hy]
    · simp [hn]

/-- Membership in the range of a `for (int v = lo; v <= hi; v++)` loop. -/
theorem mem_intRange (lo hi v : Int) : v ∈ intRange lo hi ↔ lo ≤ v ∧ v ≤ hi := by
  unfold intRange
  simp only [List.mem_map, List.mem_range]
  constructor
  · rintro ⟨k, hk, rfl⟩
    omega
  · rintro ⟨h1, h2⟩
    exact ⟨(v - lo).toNat, by omega, by omega⟩

/-- A scan that clears the flag at every zero ends with the flag set iff it
started with the flag set and every read succeeded with a non-zero value. -/
theorem scan_fold {α : Type} (rd : α → Option Int) (l : List α) (acc : Option Bool) :
    l.foldl (fun acc a => acc.bind fun node_valid =>
        (rd a).map fun v => if v = 0 then false else node_valid) acc = some true ↔
      acc = some true ∧ ∀ a ∈ l, ∃ v, rd a = some v ∧ v ≠ 0 := by
  induction l generalizing acc with
  | nil => simp
  | cons a l ih =>
    rw [List.foldl_cons, ih]
    cases acc with
    | none => simp
    | some b =>
      cases hr : rd a with
      | none => simp [hr]
      | some v =>
        by_cases hv : v = 0
        · simp [hr, hv]
        · cases b <;> simp [hr, hv]

/-- The mask scan returns `true` iff every cell of the box is read inside the
mask buffer and is not zero. -/
theorem maskScan_true (mask : Image) (d : Int) (hd : d ≠ 0) (xb yb : Int × Int) :
    maskScan mask d xb yb true = some true ↔
      ∀ y ∈ intRange (yb.1.tdiv d) (yb.2.tdiv d), ∀ x ∈ intRange (xb.1.tdiv d) (xb.2.tdiv d),
        ∃ v, mask.read (x + y * mask.width) = some v ∧ v ≠ 0 := by
  unfold maskScan
  rw [if_neg hd]
  generalize intRange (yb.1.tdiv d) (yb.2.tdiv d) = ys
  have key : ∀ (ys : List Int) (acc : Option Bool),
      ys.foldl (fun acc (y : Int) =>
        (intRange (xb.1.tdiv d) (xb.2.tdiv d)).foldl
          (fun acc (x : Int) => acc.bind fun node_valid =>
            (mask.read (x + y * mask.width)).map fun v => if v = 0 then false else node_valid)
          acc) acc = some true ↔
      acc = some true ∧ ∀ y ∈ ys, ∀ x ∈ intRange (xb.1.tdiv d) (xb.2.tdiv d),
        ∃ v, mask.read (x + y * mask.width) = some v ∧ v ≠ 0 := by
    intro ys
    induction ys with
    | nil => intro acc; simp
    | cons y ys ih =>
      intro acc
      rw [List.foldl_cons, ih,
        scan_fold (fun x => mask.read (x + y * mask.width))]
      simp only [List.mem_cons, forall_eq_or_imp]
      tauto
  rw [key]
  simp

end ReprojectionLemmas

section ReprojectionContracts

variable {F : Type} [Add F] [Sub F] [Mul F] [Div F] [Neg F] [IntCast F] [LT F]
  [∀ a b : F, Decidable (a < b)] [FloatOps F]

/-- C11: `reprojectIntoImage` returns false whenever one of the eight cube
corners has a camera-frame z below 0.0001, whatever the mask, the image size,
the downsample factor and the node size. -/
theorem depth_test_rejects (uninit : F) (Twc K : Mat4 F) (image_size : Vec2 Int) (mask : Image)
    (downsample : Int) (world_node : Vec3 Int) (voxel_dim : F) (node_size : Int)
    (i : Nat) (hi : i < 8)
    (hz : (corner_m_c (reprojectFrame Twc K world_node voxel_dim node_size) i).z <
      floatLit 1 10000) :
    reprojectIntoImage uninit Twc K image_size mask downsample world_node voxel_dim node_size =
      some false := by
  rw [reprojectIntoImage_eq]
  have : allCornersPass (reprojectFrame Twc K world_node voxel_dim node_size) image_size
      = false := by
    unfold allCornersPass
    rw [List.all_eq_false]
    refine ⟨i, List.mem_range.mpr hi, ?_⟩
    simp [behindCamera, hz]
  simp [this]

/-- Witness of C11: a node behind the identity camera is rejected. -/
theorem depth_test_rejects_witness :
    reprojectIntoImage (0 : ℚ) identityPose unitCamera ⟨10, 10⟩ holeMask 4 ⟨0, 0, -5⟩ 1 1 =
      some false :=
  depth_test_rejects 0 identityPose unitCamera ⟨10, 10⟩ holeMask 4 ⟨0, 0, -5⟩ 1 1 0
    (by decide) (by decide!)

/-- C12 as stated fails: with the identity pose and the unit camera the corner
`(1/5, 1/5, 1)` has depth one and projects to `(u, v) = (1/5, 1/5)`, outside
`[0.5, W − 1.5] × [0.5, H − 1.5]`, and the function returns true. -/
theorem image_bounds_counterexample :
    ¬ ((corner_m_c (reprojectFrame identityPose unitCamera ⟨1, 1, 5⟩ (1 / 5 : ℚ) 1) 0).z <
        1 / 10000) ∧
      (unitCamera.topLeftCorner.mulVec
          (corner_m_c (reprojectFrame identityPose unitCamera ⟨1, 1, 5⟩ (1 / 5 : ℚ) 1) 0)).x /
        (unitCamera.topLeftCorner.mulVec
          (corner_m_c (reprojectFrame identityPose unitCamera ⟨1, 1, 5⟩ (1 / 5 : ℚ) 1) 0)).z
        < 1 / 2 ∧
      reprojectIntoImage (0 : ℚ) identityPose unitCamera ⟨10, 10⟩ holeMask 4 ⟨1, 1, 5⟩ (1 / 5) 1 =
        some true := by
  decide!

/-- C12, amended: `reprojectIntoImage` returns false whenever, for some corner,
the shifted pixel `corner_p = (h_x * (1 / h_z) + 0.5, h_y * (1 / h_z) + 0.5)`
computed from its `corner_homo` lies outside `[0.5, W − 1.5] × [0.5, H − 1.5]`. -/
theorem image_test_rejects (uninit : F) (Twc K : Mat4 F) (image_size : Vec2 Int) (mask : Image)
    (downsample : Int) (world_node : Vec3 Int) (voxel_dim : F) (node_size : Int)
    (i : Nat) (hi : i < 8)
    (hout :
      (corner_p (reprojectFrame Twc K world_node voxel_dim node_size) i).x < floatLit 1 2 ∨
      ((image_size.x : Int) : F) - floatLit 3 2 <
        (corner_p (reprojectFrame Twc K world_node voxel_dim node_size) i).x ∨
      (corner_p (reprojectFrame Twc K world_node voxel_dim node_size) i).y < floatLit 1 2 ∨
      ((image_size.y : Int) : F) - floatLit 3 2 <
        (corner_p (reprojectFrame Twc K world_node voxel_dim node_size) i).y) :
    reprojectIntoImage uninit Twc K image_size mask downsample world_node voxel_dim node_size =
      some false := by
  rw [reprojectIntoImage_eq]
  have : allCornersPass (reprojectFrame Twc K world_node voxel_dim node_size) image_size
      = false := by
    unfold allCornersPass
    rw [List.all_eq_false]
    refine ⟨i, List.mem_range.mpr hi, ?_⟩
    have ho : outsideImage (reprojectFrame Twc K world_node voxel_dim node_size) image_size i
        = true := by
      unfold outsideImage
      simp only [Bool.or_eq_true, decide_eq_true_eq]
      tauto
    simp [ho]
  simp [this]

/-- Witness of the amended C12: a corner whose shifted pixel is `(-1/2, 1/2)`. -/
theorem image_test_rejects_witness :
    reprojectIntoImage (0 : ℚ) identityPose unitCamera ⟨10, 10⟩ holeMask 4 ⟨-1, 0, 1⟩ 1 1 =
      some false :=
  image_test_rejects 0 identityPose unitCamera ⟨10, 10⟩ holeMask 4 ⟨-1, 0, 1⟩ 1 1 0
    (by decide) (by decide!)

/-- C13 as stated fails: in a `10 × 10` image the mask has 2 columns, and a
node of size 16 all of whose corners pass both tests has the box
`1 ≤ x ≤ 2`, `0 ≤ y ≤ 0`, which reaches the column 2 that the mask does not
have.  The scan reads `data[2 + 0 * 2]`, the cell `(0, 1)` outside the box.  On
the mask without holes the result is true although `(2, 0)` is not a mask cell
holding 1; on the mask of `gapDepth` the result is false although every mask
cell inside the box, here the cell `(1, 0)`, is 1. -/
theorem mask_scan_aliasing :
    allCornersPass (reprojectFrame identityPose unitCamera ⟨1216, 160, 160⟩ (1 / 160 : ℚ) 16)
        ⟨10, 10⟩ = true ∧
      ((bounds (cornerLoop (0 : ℚ)
          (reprojectFrame identityPose unitCamera ⟨1216, 160, 160⟩ (1 / 160 : ℚ) 16)
          ⟨10, 10⟩).corners_p_x).1.tdiv 4,
       (bounds (cornerLoop (0 : ℚ)
          (reprojectFrame identityPose unitCamera ⟨1216, 160, 160⟩ (1 / 160 : ℚ) 16)
          ⟨10, 10⟩).corners_p_x).2.tdiv 4,
       (bounds (cornerLoop (0 : ℚ)
          (reprojectFrame identityPose unitCamera ⟨1216, 160, 160⟩ (1 / 160 : ℚ) 16)
          ⟨10, 10⟩).corners_p_y).1.tdiv 4,
       (bounds (cornerLoop (0 : ℚ)
          (reprojectFrame identityPose unitCamera ⟨1216, 160, 160⟩ (1 / 160 : ℚ) 16)
          ⟨10, 10⟩).corners_p_y).2.tdiv 4) = (1, 2, 0, 0) ∧
      (depth_mask (List.replicate 100 (1 : ℚ)) ⟨10, 10⟩ 4).map
        (fun m => (m.width, m.height, m.data)) = some (2, 2, [1, 1, 1, 1]) ∧
      reprojectIntoImage (0 : ℚ) identityPose unitCamera ⟨10, 10⟩ edgeMask 4 ⟨1216, 160, 160⟩
        (1 / 160) 16 = some true ∧
      edgeMask.cell 2 0 = none ∧
      (depth_mask gapDepth ⟨10, 10⟩ 4).map
        (fun m => (m.width, m.height, m.data)) = some (2, 2, [1, 1, 0, 1]) ∧
      reprojectIntoImage (0 : ℚ) identityPose unitCamera ⟨10, 10⟩ gapMask 4 ⟨1216, 160, 160⟩
        (1 / 160) 16 = some false ∧
      gapMask.cell 1 0 = some 1 ∧ gapMask.cell 2 0 = none ∧
      gapMask.read (2 + 0 * gapMask.width) = some 0 := by
  decide!

/-- C13, amended: when all eight corners pass the depth and the image tests, a
node of size at most 8 is accepted whatever the mask; for a node of size above
8 whose box `xmin / d ≤ x ≤ xmax / d`, `ymin / d ≤ y ≤ ymax / d` (truncating
division, the bounds being those of `bounds` on the stored corner arrays)
lies inside the mask, the node is accepted iff every mask cell `(x, y)` of
the box is one. -/
theorem mask_scan_contract (uninit : F) (Twc K : Mat4 F) (image_size : Vec2 Int) (mask : Image)
    (downsample : Int) (world_node : Vec3 Int) (voxel_dim : F) (node_size : Int)
    (hpass : ∀ i, i < 8 →
      behindCamera (reprojectFrame Twc K world_node voxel_dim node_size) i = false ∧
      outsideImage (reprojectFrame Twc K world_node voxel_dim node_size) image_size i = false) :
    (node_size ≤ 8 →
      reprojectIntoImage uninit Twc K image_size mask downsample world_node voxel_dim node_size
        = some true) ∧
    (8 < node_size → downsample ≠ 0 → (∀ v ∈ mask.data, v = 0 ∨ v = 1) →
      0 ≤ (bounds (cornerLoop uninit (reprojectFrame Twc K world_node voxel_dim node_size)
        image_size).corners_p_x).1.tdiv downsample →
      (bounds (cornerLoop uninit (reprojectFrame Twc K world_node voxel_dim node_size)
        image_size).corners_p_x).2.tdiv downsample < mask.width →
      0 ≤ (bounds (cornerLoop uninit (reprojectFrame Twc K world_node voxel_dim node_size)
        image_size).corners_p_y).1.tdiv downsample →
      (bounds (cornerLoop uninit (reprojectFrame Twc K world_node voxel_dim node_size)
        image_size).corners_p_y).2.tdiv downsample < mask.height →
      (reprojectIntoImage uninit Twc K image_size mask downsample world_node voxel_dim node_size
          = some true ↔
        ∀ x y : Int,
          (bounds (cornerLoop uninit (reprojectFrame Twc K world_node voxel_dim node_size)
            image_size).corners_p_x).1.tdiv downsample ≤ x →
          x ≤ (bounds (cornerLoop uninit (reprojectFrame Twc K world_node voxel_dim node_size)
            image_size).corners_p_x).2.tdiv downsample →
          (bounds (cornerLoop uninit (reprojectFrame Twc K world_node voxel_dim node_size)
            image_size).corners_p_y).1.tdiv downsample ≤ y →
          y ≤ (bounds (cornerLoop uninit (reprojectFrame Twc K world_node voxel_dim node_size)
            image_size).corners_p_y).2.tdiv downsample →
          mask.cell x y = some 1)) := by
  have hin : (cornerLoop uninit (reprojectFrame Twc K world_node voxel_dim node_size)
      image_size).is_inside = true := by
    unfold cornerLoop
    rw [cornerStep_fold_is_inside]
    simp only [Bool.true_and, List.all_eq_true, List.mem_range]
    intro i hi
    simp [(hpass i hi).1, (hpass i hi).2]
  constructor
  · intro hn
    unfold reprojectIntoImage
    simp only [hin]
    rw [if_neg (by omega)]
  · intro hn hd hbin hx0 hx1 hy0 hy1
    have hcell : ∀ x y : Int,
        (bounds (cornerLoop uninit (reprojectFrame Twc K world_node voxel_dim node_size)
          image_size).corners_p_x).1.tdiv downsample ≤ x →
        x ≤ (bounds (cornerLoop uninit (reprojectFrame Twc K world_node voxel_dim node_size)
          image_size).corners_p_x).2.tdiv downsample →
        (bounds (cornerLoop uninit (reprojectFrame Twc K world_node voxel_dim node_size)
          image_size).corners_p_y).1.tdiv downsample ≤ y →
        y ≤ (bounds (cornerLoop uninit (reprojectFrame Twc K world_node voxel_dim node_size)
          image_size).corners_p_y).2.tdiv downsample →
        mask.cell x y = mask.read (x + y * mask.width) := by
      intro x y h1 h2 h3 h4
      unfold Image.cell
      rw [if_pos ⟨by omega, by omega, by omega, by omega⟩]
    unfold reprojectIntoImage
    simp only [hin]
    rw [if_pos ⟨trivial, hn⟩, maskScan_true _ _ hd]
    simp only [mem_intRange]
    constructor
    · intro h x y hx1 hx2 hy1 hy2
      obtain ⟨v, hv, hv0⟩ := h y ⟨hy1, hy2⟩ x ⟨hx1, hx2⟩
      have hmem : v ∈ mask.data := by
        unfold Image.read at hv
        split at hv
        · obtain ⟨hlt, rfl⟩ := List.getElem?_eq_some.mp hv
          exact List.getElem_mem ..
        · simp at hv
      rw [hcell x y hx1 hx2 hy1 hy2]
      rcases hbin v hmem with h0 | h1
      · exact absurd h0 hv0
      · rw [hv, h1]
    · intro h y hy x hx
      exact ⟨1, (hcell x y hx.1 hx.2 hy.1 hy.2).symm.trans (h x y hx.1 hx.2 hy.1 hy.2),
        by decide⟩

/-- Witness of the amended C13: a node of size 16 in front of the identity
camera, all of whose corners pass both tests and whose box, the cells
`0 ≤ x ≤ 1`, `0 ≤ y ≤ 1`, lies inside the ten by ten mask. -/
theorem mask_scan_contract_witness :
    (reprojectIntoImage (0 : ℚ) identityPose unitCamera ⟨40, 40⟩ holeMask 4 ⟨160, 160, 32⟩
        (1 / 16) 16 = some true ↔
      ∀ x y : Int,
        (bounds (cornerLoop (0 : ℚ) (reprojectFrame identityPose unitCamera ⟨160, 160, 32⟩
          (1 / 16) 16) ⟨40, 40⟩).corners_p_x).1.tdiv 4 ≤ x →
        x ≤ (bounds (cornerLoop (0 : ℚ) (reprojectFrame identityPose unitCamera ⟨160, 160, 32⟩
          (1 / 16) 16) ⟨40, 40⟩).corners_p_x).2.tdiv 4 →
        (bounds (cornerLoop (0 : ℚ) (reprojectFrame identityPose unitCamera ⟨160, 160, 32⟩
          (1 / 16) 16) ⟨40, 40⟩).corners_p_y).1.tdiv 4 ≤ y →
        y ≤ (bounds (cornerLoop (0 : ℚ) (reprojectFrame identityPose unitCamera ⟨160, 160, 32⟩
          (1 / 16) 16) ⟨40, 40⟩).corners_p_y).2.tdiv 4 →
        holeMask.cell x y = some 1) :=
  (mask_scan_contract 0 identityPose unitCamera ⟨40, 40⟩ holeMask 4 ⟨160, 160, 32⟩ (1 / 16) 16
    (by decide!)).2 (by decide) (by decide) (by decide!) (by decide!) (by decide!) (by decide!)
    (by decide!)

/-- C14 fails on the code: under the rotation with cosine 3/5 and sine 4/5
about z, unit voxels and the unit node at the origin, corner 1 is computed as
`(7/5, 0, 0)`, which is none of the eight transformed cube corners (the
transformed corner of direction `(1, 0, 0)` is `(3/5, -4/5, 0)`). -/
theorem rotated_corner_mismatch :
    corner_m_c (reprojectFrame rotatedPose unitCamera ⟨0, 0, 0⟩ (1 : ℚ) 1) 1 = ⟨7 / 5, 0, 0⟩ ∧
      transformedCorner rotatedPose ⟨0, 0, 0⟩ (1 : ℚ) 1 1 = ⟨3 / 5, -4 / 5, 0⟩ ∧
      ∀ j, j < 8 → transformedCorner rotatedPose ⟨0, 0, 0⟩ (1 : ℚ) 1 j ≠ ⟨7 / 5, 0, 0⟩ := by
  decide!

end ReprojectionContracts

section LoopStates

/-- A property of the state that the body preserves holds of every state of
the loop. -/
theorem doWhileStates_preserves {σ : Type} (body : σ → World → Status × σ × World)
    (cond : σ → Bool) (I : σ → Prop)
    (hbody : ∀ s w, I s → (body s w).1 = Status.ok → I (body s w).2.1) :
    ∀ (fuel : Nat) (s : σ) (w : World), I s → ∀ s' ∈ doWhileStates body cond fuel s w, I s' := by
  intro fuel
  induction fuel with
  | zero => intro s w _ s' hs'; simp [doWhileStates] at hs'
  | succ n ih =>
    intro s w hs s' hs'
    unfold doWhileStates at hs'
    have hb := hbody s w hs
    rcases hr : body s w with ⟨st, s1, w1⟩
    rw [hr] at hs' hb
    cases st with
    | ok =>
      simp only [List.mem_cons] at hs'
      have h1 : I s1 := hb rfl
      rcases hs' with rfl | hs'
      · exact h1
      · split at hs'
        · exact ih s1 w1 h1 s' hs'
        · simp at hs'
    | fuel => simp at hs'
    | fault => simp at hs'

end LoopStates

section SizeBounds

variable {F : Type} [Add F] [Sub F] [Mul F] [Div F] [IntCast F] [LT F]
  [∀ a b : F, Decidable (a < b)] [DecidableEq F] [FloatOps F]

omit [DecidableEq F] [FloatOps F] [Sub F] [Mul F] [Div F] [IntCast F] in
/-- The stepping phase leaves the allocation size and level alone. -/
theorem advance_size (s : RayState F) :
    (advance s).allocation_size = s.allocation_size
      ∧ (advance s).allocation_level = s.allocation_level := by
  unfold advance
  split <;> split <;> simp [stepX, stepY, stepZ]

omit [DecidableEq F] in
/-- The invariant `SizeInv` holds at the start of a ray and after every
iteration. -/
theorem rayBody_SizeInv (p : Params F) (ray : Ray F) (j : Nat) (hB : 0 < p.oct.blockSide)
    (s : RayState F) (h : SizeInv p.oct j s) :
    SizeInv p.oct j (advance (doubleSize p ray (p.oct.blockSide * 2 ^ j) s)) := by
  obtain ⟨hinv, i, hij, hsz⟩ := h
  refine ⟨advance_RayInv _ _ (doubleSize_RayInv p ray _ s hinv), ?_⟩
  rw [(advance_size (doubleSize p ray (p.oct.blockSide * 2 ^ j) s)).1]
  unfold doubleSize
  by_cases hg : doublingGuard p s.travelled s.allocation_size s.allocation_size
      (p.oct.blockSide * 2 ^ j) = true
  · simp only [hg, if_true]
    have hlt : s.allocation_size < p.oct.blockSide * 2 ^ j := by
      unfold doublingGuard at hg
      simp only [Bool.and_eq_true, decide_eq_true_eq] at hg
      exact hg.2
    rw [hsz] at hlt
    have hpow : (2 : Int) ^ i < 2 ^ j := lt_of_mul_lt_mul_left hlt (le_of_lt hB)
    have hij' : i < j := (pow_lt_pow_iff_right₀ (by norm_num : (1 : Int) < 2)).1 hpow
    exact ⟨i + 1, hij', by rw [hsz, pow_succ]; ring⟩
  · simp only [hg]
    exact ⟨i, hij, hsz⟩

/-- C17: in `buildOctantList` with `min_allocation_size = B * 2^j` and
`B = 2^b`, at every iteration of a ray `B ≤ allocation_size ≤
max(min_allocation_size, B)` and `allocation_size = 2^(L_max −
allocation_level)`, and the doubling guard holds only when
`travelled > band / voxel_dim`. -/
theorem allocation_size_bounds (p : Params ℚ) (ray : Ray ℚ) (m : Int) (b j : Nat)
    (hB : p.oct.blockSide = 2 ^ b) (hm : m = p.oct.blockSide * 2 ^ j) (fuel : Nat) (w : World)
    (s : RayState ℚ)
    (hs : s ∈ initRay p ray :: doWhileStates (rayBody p ray (clampSize m p.oct.blockSide))
      (rayCond ray) fuel (initRay p ray) w) :
    p.oct.blockSide ≤ s.allocation_size ∧ s.allocation_size ≤ max m p.oct.blockSide ∧
      s.allocation_size = 2 ^ (p.oct.max_level - s.allocation_level).toNat ∧
      (doublingGuard p s.travelled s.allocation_size s.allocation_size
          (clampSize m p.oct.blockSide) = true →
        p.band / p.voxel_dim < s.travelled ∧
          (doubleSize p ray (clampSize m p.oct.blockSide) s).allocation_size
            = 2 * s.allocation_size) ∧
      (doublingGuard p s.travelled s.allocation_size s.allocation_size
          (clampSize m p.oct.blockSide) = false →
        doubleSize p ray (clampSize m p.oct.blockSide) s = s) := by
  have hBpos : 0 < p.oct.blockSide := by rw [hB]; positivity
  have hone : ∀ n : Nat, (1 : Int) ≤ 2 ^ n := fun n => one_le_pow₀ (by norm_num)
  have hmB : p.oct.blockSide ≤ m := by
    rw [hm]; exact le_mul_of_one_le_right (le_of_lt hBpos) (hone j)
  have hclamp : clampSize m p.oct.blockSide = p.oct.blockSide * 2 ^ j := by
    unfold clampSize
    split
    · exact hm
    · rw [← hm]; omega
  rw [hclamp] at hs ⊢
  have hinit : SizeInv p.oct j (initRay p ray) :=
    ⟨initRay_RayInv p ray, 0, Nat.zero_le _, by simp [initRay]⟩
  have hall : SizeInv p.oct j s := by
    rcases List.mem_cons.1 hs with rfl | hs
    · exact hinit
    · exact doWhileStates_preserves _ _ (SizeInv p.oct j)
        (fun s w h _ => rayBody_SizeInv p ray j hBpos s h) fuel _ w hinit s hs
  obtain ⟨⟨hl, hside, _, _⟩, i, hij, hsz⟩ := hall
  refine ⟨?_, ?_, ?_, ?_, ?_⟩
  · rw [hsz]; exact le_mul_of_one_le_right (le_of_lt hBpos) (hone i)
  · rw [max_eq_left hmB, hm, hsz]
    exact mul_le_mul_of_nonneg_left
      (pow_le_pow_right₀ (by norm_num) hij) (le_of_lt hBpos)
  · rw [hside]; exact sideAt_eq_pow p.oct b hB _ hl
  · intro hg
    constructor
    · unfold doublingGuard at hg
      simp only [Bool.and_eq_true, decide_eq_true_eq] at hg
      have h2 := hg.1.2
      have hinv : p.inv_voxel_dim * p.band = p.band / p.voxel_dim := by
        simp [Params.inv_voxel_dim]; ring
      rw [hinv] at h2
      simp only [Int.cast_zero] at h2
      linarith
    · unfold doubleSize
      simp [hg]
  · intro hg
    unfold doubleSize
    simp [hg]

/-- Witness of C17 on the scene of `sceneParams` with `min_allocation_size =
16`: the state after the first iteration. -/
theorem allocation_size_bounds_witness :
    sceneParams.oct.blockSide ≤
        (advance (doubleSize sceneParams sceneRay (clampSize 16 sceneParams.oct.blockSide)
          (initRay sceneParams sceneRay))).allocation_size ∧
      (advance (doubleSize sceneParams sceneRay (clampSize 16 sceneParams.oct.blockSide)
          (initRay sceneParams sceneRay))).allocation_size ≤ max 16 sceneParams.oct.blockSide :=
  have h := allocation_size_bounds sceneParams sceneRay 16 3 1 (by decide) (by decide) 1
    ⟨0, 0, []⟩
    (advance (doubleSize sceneParams sceneRay (clampSize 16 sceneParams.oct.blockSide)
      (initRay sceneParams sceneRay)))
    (List.mem_cons_of_mem _ (by simp [doWhileStates, rayBody]))
  ⟨h.1, h.2.1⟩

end SizeBounds

section Clamping

variable {F : Type} [Add F] [Sub F] [Mul F] [Div F] [IntCast F] [LT F]
  [∀ a b : F, Decidable (a < b)] [DecidableEq F] [FloatOps F]

omit [DecidableEq F] in
/-- The doubling phase of `buildParentOctantList` does nothing when the size
has reached the bound. -/
theorem doubleParentSize_small (p : Params F) (ray : Ray F) (m : Int) (s : ParentState F)
    (h : m ≤ s.allocation_size) : doubleParentSize p ray m s = s := by
  unfold doubleParentSize
  have hg : doublingGuard p s.travelled s.allocation_size s.allocation_size m = false := by
    unfold doublingGuard
    have : ¬ s.allocation_size < m := by omega
    simp [this]
  simp [hg]

omit [DecidableEq F] in
/-- While the size is the block side, an iteration of the parent allocator
with a bound `m ≤ B` is the iteration with the bound `B`, and leaves the size
at the block side. -/
theorem parentBody_small (p : Params F) (ray : Ray F) (m : Int) (hm : m ≤ p.oct.blockSide)
    (s : ParentState F) (w : World) (hs : s.allocation_size = p.oct.blockSide) :
    parentBody p ray m s w = parentBody p ray p.oct.blockSide s w
      ∧ (parentBody p ray p.oct.blockSide s w).2.1.allocation_size = p.oct.blockSide := by
  unfold parentBody
  rw [doubleParentSize_small p ray m s (by omega),
    doubleParentSize_small p ray p.oct.blockSide s (by omega)]
  refine ⟨rfl, ?_⟩
  simp only []
  cases hv : (visitParentCell p s w).1 with
  | ok =>
    show (advance s.toRayState).allocation_size = _
    rw [(advance_size s.toRayState).1]; exact hs
  | fuel => exact hs
  | fault => exact hs

omit [DecidableEq F] in
/-- The ray loop of the parent allocator with a bound `m ≤ B` is the loop with
the bound `B`. -/
theorem parent_loop_small (p : Params F) (ray : Ray F) (m : Int) (hm : m ≤ p.oct.blockSide) :
    ∀ (fuel : Nat) (s : ParentState F) (w : World), s.allocation_size = p.oct.blockSide →
      doWhile (parentBody p ray m) (fun s => rayCond ray s.toRayState) fuel s w =
        doWhile (parentBody p ray p.oct.blockSide) (fun s => rayCond ray s.toRayState)
          fuel s w := by
  intro fuel
  induction fuel with
  | zero => intro s w _; rfl
  | succ n ih =>
    intro s w hs
    have hb := parentBody_small p ray m hm s w hs
    unfold doWhile
    rw [hb.1]
    rcases hr : parentBody p ray p.oct.blockSide s w with ⟨st, s1, w1⟩
    have h1 : s1.allocation_size = p.oct.blockSide := by
      have := hb.2; rw [hr] at this; exact this
    cases st with
    | ok => simp only []; rw [ih s1 w1 h1]
    | fuel => rfl
    | fault => rfl

/-- C18: a `min_allocation_size` (for `buildOctantList` and
`buildParentOctantList`) or `max_allocation_size` (for
`buildDenseOctantList`) of at most the block side gives the same run, hence
the same keys, stores, counters and activations, as the block side itself. -/
theorem clamp_to_block_side (fuel : Nat) (p : Params F)
    (reproject : Image → Vec3 Int → Int → Bool) (m : Int) (hm : m ≤ p.oct.blockSide) :
    buildOctantList fuel p m = buildOctantList fuel p p.oct.blockSide ∧
      buildParentOctantList fuel p m = buildParentOctantList fuel p p.oct.blockSide ∧
      buildDenseOctantList fuel p reproject m =
        buildDenseOctantList fuel p reproject p.oct.blockSide := by
  have hc : clampSize m p.oct.blockSide = clampSize p.oct.blockSide p.oct.blockSide := by
    unfold clampSize
    rw [if_neg (by omega), if_neg (by omega)]
  refine ⟨?_, ?_, ?_⟩
  · unfold buildOctantList
    rw [hc]
  · unfold buildParentOctantList
    have : traverseParentRay fuel p m = traverseParentRay fuel p p.oct.blockSide := by
      funext x y depth w
      unfold traverseParentRay
      exact parent_loop_small p (p.ray x y depth) m hm fuel _ w (by simp [initParentRay])
    rw [this]
  · unfold buildDenseOctantList
    rw [hc]

/-- Witness of C18: the scene of `sceneParams` with the parameter `3`. -/
theorem clamp_to_block_side_witness :
    buildOctantList 50 sceneParams 3 = buildOctantList 50 sceneParams sceneParams.oct.blockSide ∧
      buildParentOctantList 50 sceneParams 3 =
        buildParentOctantList 50 sceneParams sceneParams.oct.blockSide ∧
      buildDenseOctantList 50 sceneParams acceptAll 3 =
        buildDenseOctantList 50 sceneParams acceptAll sceneParams.oct.blockSide :=
  clamp_to_block_side 50 sceneParams acceptAll 3 (by decide)

end Clamping

section DenseLists

variable {F : Type} [Add F] [Sub F] [Mul F] [Div F] [IntCast F] [LT F]
  [∀ a b : F, Decidable (a < b)] [DecidableEq F] [FloatOps F]

omit [DecidableEq F] [Add F] [Sub F] [Mul F] [Div F] [FloatOps F] in
/-- C19: in `buildDenseOctantList` a step with travelled distance `t` that
produces a key `k` ends normally and changes the counters and the log as
follows.  When `t > 2 * doubling_ratio * B`: if `frustum_count` is within the
reservation, `k` is written to the frustum list at index `frustum_count`
and `frustum_count` is incremented, `allocation_count` is unchanged and
nothing is written to the allocation list; if the frustum list is full,
both counters are unchanged and nothing is written to either list.
Otherwise: the same with the roles of the two lists exchanged.  So a key is
appended to exactly the list chosen by `t`, never to both, and a full
frustum list never sends a key to the allocation list. -/
theorem dense_list_choice (fuel : Nat) (p : Params F) (reproject : Vec3 Int → Int → Bool)
    (s : DenseState F) (w : World) (a : Adapted)
    (hb : inBounds p.oct.size s.curr_node = true)
    (ha : adaptLoop reproject p.oct.blockSide s.curr_max_allocation_size s.curr_node fuel
      s.curr_allocation_size s.curr_allocation_level false = some a)
    (hf : p.oct.fetch_octant a.node.x a.node.y a.node.z a.level = none) :
    (visitDenseCell fuel p reproject s w).1 = Status.ok ∧
      (visitDenseCell fuel p reproject s w).2.2 =
        (if ((2 * p.doubling_ratio * p.oct.blockSide : Int) : F) < s.travelled then
          if w.frustum_count ≤ p.reserved_keys then
            { allocation_count := w.allocation_count
              frustum_count := incr w.frustum_count
              log := w.log ++ [Event.fetch a.node.x a.node.y a.node.z a.level,
                Event.hash ⟨a.node.x, a.node.y, a.node.z, min a.level p.oct.leaves_level⟩,
                Event.store Buffer.frustum_list w.frustum_count
                  ⟨a.node.x, a.node.y, a.node.z, min a.level p.oct.leaves_level⟩] }
          else
            { allocation_count := w.allocation_count
              frustum_count := w.frustum_count
              log := w.log ++ [Event.fetch a.node.x a.node.y a.node.z a.level,
                Event.hash ⟨a.node.x, a.node.y, a.node.z, min a.level p.oct.leaves_level⟩] }
        else
          if w.allocation_count ≤ p.reserved_keys then
            { allocation_count := incr w.allocation_count
              frustum_count := w.frustum_count
              log := w.log ++ [Event.fetch a.node.x a.node.y a.node.z a.level,
                Event.hash ⟨a.node.x, a.node.y, a.node.z, min a.level p.oct.leaves_level⟩,
                Event.store Buffer.allocation_list w.allocation_count
                  ⟨a.node.x, a.node.y, a.node.z, min a.level p.oct.leaves_level⟩] }
          else
            { allocation_count := w.allocation_count
              frustum_count := w.frustum_count
              log := w.log ++ [Event.fetch a.node.x a.node.y a.node.z a.level,
                Event.hash ⟨a.node.x, a.node.y, a.node.z, min a.level p.oct.leaves_level⟩] }) := by
  unfold visitDenseCell
  simp only [hb, if_true, ha, hf, emitDense, World.record]
  refine ⟨trivial, ?_⟩
  by_cases hfar : ((2 * p.doubling_ratio * p.oct.blockSide : Int) : F) < s.travelled
  · by_cases hc : w.frustum_count ≤ p.reserved_keys <;> simp [hfar, hc]
  · by_cases hc : w.allocation_count ≤ p.reserved_keys <;> simp [hfar, hc]

/-- Witness of C19 in the scene of `sceneParams` (reservation 2): the first
step of the ray appends to the allocation list; the step at 21 voxels
appends to the frustum list and leaves the allocation counter alone; the
same step with a full frustum list (counter 3) and an allocation list with
room (counter 1) writes to neither list; and `farState` is the state of the
run after two iterations. -/
theorem dense_list_choice_witness :
    (visitDenseCell 50 sceneParams (rejectAll ⟨0, 0, []⟩) (initDenseRay sceneParams sceneRay)
        ⟨0, 0, []⟩).2.2 =
      ⟨1, 0, [Event.fetch 0 0 0 3, Event.hash ⟨0, 0, 0, 3⟩,
        Event.store Buffer.allocation_list 0 ⟨0, 0, 0, 3⟩]⟩ ∧
    (visitDenseCell 50 sceneParams (rejectAll ⟨0, 0, []⟩) farState ⟨1, 1, []⟩).2.2 =
      ⟨1, 2, [Event.fetch 8 8 8 3, Event.hash ⟨8, 8, 8, 3⟩,
        Event.store Buffer.frustum_list 1 ⟨8, 8, 8, 3⟩]⟩ ∧
    (visitDenseCell 50 sceneParams (rejectAll ⟨0, 0, []⟩) farState ⟨1, 3, []⟩).2.2 =
      ⟨1, 3, [Event.fetch 8 8 8 3, Event.hash ⟨8, 8, 8, 3⟩]⟩ ∧
    (∃ s ∈ doWhileStates
        (denseBody 50 sceneParams (rejectAll ⟨0, 0, []⟩) sceneRay
          (clampSize 16 sceneParams.oct.blockSide))
        (denseCond sceneRay) 50 (initDenseRay sceneParams sceneRay) ⟨0, 0, []⟩,
        s.curr_allocation_size = farState.curr_allocation_size ∧
        s.curr_allocation_level = farState.curr_allocation_level ∧
        s.curr_max_allocation_size = farState.curr_max_allocation_size ∧
        s.curr_node.x = farState.curr_node.x ∧ s.curr_node.y = farState.curr_node.y ∧
        s.curr_node.z = farState.curr_node.z ∧ s.last_move = farState.last_move ∧
        s.travelled = farState.travelled) :=
  ⟨(dense_list_choice 50 sceneParams (rejectAll ⟨0, 0, []⟩) (initDenseRay sceneParams sceneRay)
      ⟨0, 0, []⟩ ⟨8, 3, ⟨0, 0, 0⟩⟩ (by decide!) (by decide!) (by decide!)).2.trans (by decide!),
    (dense_list_choice 50 sceneParams (rejectAll ⟨0, 0, []⟩) farState
      ⟨1, 1, []⟩ ⟨8, 3, ⟨8, 8, 8⟩⟩ (by decide!) (by decide!) (by decide!)).2.trans (by decide!),
    (dense_list_choice 50 sceneParams (rejectAll ⟨0, 0, []⟩) farState
      ⟨1, 3, []⟩ ⟨8, 3, ⟨8, 8, 8⟩⟩ (by decide!) (by decide!) (by decide!)).2.trans (by decide!),
    by decide!⟩

/-- C16 fails on the code: in the scene of `sceneParams` with
`max_allocation_size = 16` and a reprojection test that rejects every node,
`curr_max_allocation_size` reaches 32; with a test that accepts the nodes
above `z = 16` the run ends normally and produces the key `(0, 0, 0)` of
level 1, of side `2^(6 − 1) = 32 > 16`. -/
theorem ceiling_exceeds_maximum :
    (∃ s ∈ doWhileStates
        (denseBody 50 sceneParams (rejectAll ⟨0, 0, []⟩) sceneRay
          (clampSize 16 sceneParams.oct.blockSide))
        (denseCond sceneRay) 50 (initDenseRay sceneParams sceneRay) ⟨0, 0, []⟩,
        16 < s.curr_max_allocation_size ∧ s.curr_allocation_size = 8) ∧
      (buildDenseOctantList 50 sceneParams acceptAbove 16).status = Status.ok ∧
      (⟨0, 0, 0, 1⟩ : Key) ∈ hashKeys (buildDenseOctantList 50 sceneParams acceptAbove 16).world.log ∧
      sceneParams.oct.max_level = 6 := by
  decide!

end DenseLists

section Siblings

variable {F : Type} [Add F] [Sub F] [Mul F] [Div F] [IntCast F] [LT F]
  [∀ a b : F, Decidable (a < b)] [DecidableEq F] [FloatOps F]

/-- The activation loop over the children `l` of `q`, all of them allocated:
it ends normally, keeps the log and records the activation of each child. -/
theorem activate_fold (oct : Octree) (q : Key) (l : List Nat) (acc : Status × World)
    (hacc : acc.1 = Status.ok) (hc : ∀ i ∈ l, (oct.child q i).isSome = true) :
    (l.foldl
        (fun (acc : Status × World) i =>
          match acc.1 with
          | Status.ok =>
            match oct.child q i with
            | none => (Status.fault, acc.2)
            | some c => (Status.ok, acc.2.record (Event.activate c))
          | _ => acc) acc).1 = Status.ok ∧
      (∀ e ∈ acc.2.log, e ∈ (l.foldl
        (fun (acc : Status × World) i =>
          match acc.1 with
          | Status.ok =>
            match oct.child q i with
            | none => (Status.fault, acc.2)
            | some c => (Status.ok, acc.2.record (Event.activate c))
          | _ => acc) acc).2.log) ∧
      ∀ i ∈ l, ∀ c, oct.child q i = some c → Event.activate c ∈ (l.foldl
        (fun (acc : Status × World) i =>
          match acc.1 with
          | Status.ok =>
            match oct.child q i with
            | none => (Status.fault, acc.2)
            | some c => (Status.ok, acc.2.record (Event.activate c))
          | _ => acc) acc).2.log := by
  induction l generalizing acc with
  | nil => simp [hacc]
  | cons a l ih =>
    rw [List.foldl_cons]
    obtain ⟨c, hca⟩ := Option.isSome_iff_exists.1 (hc a (List.mem_cons_self _ _))
    obtain ⟨st, w⟩ := acc
    simp only at hacc
    subst hacc
    simp only [hca]
    obtain ⟨h1, h2, h3⟩ := ih (Status.ok, w.record (Event.activate c)) rfl
      (fun i hi => hc i (List.mem_cons_of_mem _ hi))
    refine ⟨h1, fun e he => h2 e (by simp [World.record, he]), ?_⟩
    intro i hi c' hc'
    rcases List.mem_cons.1 hi with rfl | hi
    · rw [hca] at hc'
      cases hc'
      exact h2 _ (by simp [World.record])
    · exact h3 i hi c' hc'

/-- C20 fails on the code: in a map where only the root and the single leaf
block at the origin are allocated, the first cell of the ray is returned by
`fetch_octant` at the leaf level, the second child slot of its parent is
empty, and the step (and with it the run of `buildParentOctantList`) ends in
the dereference of that null child instead of leaving eight active
blocks. -/
theorem sibling_activation_counterexample :
    inBounds singleBlockParams.oct.size (initParentRay singleBlockParams sceneRay).curr_node
        = true ∧
      singleBlockParams.oct.fetch_octant
          (initParentRay singleBlockParams sceneRay).curr_node.x
          (initParentRay singleBlockParams sceneRay).curr_node.y
          (initParentRay singleBlockParams sceneRay).curr_node.z
          (initParentRay singleBlockParams sceneRay).allocation_level = some ⟨0, 0, 0, 1⟩ ∧
      (initParentRay singleBlockParams sceneRay).allocation_level
        ≥ singleBlockParams.oct.leaves_level ∧
      singleBlockParams.oct.parent ⟨0, 0, 0, 1⟩ = some ⟨0, 0, 0, 0⟩ ∧
      singleBlockParams.oct.child ⟨0, 0, 0, 0⟩ 1 = none ∧
      (visitParentCell singleBlockParams (initParentRay singleBlockParams sceneRay)
        ⟨0, 0, []⟩).1 = Status.fault ∧
      (buildParentOctantList 50 singleBlockParams 8).status = Status.fault := by
  decide!

omit [DecidableEq F] in
/-- When the walked in-bounds cell is returned by `fetch_octant` with
`allocation_level ≥ L_leaf`, the node has a parent and the eight child slots
of that parent are all allocated, the step of `buildParentOctantList` ends
normally and has called `active(true)` on each of the eight children. -/
theorem sibling_step_full (p : Params F) (ray : Ray F) (m : Int) (s : ParentState F)
    (w : World) (node q : Key)
    (hb : inBounds p.oct.size s.curr_node = true)
    (hf : p.oct.fetch_octant s.curr_node.x s.curr_node.y s.curr_node.z s.allocation_level
      = some node)
    (hl : s.allocation_level ≥ p.oct.leaves_level)
    (hp : p.oct.parent node = some q)
    (hc : ∀ i, i < 8 → (p.oct.child q i).isSome = true) :
    (parentBody p ray m s w).1 = Status.ok ∧
      (parentBody p ray m s w).2.2 = (visitParentCell p s w).2 ∧
      ∀ i, i < 8 → ∀ c, p.oct.child q i = some c →
        Event.activate c ∈ (visitParentCell p s w).2.log := by
  have hv : visitParentCell p s w = activateSiblings p.oct node
      (w.record (Event.fetch s.curr_node.x s.curr_node.y s.curr_node.z s.allocation_level)) := by
    unfold visitParentCell
    simp only [hb, if_true, hf, hl]
  have hact := activate_fold p.oct q (List.range 8)
    (Status.ok, w.record (Event.fetch s.curr_node.x s.curr_node.y s.curr_node.z
      s.allocation_level)) rfl (fun i hi => hc i (List.mem_range.1 hi))
  have hv1 : (visitParentCell p s w).1 = Status.ok := by
    rw [hv]; unfold activateSiblings; simp only [hp]; exact hact.1
  refine ⟨?_, ?_, ?_⟩
  · unfold parentBody
    simp only [hv1]
  · unfold parentBody
    simp only [hv1]
  · intro i hi c hci
    rw [hv]; unfold activateSiblings; simp only [hp]
    exact hact.2.2 i (List.mem_range.2 hi) c hci

/-- The step of `buildParentOctantList` in the map in which the root and its
eight blocks are allocated. -/
theorem sibling_step_full_example :
    (parentBody fullBlockParams sceneRay 8 (initParentRay fullBlockParams sceneRay)
        ⟨0, 0, []⟩).1 = Status.ok ∧
      Event.activate ⟨8, 8, 8, 1⟩ ∈
        (visitParentCell fullBlockParams (initParentRay fullBlockParams sceneRay)
          ⟨0, 0, []⟩).2.log :=
  have h := sibling_step_full fullBlockParams sceneRay 8
    (initParentRay fullBlockParams sceneRay) ⟨0, 0, []⟩ ⟨0, 0, 0, 1⟩ ⟨0, 0, 0, 0⟩
    (by decide!) (by decide!) (by decide!) (by decide!) (by decide!)
  ⟨h.1, h.2.2 7 (by decide) ⟨8, 8, 8, 1⟩ (by decide!)⟩

end Siblings

section Adaptation

/-- On exit of the adaptation loop the size is at most the block side or the
final cell passes the reprojection test at the final size. -/
theorem adaptLoop_exit (reproject : Vec3 Int → Int → Bool) (B curr_max : Int)
    (last_node : Vec3 Int) :
    ∀ (fuel : Nat) (size level : Int) (half : Bool) (a : Adapted),
      adaptLoop reproject B curr_max last_node fuel size level half = some a →
      a.size ≤ B ∨ reproject a.node a.size = true := by
  intro fuel
  induction fuel with
  | zero => intro size level half a h; simp [adaptLoop] at h
  | succ n ih =>
    intro size level half a h
    unfold adaptLoop at h
    simp only [] at h
    by_cases hr : reproject (alignI last_node size) size = false
    · simp only [hr, if_true] at h
      split at h
      · exact ih _ _ _ a h
      · injection h with h; subst h; left; show size ≤ B; omega
    · have hr' : reproject (alignI last_node size) size = true := by
        cases hx : reproject (alignI last_node size) size
        · exact absurd hx hr
        · rfl
      have hgrow : ∀ r : Option Adapted,
          r = (if 2 * size > curr_max ∨ half = true then
                some ⟨size, level, alignI last_node size⟩
              else if reproject (alignI last_node (2 * size)) (2 * size) = false then
                some ⟨size, level, alignI last_node size⟩
              else adaptLoop reproject B curr_max last_node n (2 * size) (level - 1) half) →
          r = some a → a.size ≤ B ∨ reproject a.node a.size = true := by
        intro r hr1 hra
        rw [hr1] at hra
        split at hra
        · injection hra with hra; subst hra; right; exact hr'
        · split at hra
          · injection hra with hra; subst hra; right; exact hr'
          · exact ih _ _ _ a hra
      simp only [hr, if_false] at h
      split at h
      · exact hgrow _ rfl h
      · exact hgrow _ rfl h

/-- After a halving the loop only halves: with enough fuel it ends, on a size
between the block side and the size it was entered with. -/
theorem adaptLoop_halved (reproject : Vec3 Int → Int → Bool) (B curr_max : Int)
    (last_node : Vec3 Int) (hB : 0 < B) :
    ∀ (j fuel : Nat) (level : Int), j + 1 ≤ fuel →
      ∃ a, adaptLoop reproject B curr_max last_node fuel (B * 2 ^ j) level true = some a
        ∧ B ≤ a.size ∧ a.size ≤ B * 2 ^ j := by
  intro j
  induction j with
  | zero =>
    intro fuel level hf
    obtain ⟨n, rfl⟩ : ∃ n, fuel = n + 1 := ⟨fuel - 1, by omega⟩
    unfold adaptLoop
    simp only [pow_zero, mul_one, gt_iff_lt, lt_irrefl, if_false, or_true, if_true]
    split
    · exact ⟨_, rfl, le_refl _, le_refl _⟩
    · exact ⟨_, rfl, le_refl _, le_refl _⟩
  | succ j ih =>
    intro fuel level hf
    obtain ⟨n, rfl⟩ : ∃ n, fuel = n + 1 := ⟨fuel - 1, by omega⟩
    have hpow : (0 : Int) < 2 ^ j := by positivity
    have hgt : B * 2 ^ (j + 1) > B := by
      rw [pow_succ]; nlinarith
    have hhalf : (B * 2 ^ (j + 1)).tdiv 2 = B * 2 ^ j := by
      rw [pow_succ, ← mul_assoc, Int.mul_tdiv_cancel _ (by norm_num)]
    unfold adaptLoop
    simp only [hgt, if_true, or_true, hhalf]
    split
    · obtain ⟨a, ha, h1, h2⟩ := ih n (level + 1) (by omega)
      exact ⟨a, ha, h1, by rw [pow_succ]; nlinarith⟩
    · exact ⟨_, rfl, le_of_lt hgt, le_refl _⟩

/-- Without a halving, from a size at which the cell passes the test, the loop
only doubles: with enough fuel it ends, on a size that is at least the size it
was entered with and at most the ceiling when that size was. -/
theorem adaptLoop_grown (reproject : Vec3 Int → Int → Bool) (B curr_max : Int)
    (last_node : Vec3 Int) :
    ∀ (k fuel : Nat) (size level : Int), 0 < size → (curr_max - size).toNat ≤ k →
      k + 1 ≤ fuel → reproject (alignI last_node size) size = true →
      ∃ a, adaptLoop reproject B curr_max last_node fuel size level false = some a
        ∧ size ≤ a.size ∧ (size ≤ curr_max → a.size ≤ curr_max) := by
  intro k
  induction k with
  | zero =>
    intro fuel size level hs hk hf hr
    obtain ⟨n, rfl⟩ : ∃ n, fuel = n + 1 := ⟨fuel - 1, by omega⟩
    have hstop : 2 * size > curr_max := by omega
    unfold adaptLoop
    simp only [hr, hstop, true_or, if_true, Bool.true_eq_false, if_false]
    split
    · exact ⟨_, rfl, le_refl _, fun h => h⟩
    · exact ⟨_, rfl, le_refl _, fun h => h⟩
  | succ k ih =>
    intro fuel size level hs hk hf hr
    obtain ⟨n, rfl⟩ : ∃ n, fuel = n + 1 := ⟨fuel - 1, by omega⟩
    have hgrow : ∃ a,
        (if 2 * size > curr_max ∨ false = true then
            some (⟨size, level, alignI last_node size⟩ : Adapted)
          else if reproject (alignI last_node (2 * size)) (2 * size) = false then
            some ⟨size, level, alignI last_node size⟩
          else adaptLoop reproject B curr_max last_node n (2 * size) (level - 1) false)
          = some a ∧ size ≤ a.size ∧ (size ≤ curr_max → a.size ≤ curr_max) := by
      by_cases hstop : 2 * size > curr_max
      · simp only [hstop, true_or, if_true]
        exact ⟨_, rfl, le_refl _, fun h => h⟩
      · simp only [hstop, Bool.false_eq_true, or_self, if_false]
        by_cases ht : reproject (alignI last_node (2 * size)) (2 * size) = false
        · simp only [ht, if_true]
          exact ⟨_, rfl, le_refl _, fun h => h⟩
        · have ht' : reproject (alignI last_node (2 * size)) (2 * size) = true := by
            cases hx : reproject (alignI last_node (2 * size)) (2 * size)
            · exact absurd hx ht
            · rfl
          simp only [ht', Bool.true_eq_false, if_false]
          obtain ⟨a, ha, h1, h2⟩ := ih n (2 * size) (level - 1) (by omega) (by omega)
            (by omega) ht'
          exact ⟨a, ha, by omega, fun _ => h2 (by omega)⟩
    unfold adaptLoop
    simp only [hr, Bool.true_eq_false, if_false]
    split
    · exact hgrow
    · exact hgrow

/-- A result of the adaptation loop is positive and at most the ceiling when
the size it was entered with was. -/
theorem adaptLoop_le_ceiling (reproject : Vec3 Int → Int → Bool) (B curr_max : Int)
    (last_node : Vec3 Int) (hB : 0 < B) :
    ∀ (fuel : Nat) (size level : Int) (half : Bool) (a : Adapted),
      0 < size → size ≤ curr_max →
      adaptLoop reproject B curr_max last_node fuel size level half = some a →
      0 < a.size ∧ a.size ≤ curr_max := by
  intro fuel
  induction fuel with
  | zero => intro size level half a _ _ h; simp [adaptLoop] at h
  | succ n ih =>
    intro size level half a hs hc h
    have hgrow : ∀ r : Option Adapted,
        r = (if 2 * size > curr_max ∨ half = true then
              some ⟨size, level, alignI last_node size⟩
            else if reproject (alignI last_node (2 * size)) (2 * size) = false then
              some ⟨size, level, alignI last_node size⟩
            else adaptLoop reproject B curr_max last_node n (2 * size) (level - 1) half) →
        r = some a → 0 < a.size ∧ a.size ≤ curr_max := by
      intro r hr hra
      rw [hr] at hra
      split at hra
      · injection hra with hra; subst hra; exact ⟨hs, hc⟩
      · rename_i hno
        split at hra
        · injection hra with hra; subst hra; exact ⟨hs, hc⟩
        · exact ih _ _ _ a (by omega) (by omega) hra
    unfold adaptLoop at h
    simp only [] at h
    split at h
    · rename_i hgt
      split at h
      · have h2 : 0 < size.tdiv 2 ∧ size.tdiv 2 ≤ size := by
          rw [Int.tdiv_eq_ediv (by omega) (by norm_num)]
          omega
        exact ih _ _ _ a h2.1 (by omega) h
      · exact hgrow _ rfl h
    · split at h
      · injection h with h; subst h; exact ⟨hs, hc⟩
      · exact hgrow _ rfl h

end Adaptation

section DenseSteps

variable {F : Type} [Add F] [Sub F] [Mul F] [Div F] [IntCast F] [LT F]
  [∀ a b : F, Decidable (a < b)] [DecidableEq F] [FloatOps F]

omit [DecidableEq F] [Add F] [Sub F] [Mul F] [Div F] [FloatOps F] in
/-- The per-cell action of `buildDenseOctantList` spelled out: nothing happens
outside the map or without fuel; otherwise the state takes the result `a` of the
adaptation loop and the log grows by the fetch of `a`, followed by the key of
`a` and stores when the fetch finds nothing, by the activation of the node
found otherwise. -/
theorem visitDenseCell_shape (fuel : Nat) (p : Params F) (reproject : Vec3 Int → Int → Bool)
    (s : DenseState F) (w : World) :
    ((visitDenseCell fuel p reproject s w).2.1 = s
        ∧ (visitDenseCell fuel p reproject s w).2.2 = w) ∨
      ∃ a, inBounds p.oct.size s.curr_node = true ∧
        adaptLoop reproject p.oct.blockSide s.curr_max_allocation_size s.curr_node fuel
          s.curr_allocation_size s.curr_allocation_level false = some a ∧
        (visitDenseCell fuel p reproject s w).2.1 =
          { s with curr_allocation_size := a.size, curr_allocation_level := a.level,
                   curr_node := a.node } ∧
        ((p.oct.fetch_octant a.node.x a.node.y a.node.z a.level = none ∧
            ∃ tl, (∀ e ∈ tl, ∃ b i, e = Event.store b i
                ⟨a.node.x, a.node.y, a.node.z, min a.level p.oct.leaves_level⟩) ∧
              (visitDenseCell fuel p reproject s w).2.2.log =
                w.log ++ Event.fetch a.node.x a.node.y a.node.z a.level ::
                  Event.hash ⟨a.node.x, a.node.y, a.node.z, min a.level p.oct.leaves_level⟩
                  :: tl) ∨
          ∃ node, p.oct.fetch_octant a.node.x a.node.y a.node.z a.level = some node ∧
            (visitDenseCell fuel p reproject s w).2.2.log =
              w.log ++ [Event.fetch a.node.x a.node.y a.node.z a.level, Event.activate node]) := by
  unfold visitDenseCell
  by_cases hb : inBounds p.oct.size s.curr_node = true
  · simp only [hb, if_true]
    cases ha : adaptLoop reproject p.oct.blockSide s.curr_max_allocation_size s.curr_node fuel
        s.curr_allocation_size s.curr_allocation_level false with
    | none => exact Or.inl ⟨rfl, rfl⟩
    | some a =>
      right
      refine ⟨a, trivial, rfl, ?_⟩
      simp only []
      cases hf : p.oct.fetch_octant a.node.x a.node.y a.node.z a.level with
      | none =>
        refine ⟨rfl, Or.inl ⟨rfl, ?_⟩⟩
        simp only [emitDense, World.record]
        split
        · split
          · exact ⟨[Event.store Buffer.frustum_list w.frustum_count
              ⟨a.node.x, a.node.y, a.node.z, min a.level p.oct.leaves_level⟩],
              by simp, by simp⟩
          · exact ⟨[], by simp, by simp⟩
        · split
          · exact ⟨[Event.store Buffer.allocation_list w.allocation_count
              ⟨a.node.x, a.node.y, a.node.z, min a.level p.oct.leaves_level⟩],
              by simp, by simp⟩
          · exact ⟨[], by simp, by simp⟩
      | some node =>
        exact ⟨rfl, Or.inr ⟨node, rfl, by simp [World.record]⟩⟩
  · simp only [hb]
    exact Or.inl ⟨rfl, rfl⟩

omit [DecidableEq F] in
/-- The stepping phase of the dense allocator leaves the sizes, the level and
the ceiling alone. -/
theorem denseAdvance_sizes (p : Params F) (ray : Ray F) (s : DenseState F) :
    (denseAdvance p ray s).curr_allocation_size = s.curr_allocation_size
      ∧ (denseAdvance p ray s).curr_allocation_level = s.curr_allocation_level
      ∧ (denseAdvance p ray s).curr_max_allocation_size = s.curr_max_allocation_size := by
  unfold denseAdvance
  simp only []
  split <;> split <;> exact ⟨rfl, rfl, rfl⟩

omit [DecidableEq F] in
/-- One iteration of the dense ray loop keeps the size positive and at most
the ceiling. -/
theorem denseBody_CeilInv (fuel : Nat) (p : Params F) (reproject : Vec3 Int → Int → Bool)
    (ray : Ray F) (M : Int) (hB : 0 < p.oct.blockSide) (s : DenseState F) (w : World)
    (h : CeilInv p.oct s) : CeilInv p.oct (denseBody fuel p reproject ray M s w).2.1 := by
  obtain ⟨hinv, hpos, hle⟩ := h
  have hd := (denseBody_inv fuel p reproject ray M s w hinv).1
  refine ⟨hd, ?_⟩
  have hv : 0 < (visitDenseCell fuel p reproject s w).2.1.curr_allocation_size
      ∧ (visitDenseCell fuel p reproject s w).2.1.curr_allocation_size
        ≤ (visitDenseCell fuel p reproject s w).2.1.curr_max_allocation_size := by
    rcases visitDenseCell_shape fuel p reproject s w with ⟨h1, _⟩ | ⟨a, _, ha, h1, _⟩
    · rw [h1]; exact ⟨hpos, hle⟩
    · rw [h1]
      exact adaptLoop_le_ceiling reproject _ _ _ hB fuel _ _ _ a hpos hle ha
  unfold denseBody
  simp only []
  cases hst : (visitDenseCell fuel p reproject s w).1 with
  | ok =>
    simp only []
    obtain ⟨e1, _, e3⟩ := denseAdvance_sizes p ray
      (growMax p M (visitDenseCell fuel p reproject s w).2.1)
    rw [e1, e3]
    unfold growMax
    split
    · simp only []
      omega
    · exact hv
  | fuel => exact hv
  | fault => exact hv

omit [DecidableEq F] in
/-- The world after an iteration of the dense ray loop is the world after its
per-cell action. -/
theorem denseBody_world (fuel : Nat) (p : Params F) (reproject : Vec3 Int → Int → Bool)
    (ray : Ray F) (M : Int) (s : DenseState F) (w : World) :
    (denseBody fuel p reproject ray M s w).2.2 = (visitDenseCell fuel p reproject s w).2.2 := by
  unfold denseBody
  simp only []
  cases (visitDenseCell fuel p reproject s w).1 <;> rfl

/-- A property of events that holds of every event added by the per-cell
action holds of every event of a run of `buildDenseOctantList`. -/
theorem buildDenseOctantList_events (fuel : Nat) (p : Params F)
    (reproject : Image → Vec3 Int → Int → Bool) (M : Int) (mask : Image)
    (hmask : depth_mask p.depthmap p.image_size 4 = some mask) (Q : Event → Prop)
    (hstep : ∀ (s : DenseState F) (w : World), DenseInv p.oct s →
      ∀ e ∈ (visitDenseCell fuel p (reproject mask) s w).2.2.log, e ∈ w.log ∨ Q e) :
    ∀ e ∈ (buildDenseOctantList fuel p reproject M).world.log, Q e := by
  unfold buildDenseOctantList
  simp only [hmask]
  refine forPixels_preserves p 2 _ (fun w => ∀ e ∈ w.log, Q e) ?_ _ (by simp)
  intro x y d w hw
  unfold traverseDenseRay
  refine doWhile_preserves _ _ (fun s w => DenseInv p.oct s ∧ ∀ e ∈ w.log, Q e)
    _ ?_ (fun _ _ h => h.2) fuel _ w ⟨initDenseRay_DenseInv p _, hw⟩
  intro s w h
  refine ⟨(denseBody_inv fuel p _ (p.ray x y d) _ s w h.1).1, ?_⟩
  rw [denseBody_world]
  intro e he
  rcases hstep s w h.1 e he with h1 | h1
  · exact h.2 e h1
  · exact h1

/-- The keys of a log are the arguments of its `hash` events. -/
theorem mem_hashKeys (log : List Event) (k : Key) : k ∈ hashKeys log ↔ Event.hash k ∈ log := by
  unfold hashKeys
  rw [List.mem_filterMap]
  constructor
  · rintro ⟨e, he, hk⟩
    cases e <;> simp at hk
    subst hk
    exact he
  · intro h
    exact ⟨_, h, rfl⟩

/-- C22: in `buildDenseOctantList`, whatever the reprojection predicate, when
the adaptation loop exits the size is `B` or the final cell passes the
reprojection test at the final size; hence every key of a run whose side
exceeds `B` names a node that passes the test.  Keys of side `B` are produced
whether or not they pass: the scene of `sceneParams` with a test that rejects
everything produces the key `(0, 0, 0)` of level 3. -/
theorem exit_passes_reprojection (fuel : Nat) (p : Params F)
    (reproject : Image → Vec3 Int → Int → Bool) (M : Int) (hB : 0 < p.oct.blockSide) :
    (∀ (r : Vec3 Int → Int → Bool) (s : DenseState F) (a : Adapted), DenseInv p.oct s →
        adaptLoop r p.oct.blockSide s.curr_max_allocation_size s.curr_node fuel
          s.curr_allocation_size s.curr_allocation_level false = some a →
        a.size = p.oct.blockSide ∨ r a.node a.size = true) ∧
      (∀ (mask : Image) (k : Key), depth_mask p.depthmap p.image_size 4 = some mask →
        k ∈ hashKeys (buildDenseOctantList fuel p reproject M).world.log →
        p.oct.blockSide < p.oct.sideAt k.level →
        reproject mask ⟨k.x, k.y, k.z⟩ (p.oct.sideAt k.level) = true) ∧
      ((⟨0, 0, 0, 3⟩ : Key) ∈ hashKeys (buildDenseOctantList 50 sceneParams rejectAll 16).world.log
        ∧ sceneParams.oct.sideAt 3 = sceneParams.oct.blockSide) := by
  have hexit : ∀ (r : Vec3 Int → Int → Bool) (s : DenseState F) (a : Adapted),
      DenseInv p.oct s →
      adaptLoop r p.oct.blockSide s.curr_max_allocation_size s.curr_node fuel
        s.curr_allocation_size s.curr_allocation_level false = some a →
      a.level ≤ p.oct.leaves_level ∧ a.size = p.oct.sideAt a.level ∧
        (a.size = p.oct.blockSide ∨ r a.node a.size = true) := by
    intro r s a hs ha
    obtain ⟨hl, hsz, _⟩ := adaptLoop_inv p.oct r _ _ fuel _ _ _ a hs.1 hs.2 ha
    refine ⟨hl, hsz, ?_⟩
    rcases adaptLoop_exit r _ _ _ fuel _ _ _ a ha with h1 | h1
    · left
      have hge : p.oct.blockSide ≤ a.size := by
        rw [hsz]
        unfold Octree.sideAt
        exact le_mul_of_one_le_right (le_of_lt hB) (one_le_pow₀ (by norm_num))
      omega
    · exact Or.inr h1
  refine ⟨fun r s a hs ha => (hexit r s a hs ha).2.2, ?_, by decide!⟩
  intro mask k hmask hk hside
  rw [mem_hashKeys] at hk
  have := buildDenseOctantList_events fuel p reproject M mask hmask
    (fun e => ∀ k, e = Event.hash k → p.oct.blockSide < p.oct.sideAt k.level →
      reproject mask ⟨k.x, k.y, k.z⟩ (p.oct.sideAt k.level) = true) ?_ _ hk k rfl hside
  · exact this
  · intro s w hs e he
    rcases visitDenseCell_shape fuel p (reproject mask) s w with ⟨_, h1⟩ | ⟨a, _, ha, _, h1⟩
    · rw [h1] at he; exact Or.inl he
    · obtain ⟨hl, hsz, hpass⟩ := hexit (reproject mask) s a hs ha
      have hmin : min a.level p.oct.leaves_level = a.level := min_eq_left hl
      rcases h1 with ⟨_, tl, htl, hlog⟩ | ⟨node, _, hlog⟩
      · rw [hlog, hmin] at he
        rw [hmin] at htl
        simp only [List.mem_append, List.mem_cons] at he
        rcases he with he | he | he | he
        · exact Or.inl he
        · right; intro k hk; rw [he] at hk; cases hk
        · right
          intro k hk hlt
          rw [he] at hk
          injection hk with hk
          subst hk
          simp only [] at hlt ⊢
          rw [← hsz] at hlt ⊢
          rcases hpass with h2 | h2
          · omega
          · exact h2
        · right; intro k hk
          obtain ⟨b, i, hbi⟩ := htl e he
          rw [hbi] at hk; cases hk
      · rw [hlog] at he
        simp only [List.mem_append, List.mem_cons, List.mem_singleton, List.not_mem_nil,
          or_false] at he
        rcases he with he | he | he
        · exact Or.inl he
        · right; intro k hk; rw [he] at hk; cases hk
        · right; intro k hk; rw [he] at hk; cases hk

/-- Witness of C22: with the test that accepts the nodes above `z = 16` the
key `(0, 0, 0)` of level 1 is produced, and the node passes the test. -/
theorem exit_passes_reprojection_witness :
    acceptAbove ⟨0, 0, []⟩ ⟨0, 0, 0⟩ (sceneParams.oct.sideAt 1) = true :=
  (exit_passes_reprojection 50 sceneParams acceptAbove 16 (by decide)).2.1 ⟨0, 0, []⟩
    ⟨0, 0, 0, 1⟩ rfl (by decide!) (by decide!)

omit [DecidableEq F] in
/-- C23: the adaptation loop of `buildDenseOctantList` ends for every
reprojection predicate, every entry size `B * 2^i` and every ceiling, on a size
of at least `B`.  When the entry size exceeds `B` and the entry cell fails the
test the loop halves and never doubles (twice the final size is at most the
entry size); otherwise it never halves, and the final size is at least the
entry size and at most the ceiling when the entry size was.  In every state
of the ray loop the entry size is `B * 2^i` and at most the ceiling. -/
theorem adaptation_terminates (p : Params F) (reproject : Vec3 Int → Int → Bool) (ray : Ray F)
    (M : Int) (hB : 0 < p.oct.blockSide) :
    (∀ (curr_max : Int) (last_node : Vec3 Int) (i : Nat) (level : Int) (fuel : Nat),
      i + curr_max.toNat + 2 ≤ fuel →
      ∃ a, adaptLoop reproject p.oct.blockSide curr_max last_node fuel
            (p.oct.blockSide * 2 ^ i) level false = some a ∧
        p.oct.blockSide ≤ a.size ∧
        (if p.oct.blockSide < p.oct.blockSide * 2 ^ i ∧
            reproject (alignI last_node (p.oct.blockSide * 2 ^ i)) (p.oct.blockSide * 2 ^ i)
              = false
          then 2 * a.size ≤ p.oct.blockSide * 2 ^ i
          else p.oct.blockSide * 2 ^ i ≤ a.size ∧
            (p.oct.blockSide * 2 ^ i ≤ curr_max → a.size ≤ curr_max))) ∧
      (∀ (fuel n : Nat) (w : World) (s : DenseState F),
        s ∈ initDenseRay p ray :: doWhileStates (denseBody fuel p reproject ray M)
          (denseCond ray) n (initDenseRay p ray) w →
        s.curr_allocation_size ≤ s.curr_max_allocation_size ∧
          ∃ i : Nat, s.curr_allocation_size = p.oct.blockSide * 2 ^ i) := by
  constructor
  · intro curr_max last_node i level fuel hf
    have hpow : (1 : Int) ≤ 2 ^ i := one_le_pow₀ (by norm_num)
    have hge : p.oct.blockSide ≤ p.oct.blockSide * 2 ^ i :=
      le_mul_of_one_le_right (le_of_lt hB) hpow
    by_cases hr : reproject (alignI last_node (p.oct.blockSide * 2 ^ i))
        (p.oct.blockSide * 2 ^ i) = false
    · by_cases hgt : p.oct.blockSide < p.oct.blockSide * 2 ^ i
      · obtain ⟨j, rfl⟩ : ∃ j, i = j + 1 := by
          cases i with
          | zero => simp at hgt
          | succ j => exact ⟨j, rfl⟩
        obtain ⟨n, rfl⟩ : ∃ n, fuel = n + 1 := ⟨fuel - 1, by omega⟩
        have hhalf : (p.oct.blockSide * 2 ^ (j + 1)).tdiv 2 = p.oct.blockSide * 2 ^ j := by
          rw [pow_succ, ← mul_assoc, Int.mul_tdiv_cancel _ (by norm_num)]
        obtain ⟨a, ha, h1, h2⟩ := adaptLoop_halved reproject p.oct.blockSide curr_max last_node
          hB j n (level + 1) (by omega)
        refine ⟨a, ?_, h1, ?_⟩
        · unfold adaptLoop
          simp only [gt_iff_lt, hgt, if_true, hr, hhalf]
          exact ha
        · rw [if_pos ⟨hgt, hr⟩, pow_succ]; linarith
      · obtain ⟨n, rfl⟩ : ∃ n, fuel = n + 1 := ⟨fuel - 1, by omega⟩
        refine ⟨⟨p.oct.blockSide * 2 ^ i, level, alignI last_node (p.oct.blockSide * 2 ^ i)⟩,
          ?_, hge, ?_⟩
        · unfold adaptLoop
          simp only [gt_iff_lt, hgt, if_false, hr, if_true]
        · rw [if_neg (fun h => hgt h.1)]
          exact ⟨le_refl _, fun h => h⟩
    · have hr' : reproject (alignI last_node (p.oct.blockSide * 2 ^ i))
          (p.oct.blockSide * 2 ^ i) = true := by
        cases hx : reproject (alignI last_node (p.oct.blockSide * 2 ^ i))
            (p.oct.blockSide * 2 ^ i)
        · exact absurd hx hr
        · rfl
      obtain ⟨a, ha, h1, h2⟩ := adaptLoop_grown reproject p.oct.blockSide curr_max last_node
        (curr_max - p.oct.blockSide * 2 ^ i).toNat fuel (p.oct.blockSide * 2 ^ i) level
        (by omega) (le_refl _) (by omega) hr'
      refine ⟨a, ha, by omega, ?_⟩
      rw [if_neg (fun h => hr h.2)]
      exact ⟨h1, h2⟩
  · intro fuel n w s hs
    have hinit : CeilInv p.oct (initDenseRay p ray) :=
      ⟨initDenseRay_DenseInv p ray, by simp [initDenseRay, hB], by simp [initDenseRay]⟩
    have hall : CeilInv p.oct s := by
      rcases List.mem_cons.1 hs with rfl | hs
      · exact hinit
      · exact doWhileStates_preserves _ _ (CeilInv p.oct)
          (fun s w h _ => denseBody_CeilInv fuel p reproject ray M hB s w h) n _ w hinit s hs
    exact ⟨hall.2.2, _, hall.1.2⟩

/-- Witness of C23: entry size 16 under the ceiling 32 at the cell
`(9, 16, 17)`, with the test that accepts the nodes above `z = 16`. -/
theorem adaptation_terminates_witness :
    ∃ a, adaptLoop (acceptAbove ⟨0, 0, []⟩) sceneParams.oct.blockSide 32 ⟨9, 16, 17⟩ 40
          (sceneParams.oct.blockSide * 2 ^ 1) 2 false = some a ∧
      sceneParams.oct.blockSide ≤ a.size ∧
      (if sceneParams.oct.blockSide < sceneParams.oct.blockSide * 2 ^ 1 ∧
          acceptAbove ⟨0, 0, []⟩ (alignI ⟨9, 16, 17⟩ (sceneParams.oct.blockSide * 2 ^ 1))
            (sceneParams.oct.blockSide * 2 ^ 1) = false
        then 2 * a.size ≤ sceneParams.oct.blockSide * 2 ^ 1
        else sceneParams.oct.blockSide * 2 ^ 1 ≤ a.size ∧
          (sceneParams.oct.blockSide * 2 ^ 1 ≤ 32 → a.size ≤ 32)) :=
  (adaptation_terminates sceneParams (acceptAbove ⟨0, 0, []⟩) sceneRay 16 (by decide)).1
    32 ⟨9, 16, 17⟩ 1 2 40 (by decide)

end DenseSteps

section Bounds

/-- The conversion to `int` of an integer value is that integer. -/
theorem toInt_rat_intCast (n : Int) : FloatOps.toInt ((n : Int) : ℚ) = n := by
  show (if (0 : ℚ) ≤ (n : ℚ) then ⌊(n : ℚ)⌋ else ⌈(n : ℚ)⌉) = n
  split <;> simp

/-- The conversion to `int` by truncation is monotone. -/
theorem toInt_rat_mono (v w : ℚ) (h : v ≤ w) : FloatOps.toInt v ≤ FloatOps.toInt w := by
  show (if (0 : ℚ) ≤ v then ⌊v⌋ else ⌈v⌉) ≤ (if (0 : ℚ) ≤ w then ⌊w⌋ else ⌈w⌉)
  by_cases hv : (0 : ℚ) ≤ v
  · have hw : (0 : ℚ) ≤ w := le_trans hv h
    rw [if_pos hv, if_pos hw]
    exact Int.floor_le_floor h
  · by_cases hw : (0 : ℚ) ≤ w
    · rw [if_neg hv, if_pos hw]
      have h1 : ⌈v⌉ ≤ 0 := Int.ceil_le.2 (by push_cast; linarith [not_le.1 hv])
      have h2 : (0 : Int) ≤ ⌊w⌋ := Int.floor_nonneg.2 hw
      omega
    · rw [if_neg hv, if_neg hw]
      exact Int.ceil_le_ceil h

/-- One iteration of the loop of `bounds` takes the running extremes
`m ≤ M` to `min m (trunc v)` and `max M (trunc v)`. -/
theorem bounds_step (m M : Int) (hmM : m ≤ M) (v : ℚ) :
    (if v < ((m : Int) : ℚ) then (FloatOps.toInt v, M)
      else if ((M : Int) : ℚ) < v then (m, FloatOps.toInt v) else (m, M))
      = (min m (FloatOps.toInt v), max M (FloatOps.toInt v)) := by
  by_cases h1 : v < ((m : Int) : ℚ)
  · have ha : FloatOps.toInt v ≤ m := by
      have := toInt_rat_mono v m (le_of_lt h1)
      rwa [toInt_rat_intCast] at this
    rw [if_pos h1, min_eq_right ha, max_eq_left (by omega)]
  · have hb : m ≤ FloatOps.toInt v := by
      have := toInt_rat_mono m v (not_lt.1 h1)
      rwa [toInt_rat_intCast] at this
    rw [if_neg h1, min_eq_left hb]
    by_cases h2 : ((M : Int) : ℚ) < v
    · have hc : M ≤ FloatOps.toInt v := by
        have := toInt_rat_mono M v (le_of_lt h2)
        rwa [toInt_rat_intCast] at this
      rw [if_pos h2, max_eq_right hc]
    · have hd : FloatOps.toInt v ≤ M := by
        have := toInt_rat_mono v M (not_lt.1 h2)
        rwa [toInt_rat_intCast] at this
      rw [if_neg h2, max_eq_left hd]

/-- The loop of `bounds` over the indices `l`, from running extremes `m ≤ M`:
the result is below `m` and every truncated value of `l`, above `M` and every
truncated value of `l`, and each component is attained. -/
theorem bounds_fold (val : Nat → ℚ) (l : List Nat) :
    ∀ (m M : Int), m ≤ M →
      (l.foldl (fun (mm : Int × Int) (i : Nat) =>
          if val i < ((mm.1 : Int) : ℚ) then (FloatOps.toInt (val i), mm.2)
          else if ((mm.2 : Int) : ℚ) < val i then (mm.1, FloatOps.toInt (val i))
          else mm) (m, M)).1 ≤ m ∧
      M ≤ (l.foldl (fun (mm : Int × Int) (i : Nat) =>
          if val i < ((mm.1 : Int) : ℚ) then (FloatOps.toInt (val i), mm.2)
          else if ((mm.2 : Int) : ℚ) < val i then (mm.1, FloatOps.toInt (val i))
          else mm) (m, M)).2 ∧
      (∀ i ∈ l, (l.foldl (fun (mm : Int × Int) (i : Nat) =>
          if val i < ((mm.1 : Int) : ℚ) then (FloatOps.toInt (val i), mm.2)
          else if ((mm.2 : Int) : ℚ) < val i then (mm.1, FloatOps.toInt (val i))
          else mm) (m, M)).1 ≤ FloatOps.toInt (val i) ∧
        FloatOps.toInt (val i) ≤ (l.foldl (fun (mm : Int × Int) (i : Nat) =>
          if val i < ((mm.1 : Int) : ℚ) then (FloatOps.toInt (val i), mm.2)
          else if ((mm.2 : Int) : ℚ) < val i then (mm.1, FloatOps.toInt (val i))
          else mm) (m, M)).2) ∧
      ((l.foldl (fun (mm : Int × Int) (i : Nat) =>
          if val i < ((mm.1 : Int) : ℚ) then (FloatOps.toInt (val i), mm.2)
          else if ((mm.2 : Int) : ℚ) < val i then (mm.1, FloatOps.toInt (val i))
          else mm) (m, M)).1 = m ∨
        ∃ i ∈ l, (l.foldl (fun (mm : Int × Int) (i : Nat) =>
          if val i < ((mm.1 : Int) : ℚ) then (FloatOps.toInt (val i), mm.2)
          else if ((mm.2 : Int) : ℚ) < val i then (mm.1, FloatOps.toInt (val i))
          else mm) (m, M)).1 = FloatOps.toInt (val i)) ∧
      ((l.foldl (fun (mm : Int × Int) (i : Nat) =>
          if val i < ((mm.1 : Int) : ℚ) then (FloatOps.toInt (val i), mm.2)
          else if ((mm.2 : Int) : ℚ) < val i then (mm.1, FloatOps.toInt (val i))
          else mm) (m, M)).2 = M ∨
        ∃ i ∈ l, (l.foldl (fun (mm : Int × Int) (i : Nat) =>
          if val i < ((mm.1 : Int) : ℚ) then (FloatOps.toInt (val i), mm.2)
          else if ((mm.2 : Int) : ℚ) < val i then (mm.1, FloatOps.toInt (val i))
          else mm) (m, M)).2 = FloatOps.toInt (val i)) := by
  induction l with
  | nil => intro m M _; simp
  | cons a l ih =>
    intro m M hmM
    rw [List.foldl_cons]
    have hstep : (if val a < (((m, M) : Int × Int).1 : ℚ) then
          (FloatOps.toInt (val a), ((m, M) : Int × Int).2)
        else if ((((m, M) : Int × Int).2 : Int) : ℚ) < val a then
          (((m, M) : Int × Int).1, FloatOps.toInt (val a))
        else (m, M)) = (min m (FloatOps.toInt (val a)), max M (FloatOps.toInt (val a))) :=
      bounds_step m M hmM (val a)
    rw [hstep]
    obtain ⟨h1, h2, h3, h4, h5⟩ := ih (min m (FloatOps.toInt (val a)))
      (max M (FloatOps.toInt (val a)))
      (le_trans (min_le_left _ _) (le_trans hmM (le_max_left _ _)))
    refine ⟨le_trans h1 (min_le_left _ _), le_trans (le_max_left _ _) h2, ?_, ?_, ?_⟩
    · intro i hi
      rcases List.mem_cons.1 hi with rfl | hi
      · exact ⟨le_trans h1 (min_le_right _ _), le_trans (le_max_right _ _) h2⟩
      · exact h3 i hi
    · rcases h4 with h4 | ⟨i, hi, h4⟩
      · rcases min_choice m (FloatOps.toInt (val a)) with hm | hm
        · left; rw [h4, hm]
        · right; exact ⟨a, List.mem_cons_self _ _, by rw [h4, hm]⟩
      · right; exact ⟨i, List.mem_cons_of_mem _ hi, h4⟩
    · rcases h5 with h5 | ⟨i, hi, h5⟩
      · rcases max_choice M (FloatOps.toInt (val a)) with hm | hm
        · left; rw [h5, hm]
        · right; exact ⟨a, List.mem_cons_self _ _, by rw [h5, hm]⟩
      · right; exact ⟨i, List.mem_cons_of_mem _ hi, h5⟩

/-- C26: in exact arithmetic `bounds` returns the least and the greatest of
the eight truncated values: the first component is below every `trunc(val[i])`
and equal to one of them, the second is above every `trunc(val[i])` and equal
to one of them; in particular `first ≤ second`. -/
theorem bounds_min_max (val : Nat → ℚ) :
    (∀ i, i < 8 → (bounds val).1 ≤ FloatOps.toInt (val i)) ∧
      (∃ i, i < 8 ∧ (bounds val).1 = FloatOps.toInt (val i)) ∧
      (∀ i, i < 8 → FloatOps.toInt (val i) ≤ (bounds val).2) ∧
      (∃ i, i < 8 ∧ (bounds val).2 = FloatOps.toInt (val i)) ∧
      (bounds val).1 ≤ (bounds val).2 := by
  obtain ⟨h1, h2, h3, h4, h5⟩ := bounds_fold val (List.range' 1 7) (FloatOps.toInt (val 0))
    (FloatOps.toInt (val 0)) (le_refl _)
  have hmem : ∀ i, i < 8 → i = 0 ∨ i ∈ List.range' 1 7 := by
    intro i hi
    rcases Nat.eq_zero_or_pos i with h | h
    · exact Or.inl h
    · right; rw [List.mem_range']; exact ⟨i - 1, by omega, by omega⟩
  have hlt : ∀ i ∈ List.range' 1 7, i < 8 := by
    intro i hi
    rw [List.mem_range'] at hi
    obtain ⟨k, hk, rfl⟩ := hi
    omega
  unfold bounds
  refine ⟨?_, ?_, ?_, ?_, le_trans h1 h2⟩
  · intro i hi
    rcases hmem i hi with rfl | hm
    · exact h1
    · exact (h3 i hm).1
  · rcases h4 with h4 | ⟨i, hi, h4⟩
    · exact ⟨0, by decide, h4⟩
    · exact ⟨i, hlt i hi, h4⟩
  · intro i hi
    rcases hmem i hi with rfl | hm
    · exact h2
    · exact (h3 i hm).2
  · rcases h5 with h5 | ⟨i, hi, h5⟩
    · exact ⟨0, by decide, h5⟩
    · exact ⟨i, hlt i hi, h5⟩

end Bounds

section Stepping

variable {F : Type} [Add F] [Sub F] [Mul F] [Div F] [IntCast F] [LT F]
  [∀ a b : F, Decidable (a < b)] [DecidableEq F] [FloatOps F]

omit [DecidableEq F] [FloatOps F] [Sub F] [Mul F] [Div F] [IntCast F] in
/-- The stepping phase leaves the step vector and `delta_T` alone. -/
theorem advance_step (s : RayState F) :
    (advance s).step = s.step ∧ (advance s).delta_T = s.delta_T := by
  unfold advance
  split <;> split <;> simp [stepX, stepY, stepZ]

omit [DecidableEq F] in
/-- After the doubling phase of `buildOctantList` the step is
`allocation_size * step_base`, when it was before. -/
theorem doubleSize_step (p : Params F) (ray : Ray F) (m : Int) (s : RayState F)
    (h : s.step = stepOf ray.direction s.allocation_size) :
    (doubleSize p ray m s).step = stepOf ray.direction (doubleSize p ray m s).allocation_size := by
  unfold doubleSize
  split
  · rfl
  · exact h

omit [DecidableEq F] in
/-- After the doubling phase of `buildParentOctantList` the step is
`parent_size * step_base`, when it was before. -/
theorem doubleParentSize_step (p : Params F) (ray : Ray F) (m : Int) (s : ParentState F)
    (h : s.step = stepOf ray.direction s.parent_size) :
    (doubleParentSize p ray m s).step
      = stepOf ray.direction (doubleParentSize p ray m s).parent_size := by
  unfold doubleParentSize
  split
  · rfl
  · exact h

end Stepping

section SteppingExact

/-- C27: the stepping phase of `buildOctantList` and `buildParentOctantList`
advances exactly one axis `a` whose `T_max[a]` is the least of the three: it
sets `travelled` to that least value, adds `step[a]` to `curr_node[a]` and
`delta_T[a]` to `T_max[a]`, and changes nothing else; `x` is taken only when
strictly below `y` and `z`, `y` only when strictly below `z`.  In every
iteration of either allocator the step entering the phase is the cell side
(`allocation_size`, respectively `parent_size`) times `step_base`. -/
theorem stepping_phase (p : Params ℚ) (ray : Ray ℚ) (m : Int) :
    (∀ s : RayState ℚ,
      (advance s).travelled = min s.T_max.x (min s.T_max.y s.T_max.z) ∧
      ((s.T_max.x < s.T_max.y ∧ s.T_max.x < s.T_max.z ∧
          advance s = { s with
            travelled := s.T_max.x
            curr_node := ⟨s.curr_node.x + s.step.x, s.curr_node.y, s.curr_node.z⟩
            T_max := ⟨s.T_max.x + s.delta_T.x, s.T_max.y, s.T_max.z⟩ }) ∨
        (s.T_max.y ≤ s.T_max.x ∧ s.T_max.y < s.T_max.z ∧
          advance s = { s with
            travelled := s.T_max.y
            curr_node := ⟨s.curr_node.x, s.curr_node.y + s.step.y, s.curr_node.z⟩
            T_max := ⟨s.T_max.x, s.T_max.y + s.delta_T.y, s.T_max.z⟩ }) ∨
        (s.T_max.z ≤ s.T_max.x ∧ s.T_max.z ≤ s.T_max.y ∧
          advance s = { s with
            travelled := s.T_max.z
            curr_node := ⟨s.curr_node.x, s.curr_node.y, s.curr_node.z + s.step.z⟩
            T_max := ⟨s.T_max.x, s.T_max.y, s.T_max.z + s.delta_T.z⟩ }))) ∧
      (∀ (fuel : Nat) (w : World) (s : RayState ℚ),
        s ∈ initRay p ray :: doWhileStates (rayBody p ray m) (rayCond ray) fuel
          (initRay p ray) w →
        (doubleSize p ray m s).step
          = stepOf ray.direction (doubleSize p ray m s).allocation_size) ∧
      (∀ (fuel : Nat) (w : World) (s : ParentState ℚ),
        s ∈ initParentRay p ray :: doWhileStates (parentBody p ray m)
          (fun s => rayCond ray s.toRayState) fuel (initParentRay p ray) w →
        (doubleParentSize p ray m s).step
          = stepOf ray.direction (doubleParentSize p ray m s).parent_size) := by
  refine ⟨?_, ?_, ?_⟩
  · intro s
    unfold advance
    by_cases hxy : s.T_max.x < s.T_max.y
    · by_cases hxz : s.T_max.x < s.T_max.z
      · simp only [hxy, hxz, if_true]
        refine ⟨?_, Or.inl ⟨trivial, trivial, rfl⟩⟩
        show s.T_max.x = _
        rw [min_eq_left (le_min (le_of_lt hxy) (le_of_lt hxz))]
      · simp only [hxy, hxz, if_true, if_false]
        have hzx : s.T_max.z ≤ s.T_max.x := not_lt.1 hxz
        refine ⟨?_, Or.inr (Or.inr ⟨hzx, le_trans hzx (le_of_lt hxy), rfl⟩)⟩
        show s.T_max.z = _
        rw [min_eq_right (le_trans hzx (le_of_lt hxy)), min_eq_right hzx]
    · have hyx : s.T_max.y ≤ s.T_max.x := not_lt.1 hxy
      by_cases hyz : s.T_max.y < s.T_max.z
      · simp only [hxy, hyz, if_true, if_false]
        refine ⟨?_, Or.inr (Or.inl ⟨hyx, trivial, rfl⟩)⟩
        show s.T_max.y = _
        rw [min_eq_left (le_of_lt hyz), min_eq_right hyx]
      · simp only [hxy, hyz, if_false]
        have hzy : s.T_max.z ≤ s.T_max.y := not_lt.1 hyz
        refine ⟨?_, Or.inr (Or.inr ⟨le_trans hzy hyx, hzy, rfl⟩)⟩
        show s.T_max.z = _
        rw [min_eq_right hzy, min_eq_right (le_trans hzy hyx)]
  · intro fuel w s hs
    apply doubleSize_step
    have hinit : (initRay p ray).step
        = stepOf ray.direction (initRay p ray).allocation_size := rfl
    rcases List.mem_cons.1 hs with rfl | hs
    · exact hinit
    · refine doWhileStates_preserves _ _
        (fun s : RayState ℚ => s.step = stepOf ray.direction s.allocation_size)
        ?_ fuel _ w hinit s hs
      intro s w h _
      show (advance (doubleSize p ray m s)).step
        = stepOf ray.direction (advance (doubleSize p ray m s)).allocation_size
      rw [(advance_step _).1, (advance_size _).1]
      exact doubleSize_step p ray m s h
  · intro fuel w s hs
    apply doubleParentSize_step
    have hinit : (initParentRay p ray).step
        = stepOf ray.direction (initParentRay p ray).parent_size := rfl
    rcases List.mem_cons.1 hs with rfl | hs
    · exact hinit
    · refine doWhileStates_preserves _ _
        (fun s : ParentState ℚ => s.step = stepOf ray.direction s.parent_size)
        ?_ fuel _ w hinit s hs
      intro s w h hok
      have h1 := doubleParentSize_step p ray m s h
      unfold parentBody at hok ⊢
      simp only [] at hok ⊢
      cases hv : (visitParentCell p s w).1 with
      | ok =>
        show (advance (doubleParentSize p ray m s).toRayState).step = _
        rw [(advance_step _).1]
        exact h1
      | fuel => rw [hv] at hok; cases hok
      | fault => rw [hv] at hok; cases hok

end SteppingExact

section Flags

/-- A flag after a log is set iff it was set before or the log activates the
node. -/
theorem activeAfter_eq (log : List Event) (active : Key → Bool) (k : Key) :
    activeAfter log active k = (active k || decide (Event.activate k ∈ log)) := by
  unfold activeAfter
  induction log generalizing active with
  | nil => simp
  | cons e l ih =>
    rw [List.foldl_cons, ih]
    cases e with
    | activate n =>
      by_cases hk : k = n
      · subst hk; simp
      · have : ¬ n = k := fun h => hk h.symm
        simp [hk, this]
    | fetch x y z l => simp
    | hash key => simp
    | store b i key => simp

variable {F : Type} [Add F] [Sub F] [Mul F] [Div F] [IntCast F] [LT F]
  [∀ a b : F, Decidable (a < b)] [DecidableEq F] [FloatOps F]

omit [Add F] [Sub F] [Mul F] [Div F] [IntCast F] [LT F] [∀ a b : F, Decidable (a < b)]
  [DecidableEq F] [FloatOps F] in
/-- The per-cell action of `buildOctantList` calls `active(true)` only on the
node that `fetch_octant` returned. -/
theorem visitCell_activates (p : Params F) (s : RayState F) (w : World) (k : Key)
    (h : Event.activate k ∈ (visitCell p s w).log) :
    Event.activate k ∈ w.log ∨ p.oct.hasNode k := by
  unfold visitCell at h
  split at h
  · split at h
    · unfold emitKey at h
      simp only [World.record] at h
      left
      split at h <;> simpa using h
    · rename_i node hf
      split at h
      · simp only [World.record, List.mem_append, List.mem_singleton] at h
        rcases h with (h | h) | h
        · exact Or.inl h
        · cases h
        · injection h with h
          subst h
          exact Or.inr (Or.inl ⟨_, _, _, _, hf⟩)
      · left
        simpa [World.record] using h
  · exact Or.inl h

/-- Sibling activation calls `active(true)` only on nodes that `child`
returned. -/
theorem activateSiblings_activates (oct : Octree) (node : Key) (w : World) (k : Key)
    (h : Event.activate k ∈ (activateSiblings oct node w).2.log) :
    Event.activate k ∈ w.log ∨ oct.hasNode k := by
  unfold activateSiblings at h
  split at h
  · exact Or.inl h
  · rename_i q _
    revert h
    refine foldl_preserves _
      (fun acc : Status × World =>
        Event.activate k ∈ acc.2.log → Event.activate k ∈ w.log ∨ oct.hasNode k)
      ?_ _ _ (fun h => Or.inl h)
    intro acc i ih h
    split at h
    · split at h
      · exact ih h
      · rename_i c hc
        simp only [World.record, List.mem_append, List.mem_singleton] at h
        rcases h with h | h
        · exact ih h
        · injection h with h
          subst h
          exact Or.inr (Or.inr ⟨_, _, hc⟩)
    · exact ih h

omit [Add F] [Sub F] [Mul F] [Div F] [IntCast F] [LT F] [∀ a b : F, Decidable (a < b)]
  [DecidableEq F] [FloatOps F] in
/-- The per-cell action of `buildParentOctantList` calls `active(true)` only on
nodes that `child` returned. -/
theorem visitParentCell_activates (p : Params F) (s : ParentState F) (w : World) (k : Key)
    (h : Event.activate k ∈ (visitParentCell p s w).2.log) :
    Event.activate k ∈ w.log ∨ p.oct.hasNode k := by
  unfold visitParentCell at h
  split at h
  · split at h
    · unfold emitKey at h
      simp only [World.record] at h
      left
      split at h <;> simpa using h
    · split at h
      · rcases activateSiblings_activates p.oct _ _ k h with h1 | h1
        · left
          simpa [World.record] using h1
        · exact Or.inr h1
      · left
        simpa [World.record] using h
  · exact Or.inl h

omit [DecidableEq F] [Add F] [Sub F] [Mul F] [Div F] [FloatOps F] in
/-- The per-cell action of `buildDenseOctantList` calls `active(true)` only on
the node that `fetch_octant` returned. -/
theorem visitDenseCell_activates (fuel : Nat) (p : Params F) (reproject : Vec3 Int → Int → Bool)
    (s : DenseState F) (w : World) (k : Key)
    (h : Event.activate k ∈ (visitDenseCell fuel p reproject s w).2.2.log) :
    Event.activate k ∈ w.log ∨ p.oct.hasNode k := by
  unfold visitDenseCell at h
  simp only [] at h
  split at h
  · split at h
    · exact Or.inl h
    · split at h
      · unfold emitDense at h
        simp only [World.record] at h
        left
        split at h
        · split at h <;> simpa using h
        · split at h <;> simpa using h
      · rename_i node hf
        simp only [World.record, List.mem_append, List.mem_singleton] at h
        rcases h with (h | h) | h
        · exact Or.inl h
        · cases h
        · injection h with h
          subst h
          exact Or.inr (Or.inl ⟨_, _, _, _, hf⟩)
  · exact Or.inl h

/-- In every run of the three allocators `active(true)` is called only on
nodes of the octree. -/
theorem activations_on_nodes (fuel : Nat) (p : Params F)
    (reproject : Image → Vec3 Int → Int → Bool) (m : Int) (k : Key) :
    (Event.activate k ∈ (buildOctantList fuel p m).world.log → p.oct.hasNode k) ∧
    (Event.activate k ∈ (buildParentOctantList fuel p m).world.log → p.oct.hasNode k) ∧
    (Event.activate k ∈ (buildDenseOctantList fuel p reproject m).world.log →
      p.oct.hasNode k) := by
  refine ⟨?_, ?_, ?_⟩
  · unfold buildOctantList
    refine forPixels_preserves p 1 _ (fun w => Event.activate k ∈ w.log → p.oct.hasNode k)
      ?_ _ (by simp)
    intro x y d w hw
    unfold traverseRay
    refine doWhile_preserves _ _
      (fun _ w => Event.activate k ∈ w.log → p.oct.hasNode k) _ ?_ (fun _ _ h => h) fuel _ w hw
    intro s w h hk
    rcases visitCell_activates p s w k hk with h1 | h1
    · exact h h1
    · exact h1
  · unfold buildParentOctantList
    refine forPixels_preserves p 1 _ (fun w => Event.activate k ∈ w.log → p.oct.hasNode k)
      ?_ _ (by simp)
    intro x y d w hw
    unfold traverseParentRay
    refine doWhile_preserves _ _
      (fun _ w => Event.activate k ∈ w.log → p.oct.hasNode k) _ ?_ (fun _ _ h => h) fuel _ w hw
    intro s w h hk
    rw [parentBody_world] at hk
    rcases visitParentCell_activates p s w k hk with h1 | h1
    · exact h h1
    · exact h1
  · unfold buildDenseOctantList
    split
    · simp
    · refine forPixels_preserves p 2 _ (fun w => Event.activate k ∈ w.log → p.oct.hasNode k)
        ?_ _ (by simp)
      intro x y d w hw
      unfold traverseDenseRay
      refine doWhile_preserves _ _
        (fun _ w => Event.activate k ∈ w.log → p.oct.hasNode k) _ ?_ (fun _ _ h => h) fuel _ w hw
      intro s w h hk
      rw [denseBody_world] at hk
      rcases visitDenseCell_activates fuel p _ s w k hk with h1 | h1
      · exact h h1
      · exact h1

omit [Add F] [Sub F] [Mul F] [Div F] [IntCast F] [LT F] [∀ a b : F, Decidable (a < b)]
  [DecidableEq F] [FloatOps F] in
/-- Idempotence of an allocator whose runs call `active(true)` on nodes of the
octree only. -/
theorem Idempotent_of_activations (alloc : Params F → Int → Run) (p : Params F) (m : Int)
    (t : OctreeState)
    (h : ∀ k, Event.activate k ∈ (alloc { p with oct := t.oct } m).world.log → t.oct.hasNode k) :
    Idempotent alloc p m t := by
  unfold Idempotent runOn
  simp only []
  refine ⟨?_, trivial, fun k hk => hk, ?_, ?_⟩
  · funext k
    rw [activeAfter_eq, activeAfter_eq]
    cases t.active k <;> simp
  · intro k hk
    rw [activeAfter_eq, hk]; rfl
  · intro k hk
    rw [activeAfter_eq] at hk
    simp only [Bool.or_eq_true, decide_eq_true_eq] at hk
    rcases hk with h1 | h1
    · exact Or.inl h1
    · exact Or.inr ⟨h k h1, h1⟩

/-- C24 fails on the code: for the traversal origin `(-1/2, 1, 1)` the initial
cell of `buildOctantList` is `(0, 0, 0)` (the truncation goes toward zero), not
the cell `(-8, 0, 0)` that contains the origin: `c ≤ p_0` fails along `x`, the
initial fraction is `-1/16`, the initial `T_max.x` is `-3/4`, and the run
produces the key of the block at `(0, 0, 0)` for a position outside the map. -/
theorem initial_cell_truncated :
    (originV outsideParams outsideRay).x = -1 / 2 ∧
      (initRay outsideParams outsideRay).curr_node = ⟨0, 0, 0⟩ ∧
      ¬ (((initRay outsideParams outsideRay).curr_node.x : ℚ)
          ≤ (originV outsideParams outsideRay).x) ∧
      (fracOf (originV outsideParams outsideRay) (initRay outsideParams outsideRay).curr_node
          (initRay outsideParams outsideRay).allocation_size).x = -1 / 16 ∧
      (initRay outsideParams outsideRay).T_max.x = -3 / 4 ∧
      hashKeys (buildOctantList 50 outsideParams 8).world.log = [⟨0, 0, 0, 3⟩] := by
  decide!

omit [DecidableEq F] [Add F] [Sub F] [Mul F] [Div F] [FloatOps F] in
/-- C25, amended: when `fetch_octant` returns a node, `buildOctantList` calls
`active(true)` on it exactly when `allocation_level ≥ L_leaf`, and
`buildParentOctantList` activates the siblings exactly when
`allocation_level ≥ L_leaf`; below that level the step only records the fetch.
`buildDenseOctantList` calls `active(true)` on the node found at every
level. -/
theorem activation_guard (p : Params F) :
    (∀ (s : RayState F) (w : World) (node : Key),
      inBounds p.oct.size s.curr_node = true →
      p.oct.fetch_octant s.curr_node.x s.curr_node.y s.curr_node.z s.allocation_level
        = some node →
      (visitCell p s w).log =
        w.log ++ Event.fetch s.curr_node.x s.curr_node.y s.curr_node.z s.allocation_level ::
          (if s.allocation_level ≥ p.oct.leaves_level then [Event.activate node] else [])) ∧
      (∀ (s : ParentState F) (w : World) (node : Key),
        inBounds p.oct.size s.curr_node = true →
        p.oct.fetch_octant s.curr_node.x s.curr_node.y s.curr_node.z s.allocation_level
          = some node →
        visitParentCell p s w =
          (if s.allocation_level ≥ p.oct.leaves_level then
            activateSiblings p.oct node (w.record
              (Event.fetch s.curr_node.x s.curr_node.y s.curr_node.z s.allocation_level))
          else
            (Status.ok, w.record
              (Event.fetch s.curr_node.x s.curr_node.y s.curr_node.z s.allocation_level)))) ∧
      (∀ (fuel : Nat) (reproject : Vec3 Int → Int → Bool) (s : DenseState F) (w : World)
          (a : Adapted) (node : Key),
        inBounds p.oct.size s.curr_node = true →
        adaptLoop reproject p.oct.blockSide s.curr_max_allocation_size s.curr_node fuel
          s.curr_allocation_size s.curr_allocation_level false = some a →
        p.oct.fetch_octant a.node.x a.node.y a.node.z a.level = some node →
        (visitDenseCell fuel p reproject s w).2.2.log =
          w.log ++ [Event.fetch a.node.x a.node.y a.node.z a.level, Event.activate node]) := by
  refine ⟨?_, ?_, ?_⟩
  · intro s w node hb hf
    unfold visitCell
    simp only [hb, if_true, hf]
    split <;> simp [World.record]
  · intro s w node hb hf
    unfold visitParentCell
    simp only [hb, if_true, hf]
  · intro fuel reproject s w a node hb ha hf
    unfold visitDenseCell
    simp only [hb, if_true, ha, hf]
    simp [World.record]

/-- C28 fails on the code: for a `10 × 10` image and `d = 4` the mask is
`2 × 2`; the node of size 16 whose corners project to pixels between 7.4 and
8.2 passes the depth and image tests, its box is `[7, 8]` on both axes, so the
scan reads the cells with `x = 8 / 4 = 2` and `y = 2`, beyond the last column
and row, and the read at index `2 + 2 * 2` leaves the buffer. -/
theorem mask_read_out_of_range :
    (depth_mask (List.replicate 100 (1 : ℚ)) ⟨10, 10⟩ 4).map
        (fun m => (m.width, m.height, m.data)) = some (2, 2, [1, 1, 1, 1]) ∧
      allCornersPass (reprojectFrame identityPose unitCamera ⟨1216, 1216, 160⟩ (1 / 160 : ℚ) 16)
        ⟨10, 10⟩ = true ∧
      (bounds (cornerLoop (0 : ℚ)
          (reprojectFrame identityPose unitCamera ⟨1216, 1216, 160⟩ (1 / 160 : ℚ) 16)
          ⟨10, 10⟩).corners_p_x).2.tdiv 4 = edgeMask.width ∧
      (bounds (cornerLoop (0 : ℚ)
          (reprojectFrame identityPose unitCamera ⟨1216, 1216, 160⟩ (1 / 160 : ℚ) 16)
          ⟨10, 10⟩).corners_p_y).2.tdiv 4 = edgeMask.height ∧
      edgeMask.read (2 + 2 * edgeMask.width) = none ∧
      reprojectIntoImage (0 : ℚ) identityPose unitCamera ⟨10, 10⟩ edgeMask 4 ⟨1216, 1216, 160⟩
        (1 / 160) 16 = none := by
  decide!

end Flags

section FrustumScene

/-- On a `4 × 4` image, whose mask is the single cell `1`, no call of
`reprojectIntoImage` leaves the mask: the result is defined and says whether
all eight corners pass both tests. -/
theorem reproject_single_cell (Twc K : Mat4 ℚ) (node : Vec3 Int) (voxel_dim : ℚ) (size : Int) :
    reprojectIntoImage (0 : ℚ) Twc K ⟨4, 4⟩ ⟨1, 1, [1]⟩ 4 node voxel_dim size =
      some (allCornersPass (reprojectFrame Twc K node voxel_dim size) ⟨4, 4⟩) := by
  rw [reprojectIntoImage_eq]
  by_cases hp : allCornersPass (reprojectFrame Twc K node voxel_dim size) ⟨4, 4⟩ = true
  · rw [if_pos hp, hp]
    by_cases hs : 8 < size
    · rw [if_pos hs, maskScan_true _ _ (by decide)]
      have hc : ∀ i, i < 8 →
          (1 / 2 : ℚ) ≤ (corner_p (reprojectFrame Twc K node voxel_dim size) i).x ∧
          (corner_p (reprojectFrame Twc K node voxel_dim size) i).x ≤ 5 / 2 ∧
          (1 / 2 : ℚ) ≤ (corner_p (reprojectFrame Twc K node voxel_dim size) i).y ∧
          (corner_p (reprojectFrame Twc K node voxel_dim size) i).y ≤ 5 / 2 := by
        intro i hi
        unfold allCornersPass at hp
        rw [List.all_eq_true] at hp
        have h := hp i (List.mem_range.2 hi)
        simp only [Bool.and_eq_true, Bool.not_eq_true', outsideImage, Bool.or_eq_false_iff,
          decide_eq_false_iff_not, not_lt, floatLit] at h
        obtain ⟨_, ⟨⟨h1, h2⟩, h3⟩, h4⟩ := h
        norm_num at h1 h2 h3 h4
        exact ⟨h1, by linarith, h3, by linarith⟩
      have ht : ∀ v : ℚ, 1 / 2 ≤ v → v ≤ 5 / 2 →
          0 ≤ FloatOps.toInt v ∧ FloatOps.toInt v ≤ 2 := by
        intro v h1 h2
        rw [toInt_rat_nonneg v (by linarith)]
        exact ⟨Int.floor_nonneg.2 (by linarith), by
          have : ⌊v⌋ < 3 := Int.floor_lt.2 (by push_cast; linarith)
          omega⟩
      have hb : ∀ val : Nat → ℚ, (∀ i, i < 8 → 1 / 2 ≤ val i ∧ val i ≤ 5 / 2) →
          0 ≤ (bounds val).1 ∧ (bounds val).1 ≤ 2 ∧ 0 ≤ (bounds val).2 ∧ (bounds val).2 ≤ 2 := by
        intro val hv
        obtain ⟨h1, h2, h3, h4, h5⟩ := bounds_fold val (List.range' 1 7)
          (FloatOps.toInt (val 0)) (FloatOps.toInt (val 0)) (le_refl _)
        have h0 := ht (val 0) (hv 0 (by decide)).1 (hv 0 (by decide)).2
        have hl : ∀ i ∈ List.range' 1 7, 0 ≤ FloatOps.toInt (val i) ∧ FloatOps.toInt (val i) ≤ 2 := by
          intro i hi
          rw [List.mem_range'] at hi
          obtain ⟨k, hk, rfl⟩ := hi
          exact ht _ (hv _ (by omega)).1 (hv _ (by omega)).2
        unfold bounds
        refine ⟨?_, by omega, by omega, ?_⟩
        · rcases h4 with h | ⟨i, hi, h⟩
          · omega
          · have := hl i hi; omega
        · rcases h5 with h | ⟨i, hi, h⟩
          · omega
          · have := hl i hi; omega
      have hx := hb (fun i => (corner_p (reprojectFrame Twc K node voxel_dim size) i).x)
        (fun i hi => ⟨(hc i hi).1, (hc i hi).2.1⟩)
      have hy := hb (fun i => (corner_p (reprojectFrame Twc K node voxel_dim size) i).y)
        (fun i hi => ⟨(hc i hi).2.2.1, (hc i hi).2.2.2⟩)
      intro y hy' x hx'
      rw [mem_intRange] at hy' hx'
      have hx0 : x = 0 := by
        have h1 := hx'.1
        have h2 := hx'.2
        have e1 : (bounds fun i => (corner_p (reprojectFrame Twc K node voxel_dim size) i).x).1.tdiv 4
            = 0 := by
          rw [Int.tdiv_eq_ediv hx.1 (by decide)]; omega
        have e2 : (bounds fun i => (corner_p (reprojectFrame Twc K node voxel_dim size) i).x).2.tdiv 4
            = 0 := by
          rw [Int.tdiv_eq_ediv hx.2.2.1 (by decide)]; omega
        omega
      have hy0 : y = 0 := by
        have h1 := hy'.1
        have h2 := hy'.2
        have e1 : (bounds fun i => (corner_p (reprojectFrame Twc K node voxel_dim size) i).y).1.tdiv 4
            = 0 := by
          rw [Int.tdiv_eq_ediv hy.1 (by decide)]; omega
        have e2 : (bounds fun i => (corner_p (reprojectFrame Twc K node voxel_dim size) i).y).2.tdiv 4
            = 0 := by
          rw [Int.tdiv_eq_ediv hy.2.2.1 (by decide)]; omega
        omega
      subst hx0 hy0
      exact ⟨1, by decide, by decide⟩
    · rw [if_neg hs]
  · rw [if_neg hp]
    cases h : allCornersPass (reprojectFrame Twc K node voxel_dim size) ⟨4, 4⟩
    · rfl
    · exact absurd h hp

/-- In the scene of `frustumParams` every call of the reprojection test is the
defined result of `reprojectIntoImage`. -/
theorem frustumTest_exact (node : Vec3 Int) (size : Int) :
    reprojectIntoImage (0 : ℚ) frustumPose frustumCamera ⟨4, 4⟩ ⟨1, 1, [1]⟩ 4 node 1 size =
      some (frustumTest ⟨1, 1, [1]⟩ node size) := by
  unfold frustumTest
  rw [reproject_single_cell]
  cases allCornersPass (reprojectFrame frustumPose frustumCamera node 1 size) ⟨4, 4⟩ <;> simp

/-- C25 as stated fails for the dense allocator.  In the scene of
`frustumParams` the mask is the single cell `1`, the rays of the four pixels
visited by the stride-2 loops are the exact back-projections (unit
directions, exact distances, measured depths 30, 1, 1, 1), and the node of
side 16 at `(32, 32, 16)` (level 2, above the leaf level 3) is allocated and
passes `reprojectIntoImage`.  The run ends normally, fetches `(32, 32, 16)` at
level 2 and calls `active(true)` on the node found. -/
theorem dense_activates_coarse_node :
    (depth_mask frustumParams.depthmap frustumParams.image_size 4).map
        (fun m => (m.width, m.height, m.data)) = some (1, 1, [1]) ∧
      (∀ q ∈ [((0 : Nat), (0 : Nat), (30 : ℚ)), (2, 0, 1), (0, 2, 1), (2, 2, 1)],
        readDepth frustumParams.depthmap ((q.1 : Int) + (q.2.1 : Int) * 4) = some q.2.2 ∧
        (frustumParams.ray q.1 q.2.1 q.2.2).direction.x *
            (frustumParams.ray q.1 q.2.1 q.2.2).direction.x +
          (frustumParams.ray q.1 q.2.1 q.2.2).direction.y *
            (frustumParams.ray q.1 q.2.1 q.2.2).direction.y +
          (frustumParams.ray q.1 q.2.1 q.2.2).direction.z *
            (frustumParams.ray q.1 q.2.1 q.2.2).direction.z = 1 ∧
        0 ≤ (frustumParams.ray q.1 q.2.1 q.2.2).distance ∧
        (frustumParams.ray q.1 q.2.1 q.2.2).distance *
            (frustumParams.ray q.1 q.2.1 q.2.2).distance =
          (80 - (frustumParams.ray q.1 q.2.1 q.2.2).allocation_origin.x) *
              (80 - (frustumParams.ray q.1 q.2.1 q.2.2).allocation_origin.x) +
            (80 - (frustumParams.ray q.1 q.2.1 q.2.2).allocation_origin.y) *
              (80 - (frustumParams.ray q.1 q.2.1 q.2.2).allocation_origin.y) +
            (0 - (frustumParams.ray q.1 q.2.1 q.2.2).allocation_origin.z) *
              (0 - (frustumParams.ray q.1 q.2.1 q.2.2).allocation_origin.z)) ∧
      reprojectIntoImage (0 : ℚ) frustumPose frustumCamera ⟨4, 4⟩ ⟨1, 1, [1]⟩ 4 ⟨32, 32, 16⟩ 1 16
        = some true ∧
      frustumParams.oct.fetch_octant 32 32 16 2 = some ⟨32, 32, 16, 2⟩ ∧
      (2 : Int) < frustumParams.oct.leaves_level ∧
      (buildDenseOctantList 50 frustumParams frustumTest 64).status = Status.ok ∧
      Event.fetch 32 32 16 2 ∈ (buildDenseOctantList 50 frustumParams frustumTest 64).world.log ∧
      Event.activate ⟨32, 32, 16, 2⟩ ∈
        (buildDenseOctantList 50 frustumParams frustumTest 64).world.log := by
  decide!

end FrustumScene

end AllocImpl
